import Mathlib

/-!
Verification of the notion-ssh virtual-filesystem core.

Texts (JS strings) are modelled as lists of characters (`Str`); virtual
filesystem paths are modelled as lists of path segments (`VPath`), which is
the normalized form that `path.posix.join` produces on the absolute,
already-normalized paths the tree builder works with.
-/

abbrev Str := List Char

/-- Whitespace test matching the JS `\s` class on the ASCII characters the
model covers (space, tab, newline, carriage return, form feed, vertical tab). -/
def isWsChar (c : Char) : Bool :=
  c = ' ' || c = '\t' || c = '\n' || c = '\r' || c = '\x0c' || c = '\x0b'

/-- JS `String.prototype.trimStart`. -/
def trimStartS (s : Str) : Str := s.dropWhile isWsChar

/-- JS `String.prototype.trimEnd`. -/
def trimEndS (s : Str) : Str := (s.reverse.dropWhile isWsChar).reverse

/-- JS `String.prototype.trim`. -/
def trimS (s : Str) : Str := trimStartS (trimEndS s)

/-- JS `split('\n')`. -/
def splitLines (s : Str) : List Str :=
  match s with
  | [] => [[]]
  | c :: rest =>
    let tail := splitLines rest
    if c = '\n' then [] :: tail
    else (c :: tail.head!) :: tail.tail!

/-- JS `Array.prototype.join('\n')`. -/
def joinLines (ls : List Str) : Str :=
  match ls with
  | [] => []
  | [l] => l
  | l :: rest => l ++ '\n' :: joinLines rest

theorem splitLines_ne_nil (s : Str) : splitLines s ≠ [] := by
  cases s with
  | nil => simp [splitLines]
  | cons c rest =>
    simp only [splitLines]
    split <;> simp

theorem splitLines_append_newline (a b : Str) :
    splitLines (a ++ '\n' :: b) = splitLines a ++ splitLines b := by
  induction a with
  | nil => simp [splitLines]
  | cons c rest ih =>
    by_cases hc : c = '\n'
    · subst hc
      simp only [List.cons_append, splitLines, if_pos rfl, List.append_eq]
      rw [ih]
      simp
    · simp only [List.cons_append, splitLines, if_neg hc, List.append_eq]
      rw [ih]
      obtain ⟨x, xs, hA⟩ := List.exists_cons_of_ne_nil (splitLines_ne_nil rest)
      rw [hA]
      simp

theorem joinLines_splitLines (s : Str) : joinLines (splitLines s) = s := by
  induction s with
  | nil => simp [splitLines, joinLines]
  | cons c rest ih =>
    by_cases hc : c = '\n'
    · subst hc
      simp only [splitLines, if_pos rfl, joinLines]
      cases h : splitLines rest with
      | nil => exact absurd h (splitLines_ne_nil rest)
      | cons x xs => rw [h] at ih; simp [joinLines, ih]
    · simp only [splitLines, if_neg hc]
      cases h : splitLines rest with
      | nil => exact absurd h (splitLines_ne_nil rest)
      | cons x xs =>
        rw [h] at ih
        cases xs with
        | nil => simp [joinLines] at ih ⊢; simp [ih]
        | cons y ys => simp [joinLines] at ih ⊢; simp [ih]

theorem splitLines_eq_single (l : Str) (hl : '\n' ∉ l) : splitLines l = [l] := by
  induction l with
  | nil => simp [splitLines]
  | cons c cs ihc =>
    simp only [List.mem_cons, not_or] at hl
    have hc : ¬c = '\n' := fun h => hl.1 h.symm
    simp only [splitLines, if_neg hc, ihc hl.2]
    simp

theorem splitLines_joinLines (ls : List Str) (h : ls ≠ [])
    (hnl : ∀ l ∈ ls, '\n' ∉ l) : splitLines (joinLines ls) = ls := by
  induction ls with
  | nil => exact absurd rfl h
  | cons l rest ih =>
    cases rest with
    | nil =>
      simp only [joinLines]
      have hl : '\n' ∉ l := hnl l (by simp)
      exact splitLines_eq_single l hl
    | cons m ms =>
      simp only [joinLines]
      rw [splitLines_append_newline]
      have hl : '\n' ∉ l := hnl l (by simp)
      rw [splitLines_eq_single l hl, ih (by simp) (fun x hx => hnl x (by simp [hx]))]
      simp

/-! ### Decimal rendering of naturals (the JS template interpolation of a number) -/

def digitCharD (d : Nat) : Char := Char.ofNat (48 + d)

def natDecAux : Nat → Nat → Str
  | 0, _ => []
  | fuel + 1, n =>
    if n < 10 then [digitCharD n]
    else natDecAux fuel (n / 10) ++ [digitCharD (n % 10)]

/-- Decimal rendering of a natural number, as JS string interpolation produces. -/
def natDec (n : Nat) : Str := natDecAux (n + 1) n

theorem natDecAux_congr : ∀ f g n, n < f → n < g → natDecAux f n = natDecAux g n := by
  intro f
  induction f with
  | zero => intro g n hf; omega
  | succ f ih =>
    intro g n hf hg
    cases g with
    | zero => omega
    | succ g =>
      simp only [natDecAux]
      by_cases h10 : n < 10
      · simp [h10]
      · have hd : n / 10 < n := Nat.div_lt_self (by omega) (by omega)
        simp only [if_neg h10]
        rw [ih g (n / 10) (by omega) (by omega)]

theorem natDecAux_succ (fuel n : Nat) :
    natDecAux (fuel + 1) n = if n < 10 then [digitCharD n]
                             else natDecAux fuel (n / 10) ++ [digitCharD (n % 10)] := rfl

theorem natDec_eq (n : Nat) :
    natDec n = if n < 10 then [digitCharD n]
               else natDec (n / 10) ++ [digitCharD (n % 10)] := by
  show natDecAux (n + 1) n = _
  rw [natDecAux_succ]
  by_cases h10 : n < 10
  · simp [h10]
  · have hd : n / 10 < n := Nat.div_lt_self (by omega) (by omega)
    rw [if_neg h10, if_neg h10,
      natDecAux_congr n (n / 10 + 1) (n / 10) (by omega) (by omega)]
    rfl

theorem digitCharD_toNat (d : Nat) (h : d < 10) : (digitCharD d).toNat = 48 + d := by
  unfold digitCharD Char.ofNat
  rw [dif_pos (Or.inl (by omega : 48 + d < 55296))]
  rfl

theorem digitCharD_inj (d e : Nat) (hd : d < 10) (he : e < 10)
    (h : digitCharD d = digitCharD e) : d = e := by
  have := congrArg Char.toNat h
  rw [digitCharD_toNat d hd, digitCharD_toNat e he] at this
  omega

theorem natDec_ne_nil (n : Nat) : natDec n ≠ [] := by
  rw [natDec_eq]
  split <;> simp

theorem natDec_inj : ∀ a b, natDec a = natDec b → a = b := by
  intro a
  induction a using Nat.strong_induction_on with
  | _ a ih =>
    intro b h
    rw [natDec_eq a, natDec_eq b] at h
    by_cases ha : a < 10 <;> by_cases hb : b < 10
    · rw [if_pos ha, if_pos hb] at h
      exact digitCharD_inj a b ha hb (by injection h)
    · rw [if_pos ha, if_neg hb] at h
      obtain ⟨c, L, hc⟩ := List.exists_cons_of_ne_nil (natDec_ne_nil (b / 10))
      rw [hc] at h
      simp at h
    · rw [if_neg ha, if_pos hb] at h
      obtain ⟨c, L, hc⟩ := List.exists_cons_of_ne_nil (natDec_ne_nil (a / 10))
      rw [hc] at h
      simp at h
    · rw [if_neg ha, if_neg hb] at h
      have h2 := congrArg List.reverse h
      simp only [List.reverse_append, List.reverse_cons, List.reverse_nil,
        List.nil_append, List.cons_append] at h2
      have hmod : a % 10 = b % 10 :=
        digitCharD_inj _ _ (Nat.mod_lt _ (by omega)) (Nat.mod_lt _ (by omega))
          (by injection h2)
      have hrev : (natDec (a / 10)).reverse = (natDec (b / 10)).reverse := by
        injection h2
      have hdiv : a / 10 = b / 10 :=
        ih (a / 10) (Nat.div_lt_self (by omega) (by omega))
          (b / 10) (by have := congrArg List.reverse hrev; simpa using this)
      omega

/-! ### shortId and the slugify model -/

/-- `shortId` from the source: strip dashes from an id and keep the first 8
characters. -/
def shortId (id : Str) : Str := (id.filter (fun c => c ≠ '-')).take 8

def isAsciiAlphaNum (c : Char) : Bool :=
  (97 ≤ c.toNat && c.toNat ≤ 122) || (65 ≤ c.toNat && c.toNat ≤ 90) ||
    (48 ≤ c.toNat && c.toNat ≤ 57)

def toLowerAscii (c : Char) : Char :=
  if 65 ≤ c.toNat && c.toNat ≤ 90 then Char.ofNat (c.toNat + 32) else c

mutual

/-- Replace every maximal whitespace run with a single dash (the
`replace(/\s+/g, '-')` step of the slugify library). -/
def collapseWsDash : Str → Str
  | [] => []
  | c :: rest =>
    if isWsChar c then '-' :: collapseAfterWs rest
    else c :: collapseWsDash rest

/-- Skip the remainder of a whitespace run, then continue collapsing. -/
def collapseAfterWs : Str → Str
  | [] => []
  | c :: rest =>
    if isWsChar c then collapseAfterWs rest
    else c :: collapseWsDash rest

end

/-- Model of the `slugify` npm library at options
`lower: true, strict: true, trim: true` on ASCII input: strict mode removes
every character that is not alphanumeric or whitespace, the result is trimmed,
whitespace runs become single dashes, and the result is lowercased. -/
def slugifyModel (t : Str) : Str :=
  (collapseWsDash (trimS (t.filter (fun c => isAsciiAlphaNum c || isWsChar c)))).map
    toLowerAscii

/-- `slugFromTitle` from the source. -/
def slugFromTitle (title : Str) : Str :=
  let slugged := slugifyModel title
  if slugged ≠ [] then slugged else "untitled".data

/-! ### uniqueName: sibling name collision resolution -/

/-- The `while (usedNames.has(candidate)) i += 1` search of `uniqueName`,
made total by an explicit fuel that the call sites instantiate with more
candidates than `usedNames` has elements. -/
def findFreeSuffix (cand : Nat → Str) (used : Finset Str) : Nat → Nat → Option Nat
  | 0, _ => none
  | fuel + 1, i => if cand i ∈ used then findFreeSuffix cand used fuel (i + 1) else some i

theorem findFreeSuffix_spec (cand : Nat → Str) (used : Finset Str) :
    ∀ fuel i k, findFreeSuffix cand used fuel i = some k →
      cand k ∉ used ∧ i ≤ k ∧ ∀ j, i ≤ j → j < k → cand j ∈ used := by
  intro fuel
  induction fuel with
  | zero => intro i k h; simp [findFreeSuffix] at h
  | succ fuel ih =>
    intro i k h
    simp only [findFreeSuffix] at h
    by_cases hc : cand i ∈ used
    · rw [if_pos hc] at h
      obtain ⟨h1, h2, h3⟩ := ih (i + 1) k h
      refine ⟨h1, by omega, fun j hij hjk => ?_⟩
      by_cases hji : j = i
      · exact hji ▸ hc
      · exact h3 j (by omega) hjk
    · rw [if_neg hc] at h
      obtain rfl : i = k := by injection h
      exact ⟨hc, le_refl _, fun j h1 h2 => by omega⟩

theorem findFreeSuffix_isSome (cand : Nat → Str) (used : Finset Str)
    (hinj : Function.Injective cand) :
    ∀ i, ∃ k, findFreeSuffix cand used (used.card + 1) i = some k := by
  have main : ∀ fuel i, (∃ j, j < fuel ∧ cand (i + j) ∉ used) →
      ∃ k, findFreeSuffix cand used fuel i = some k := by
    intro fuel
    induction fuel with
    | zero => intro i h2; omega
    | succ fuel ih =>
      intro i h2
      simp only [findFreeSuffix]
      by_cases hc : cand i ∈ used
      · rw [if_pos hc]
        obtain ⟨j, hj1, hj2⟩ := h2
        have hj0 : j ≠ 0 := by rintro rfl; simp at hj2; exact hj2 hc
        exact ih (i + 1) ⟨j - 1, by omega, by
          have : i + 1 + (j - 1) = i + j := by omega
          rw [this]; exact hj2⟩
      · exact ⟨i, by rw [if_neg hc]⟩
  intro i
  apply main
  by_contra hall
  push_neg at hall
  have hsub : (Finset.range (used.card + 1)).image (fun j => cand (i + j)) ⊆ used := by
    intro x hx
    simp only [Finset.mem_image, Finset.mem_range] at hx
    obtain ⟨j, hj, rfl⟩ := hx
    exact hall j hj
  have hcard := Finset.card_le_card hsub
  rw [Finset.card_image_of_injOn (fun a _ b _ hab => by
    have := hinj hab; omega)] at hcard
  rw [Finset.card_range] at hcard
  omega

/-- `uniqueName` from the source: first try the base name, then the base name
with a short id fingerprint, then incrementing numeric suffixes starting at 2.
The returned set is `usedNames` after the source's `usedNames.add(...)`. -/
def uniqueName (baseName : Str) (usedNames : Finset Str) (fallbackId : Str) :
    Str × Finset Str :=
  if baseName ∉ usedNames then (baseName, insert baseName usedNames)
  else
    let withId : Str := baseName ++ '-' :: shortId fallbackId
    if withId ∉ usedNames then (withId, insert withId usedNames)
    else
      let cand : Nat → Str := fun i => withId ++ '-' :: natDec i
      let k := (findFreeSuffix cand usedNames (usedNames.card + 1) 2).getD 2
      (cand k, insert (cand k) usedNames)

theorem dashSuffix_ne (b x : Str) : b ++ '-' :: x ≠ b := by
  intro h
  have := congrArg List.length h
  simp at this

theorem dashSuffix_cand_inj (w : Str) :
    Function.Injective (fun i => w ++ '-' :: natDec i) := by
  intro i j h
  simp only at h
  have h2 := List.append_cancel_left h
  exact natDec_inj i j (by injection h2)

theorem uniqueName_eq_of_collision (baseName : Str) (usedNames : Finset Str)
    (fallbackId : Str) (h1 : baseName ∈ usedNames)
    (h2 : baseName ++ '-' :: shortId fallbackId ∈ usedNames) :
    ∃ k, findFreeSuffix (fun i => baseName ++ '-' :: shortId fallbackId ++ '-' :: natDec i)
          usedNames (usedNames.card + 1) 2 = some k ∧
      uniqueName baseName usedNames fallbackId =
        (baseName ++ '-' :: shortId fallbackId ++ '-' :: natDec k,
         insert (baseName ++ '-' :: shortId fallbackId ++ '-' :: natDec k) usedNames) := by
  obtain ⟨k, hk⟩ := findFreeSuffix_isSome
    (fun i => baseName ++ '-' :: shortId fallbackId ++ '-' :: natDec i) usedNames
    (by
      have := dashSuffix_cand_inj (baseName ++ '-' :: shortId fallbackId)
      simpa using this) 2
  refine ⟨k, by simpa using hk, ?_⟩
  simp only [uniqueName, if_neg (not_not_intro h1), if_neg (not_not_intro h2)]
  have hk2 : findFreeSuffix
      (fun i => (baseName ++ '-' :: shortId fallbackId) ++ '-' :: natDec i)
      usedNames (usedNames.card + 1) 2 = some k := by
    rw [show (fun i => (baseName ++ '-' :: shortId fallbackId) ++ '-' :: natDec i) =
      (fun i => baseName ++ '-' :: shortId fallbackId ++ '-' :: natDec i) from
      funext (fun i => by simp)]
    exact hk
  rw [hk2]
  simp

theorem uniqueName_fresh (baseName : Str) (usedNames : Finset Str) (fallbackId : Str) :
    (uniqueName baseName usedNames fallbackId).1 ∉ usedNames ∧
      (uniqueName baseName usedNames fallbackId).2 =
        insert (uniqueName baseName usedNames fallbackId).1 usedNames := by
  by_cases h1 : baseName ∈ usedNames
  · by_cases h2 : baseName ++ '-' :: shortId fallbackId ∈ usedNames
    · obtain ⟨k, hk, heq⟩ := uniqueName_eq_of_collision baseName usedNames fallbackId h1 h2
      rw [heq]
      have := (findFreeSuffix_spec _ usedNames _ _ _ hk).1
      exact ⟨this, rfl⟩
    · simp only [uniqueName, if_neg (not_not_intro h1), if_pos h2]
      exact ⟨h2, trivial⟩
  · simp only [uniqueName, if_pos h1]
    exact ⟨h1, trivial⟩

/-- The per-sibling-set name assignment: fold `uniqueName` over the records of
one directory in order (as `buildPageTree` does for one parent's children). -/
def assignSiblingNames : List (Str × Str) → Finset Str → List Str
  | [], _ => []
  | (title, id) :: rest, used =>
    let r := uniqueName (slugFromTitle title) used id
    r.1 :: assignSiblingNames rest r.2

theorem assignSiblingNames_nodup :
    ∀ recs (used : Finset Str), (assignSiblingNames recs used).Nodup ∧
      ∀ n ∈ assignSiblingNames recs used, n ∉ used := by
  intro recs
  induction recs with
  | nil => intro used; simp [assignSiblingNames]
  | cons r rest ih =>
    intro used
    obtain ⟨title, id⟩ := r
    simp only [assignSiblingNames]
    obtain ⟨hfresh, hins⟩ := uniqueName_fresh (slugFromTitle title) used id
    obtain ⟨hnd, hnotin⟩ := ih (uniqueName (slugFromTitle title) used id).2
    constructor
    · refine List.nodup_cons.mpr ⟨fun hmem => ?_, hnd⟩
      have := hnotin _ hmem
      rw [hins] at this
      exact this (Finset.mem_insert_self _ _)
    · intro n hn
      rcases List.mem_cons.mp hn with rfl | hn2
      · exact hfresh
      · intro hnu
        have := hnotin n hn2
        rw [hins] at this
        exact this (Finset.mem_insert_of_mem hnu)

/-- C4: sibling name collision resolution is deterministic (it is a pure
function of the sibling set and record order) and terminating: the first
record with a normalized slug uses the slug, a second record with the same
slug gets the slug plus a short fingerprint of its id, a further collision
gets the least free numeric suffix starting at 2; all names produced for one
sibling set are distinct, and two records titled "Draft" resolve to `draft`
and `draft-<fingerprint>`. -/
theorem c4_unique_name_resolution (base : Str) (used : Finset Str) (id : Str) :
    (base ∉ used → (uniqueName base used id).1 = base) ∧
    (base ∈ used → base ++ '-' :: shortId id ∉ used →
      (uniqueName base used id).1 = base ++ '-' :: shortId id) ∧
    (base ∈ used → base ++ '-' :: shortId id ∈ used →
      ∃ k, 2 ≤ k ∧
        (uniqueName base used id).1 = (base ++ '-' :: shortId id) ++ '-' :: natDec k ∧
        (base ++ '-' :: shortId id) ++ '-' :: natDec k ∉ used ∧
        ∀ j, 2 ≤ j → j < k → (base ++ '-' :: shortId id) ++ '-' :: natDec j ∈ used) ∧
    ((uniqueName base used id).1 ∉ used) ∧
    (∀ recs (u0 : Finset Str), (assignSiblingNames recs u0).Nodup) ∧
    (∀ idA idB : Str,
      assignSiblingNames [("Draft".data, idA), ("Draft".data, idB)] ∅ =
        ["draft".data, "draft".data ++ '-' :: shortId idB]) := by
  refine ⟨?_, ?_, ?_, (uniqueName_fresh base used id).1, ?_, ?_⟩
  · intro h
    simp only [uniqueName, if_pos h]
  · intro h1 h2
    simp only [uniqueName, if_neg (not_not_intro h1), if_pos h2]
  · intro h1 h2
    obtain ⟨k, hk, heq⟩ := uniqueName_eq_of_collision base used id h1 h2
    obtain ⟨hfree, hge, hleast⟩ := findFreeSuffix_spec _ used _ _ _ hk
    refine ⟨k, hge, ?_, ?_, ?_⟩
    · rw [heq]
    · simpa using hfree
    · intro j hj1 hj2
      simpa using hleast j hj1 hj2
  · intro recs u0
    exact (assignSiblingNames_nodup recs u0).1
  · intro idA idB
    have hslug : slugFromTitle "Draft".data = "draft".data := by decide
    simp only [assignSiblingNames, hslug]
    have h1 : uniqueName "draft".data ∅ idA = ("draft".data, {"draft".data}) := by
      simp [uniqueName]
    rw [h1]
    have hmem : "draft".data ∈ ({"draft".data} : Finset Str) := Finset.mem_singleton_self _
    have hnot : "draft".data ++ '-' :: shortId idB ∉ ({"draft".data} : Finset Str) := by
      intro hm
      exact dashSuffix_ne _ _ (Finset.mem_singleton.mp hm)
    have h2 : uniqueName "draft".data {"draft".data} idB =
        ("draft".data ++ '-' :: shortId idB,
          insert ("draft".data ++ '-' :: shortId idB) {"draft".data}) := by
      simp only [uniqueName, if_neg (not_not_intro hmem), if_pos hnot]
    rw [h2]

/-- Witness for C4 at concrete inputs: the fingerprint branch fires for a
second "draft" under the same parent. -/
theorem c4_unique_name_resolution_witness :
    "draft".data ∈ ({"draft".data} : Finset Str) ∧
    "draft".data ++ '-' :: shortId "abc123".data ∉ ({"draft".data} : Finset Str) ∧
    (uniqueName "draft".data {"draft".data} "abc123".data).1 =
      "draft".data ++ '-' :: shortId "abc123".data :=
  ⟨by decide, by decide,
    (c4_unique_name_resolution "draft".data {"draft".data} "abc123".data).2.1
      (by decide) (by decide)⟩

/-! ### The virtual filesystem data model

A `VPath` is an absolute normalized POSIX path given by its segment list:
`[]` is `/`, `["pages"]` is `/pages`, and `posix.join parent name` is
`parent ++ [name]`. -/

abbrev VPath := List Str

/-- The `parent` field of a Notion record, as the source inspects it
(`parent?.type === 'page_id' | 'database_id'`, anything else treated alike). -/
inductive ParentRef where
  | pageRef (id : Str)
  | databaseRef (id : Str)
  | workspace
deriving DecidableEq

/-- `NotionRecordMeta` from the gateway. -/
structure NotionRecordMeta where
  id : Str
  title : Str
  parent : ParentRef
  createdTime : Str
  lastEditedTime : Str
  owner : Str
deriving DecidableEq

/-- `EntryMeta` from `vfs/types.ts` (all fields optional). -/
structure EntryMeta where
  createdTime : Option Str := none
  lastEditedTime : Option Str := none
  owner : Option Str := none
  pageId : Option Str := none
  databaseId : Option Str := none
deriving DecidableEq, Inhabited

/-- `FsEntry` from `vfs/types.ts`: directory, page file, or read-only
database placeholder. -/
inductive FsEntry where
  | dir (name : Str) (path : VPath) (parentPath : VPath) (children : Finset VPath)
      (meta : EntryMeta)
  | file (name : Str) (path : VPath) (parentPath : VPath) (pageId : Str)
      (meta : EntryMeta)
  | db (name : Str) (path : VPath) (parentPath : VPath) (databaseId : Str)
      (meta : EntryMeta)
deriving DecidableEq, Inhabited

def FsEntry.epath : FsEntry → VPath
  | .dir _ p _ _ _ => p
  | .file _ p _ _ _ => p
  | .db _ p _ _ _ => p

def FsEntry.eparent : FsEntry → VPath
  | .dir _ _ pp _ _ => pp
  | .file _ _ pp _ _ => pp
  | .db _ _ pp _ _ => pp

def FsEntry.ename : FsEntry → Str
  | .dir n _ _ _ _ => n
  | .file n _ _ _ _ => n
  | .db n _ _ _ _ => n

def FsEntry.isDir : FsEntry → Bool
  | .dir _ _ _ _ _ => true
  | _ => false

def FsEntry.childrenOf : FsEntry → Finset VPath
  | .dir _ _ _ ch _ => ch
  | _ => ∅

/-- The `entries` JS `Map<string, FsEntry>` keyed by path, modelled as an
association list in insertion order with replace-on-set semantics. -/
abbrev EMap := List (VPath × FsEntry)

def mget : EMap → VPath → Option FsEntry
  | [], _ => none
  | kv :: rest, k => if kv.1 = k then some kv.2 else mget rest k

def mhas (m : EMap) (k : VPath) : Bool := (mget m k).isSome

def replaceKey : EMap → VPath → FsEntry → EMap
  | [], _, _ => []
  | kv :: rest, k, v =>
    if kv.1 = k then (k, v) :: replaceKey rest k v else kv :: replaceKey rest k v

def mset (m : EMap) (k : VPath) (v : FsEntry) : EMap :=
  if mhas m k then replaceKey m k v else m ++ [(k, v)]

def mkeys (m : EMap) : List VPath := m.map (·.1)

theorem mget_eq_none_iff (m : EMap) (k : VPath) : mget m k = none ↔ k ∉ mkeys m := by
  induction m with
  | nil => simp [mget, mkeys]
  | cons kv rest ih =>
    simp only [mget, mkeys, List.map_cons, List.mem_cons]
    by_cases h : kv.1 = k
    · simp [h]
    · rw [if_neg h]
      simp only [mkeys] at ih
      rw [ih]
      constructor
      · intro hnotin hor
        rcases hor with hh | hh
        · exact h hh.symm
        · exact hnotin hh
      · intro hno hmem
        exact hno (Or.inr hmem)

theorem mhas_iff (m : EMap) (k : VPath) : mhas m k = true ↔ k ∈ mkeys m := by
  unfold mhas
  rw [← not_iff_not, ← mget_eq_none_iff m k]
  cases mget m k <;> simp

theorem mget_replaceKey_self (m : EMap) (k : VPath) (v : FsEntry)
    (h : k ∈ mkeys m) : mget (replaceKey m k v) k = some v := by
  induction m with
  | nil => simp [mkeys] at h
  | cons kv rest ih =>
    simp only [replaceKey]
    by_cases hk : kv.1 = k
    · rw [if_pos hk]; simp [mget]
    · rw [if_neg hk]
      simp only [mget, if_neg hk]
      apply ih
      simp only [mkeys, List.map_cons, List.mem_cons] at h
      rcases h with h | h
      · exact absurd h.symm hk
      · exact h

theorem mget_replaceKey_ne (m : EMap) (k k' : VPath) (v : FsEntry) (h : k ≠ k') :
    mget (replaceKey m k v) k' = mget m k' := by
  induction m with
  | nil => simp [replaceKey]
  | cons kv rest ih =>
    simp only [replaceKey]
    by_cases hk : kv.1 = k
    · rw [if_pos hk]
      simp only [mget, if_neg h, if_neg (hk ▸ (fun hx => h (hk ▸ hx)) : ¬kv.1 = k')]
      exact ih
    · rw [if_neg hk]
      simp only [mget]
      by_cases hk' : kv.1 = k'
      · rw [if_pos hk', if_pos hk']
      · rw [if_neg hk', if_neg hk']
        exact ih

theorem mget_append_single (m : EMap) (k : VPath) (v : FsEntry) (k' : VPath) :
    mget (m ++ [(k, v)]) k' = if k' ∈ mkeys m then mget m k'
                              else if k = k' then some v else none := by
  induction m with
  | nil => simp [mget, mkeys]
  | cons kv rest ih =>
    by_cases hk : kv.1 = k'
    · rw [if_pos (show k' ∈ mkeys (kv :: rest) by simp [mkeys, hk.symm])]
      show (if kv.1 = k' then some kv.2 else mget (rest ++ [(k, v)]) k') =
        mget (kv :: rest) k'
      simp [mget, hk]
    · have hne : ¬k' = kv.1 := fun hh => hk hh.symm
      show (if kv.1 = k' then some kv.2 else mget (rest ++ [(k, v)]) k') = _
      rw [if_neg hk, ih]
      by_cases hmem : k' ∈ mkeys rest
      · rw [if_pos hmem,
          if_pos (show k' ∈ mkeys (kv :: rest) by
            simp only [mkeys, List.map_cons, List.mem_cons]
            exact Or.inr hmem)]
        show mget rest k' = if kv.1 = k' then some kv.2 else mget rest k'
        rw [if_neg hk]
      · rw [if_neg hmem,
          if_neg (show k' ∉ mkeys (kv :: rest) by
            simp only [mkeys, List.map_cons, List.mem_cons]
            exact not_or.mpr ⟨hne, hmem⟩)]

theorem mget_mset_self (m : EMap) (k : VPath) (v : FsEntry) :
    mget (mset m k v) k = some v := by
  unfold mset
  by_cases h : mhas m k
  · rw [if_pos h]
    exact mget_replaceKey_self m k v ((mhas_iff m k).mp h)
  · rw [if_neg h, mget_append_single]
    have hk : k ∉ mkeys m := fun hh => h ((mhas_iff m k).mpr hh)
    simp [hk]

theorem mget_mset_ne (m : EMap) (k k' : VPath) (v : FsEntry) (h : k ≠ k') :
    mget (mset m k v) k' = mget m k' := by
  unfold mset
  by_cases hh : mhas m k
  · rw [if_pos hh]
    exact mget_replaceKey_ne m k k' v h
  · rw [if_neg hh, mget_append_single]
    by_cases hk' : k' ∈ mkeys m
    · simp [hk']
    · rw [if_neg hk', if_neg h]
      exact ((mget_eq_none_iff m k').mpr hk').symm

theorem mkeys_replaceKey (m : EMap) (k : VPath) (v : FsEntry) :
    mkeys (replaceKey m k v) = mkeys m := by
  induction m with
  | nil => simp [replaceKey]
  | cons kv rest ih =>
    simp only [replaceKey]
    by_cases hk : kv.1 = k
    · rw [if_pos hk]
      simp only [mkeys, List.map_cons] at ih ⊢
      rw [ih, hk]
    · rw [if_neg hk]
      simp only [mkeys, List.map_cons] at ih ⊢
      rw [ih]

theorem mkeys_mset (m : EMap) (k : VPath) (v : FsEntry) :
    mkeys (mset m k v) = if mhas m k then mkeys m else mkeys m ++ [k] := by
  unfold mset
  by_cases h : mhas m k
  · rw [if_pos h, if_pos h, mkeys_replaceKey]
  · rw [if_neg h, if_neg h]
    simp [mkeys]

theorem mkeys_mset_nodup (m : EMap) (k : VPath) (v : FsEntry)
    (h : (mkeys m).Nodup) : (mkeys (mset m k v)).Nodup := by
  rw [mkeys_mset]
  by_cases hh : mhas m k
  · rwa [if_pos hh]
  · rw [if_neg hh]
    have hk : k ∉ mkeys m := fun hm => hh ((mhas_iff m k).mpr hm)
    simp [List.nodup_append, h, hk]

theorem mset_mono (m : EMap) (k : VPath) (v : FsEntry) (k' : VPath) (v' : FsEntry)
    (hfresh : mget m k = none) (hget : mget m k' = some v') :
    mget (mset m k v) k' = some v' := by
  have : k ≠ k' := by
    rintro rfl
    rw [hget] at hfresh
    exact Option.noConfusion hfresh
  rw [mget_mset_ne m k k' v this]
  exact hget

/-! ### VirtualFs state and tree construction (`refresh`) -/

inductive BuildErr where
  | parentDirMissing (p : VPath)
  | outOfFuel
deriving DecidableEq

/-- The parts of `VirtualFs` state that `refresh` rebuilds. `sibNames` models
`siblingNamesByPath`, `dbNames` models `dbNamesByParent`. -/
structure BuildState where
  entries : EMap
  pageDirPathById : Str → Option VPath
  sibNames : VPath → Finset Str
  dbNames : VPath → Finset Str
  notionPages : Str → Option NotionRecordMeta

/-- `reset()`: the namespace tree always restarts with the root directory `/`
(whose `parentPath` is itself) holding the single child `/pages`. -/
def resetState : BuildState where
  entries :=
    [([], .dir "/".data [] [] {["pages".data]} {}),
     (["pages".data], .dir "pages".data ["pages".data] [] ∅ {})]
  pageDirPathById := fun _ => none
  sibNames := fun _ => ∅
  dbNames := fun _ => ∅
  notionPages := fun _ => none

def pageMeta (page : NotionRecordMeta) : EntryMeta :=
  { pageId := some page.id, owner := some page.owner,
    createdTime := some page.createdTime, lastEditedTime := some page.lastEditedTime }

def dbMeta (database : NotionRecordMeta) : EntryMeta :=
  { databaseId := some database.id, owner := some database.owner,
    createdTime := some database.createdTime,
    lastEditedTime := some database.lastEditedTime }

/-- `addDir`: `ensureParentDir`, insert the new directory entry, and add it to
the parent's child set. A missing or non-directory parent is the fatal
"Parent directory missing" error. -/
def addDir (st : BuildState) (pathname : VPath) (name : Str) (parentPath : VPath)
    (meta : EntryMeta) : Except BuildErr BuildState :=
  match mget st.entries parentPath with
  | some (.dir pn pp ppp pch pmeta) =>
    let m1 := mset st.entries pathname (.dir name pathname parentPath ∅ meta)
    let m2 := mset m1 parentPath (.dir pn pp ppp (insert pathname pch) pmeta)
    .ok { st with entries := m2 }
  | _ => .error (.parentDirMissing parentPath)

/-- `addPageFile`: insert the fixed-name `index.md` content file. -/
def addPageFile (st : BuildState) (pathname : VPath) (parentPath : VPath)
    (page : NotionRecordMeta) : Except BuildErr BuildState :=
  match mget st.entries parentPath with
  | some (.dir pn pp ppp pch pmeta) =>
    let m1 := mset st.entries pathname
      (.file "index.md".data pathname parentPath page.id (pageMeta page))
    let m2 := mset m1 parentPath (.dir pn pp ppp (insert pathname pch) pmeta)
    .ok { st with entries := m2 }
  | _ => .error (.parentDirMissing parentPath)

/-- `addDbPlaceholder`: insert a read-only database placeholder entry. -/
def addDbPlaceholder (st : BuildState) (pathname : VPath) (name : Str)
    (parentPath : VPath) (database : NotionRecordMeta) : Except BuildErr BuildState :=
  match mget st.entries parentPath with
  | some (.dir pn pp ppp pch pmeta) =>
    let m1 := mset st.entries pathname
      (.db name pathname parentPath database.id (dbMeta database))
    let m2 := mset m1 parentPath (.dir pn pp ppp (insert pathname pch) pmeta)
    .ok { st with entries := m2 }
  | _ => .error (.parentDirMissing parentPath)

/-- The `while (entries.has(...))` suffix search of `findUniquePath`, with
fuel instantiated to one more candidate than there are entries. -/
def findFreeIdx (p : Nat → Bool) : Nat → Nat → Option Nat
  | 0, _ => none
  | fuel + 1, i => if p i then findFreeIdx p fuel (i + 1) else some i

theorem findFreeIdx_spec (p : Nat → Bool) :
    ∀ fuel i k, findFreeIdx p fuel i = some k →
      p k = false ∧ i ≤ k ∧ ∀ j, i ≤ j → j < k → p j = true := by
  intro fuel
  induction fuel with
  | zero => intro i k h; simp [findFreeIdx] at h
  | succ fuel ih =>
    intro i k h
    simp only [findFreeIdx] at h
    by_cases hc : p i
    · rw [if_pos hc] at h
      obtain ⟨h1, h2, h3⟩ := ih (i + 1) k h
      refine ⟨h1, by omega, fun j hij hjk => ?_⟩
      by_cases hji : j = i
      · exact hji ▸ hc
      · exact h3 j (by omega) hjk
    · rw [if_neg hc] at h
      obtain rfl : i = k := by injection h
      exact ⟨by simpa using hc, le_refl _, fun j h1 h2 => by omega⟩

theorem findFreeIdx_isSome_of_keys (m : EMap) (cand : Nat → VPath)
    (hinj : Function.Injective cand) :
    ∀ i, ∃ k, findFreeIdx (fun j => mhas m (cand j)) (m.length + 1) i = some k := by
  have main : ∀ fuel i, (∃ j, j < fuel ∧ mhas m (cand (i + j)) = false) →
      ∃ k, findFreeIdx (fun j => mhas m (cand j)) fuel i = some k := by
    intro fuel
    induction fuel with
    | zero => intro i h2; omega
    | succ fuel ih =>
      intro i h2
      simp only [findFreeIdx]
      by_cases hc : mhas m (cand i)
      · rw [if_pos hc]
        obtain ⟨j, hj1, hj2⟩ := h2
        have hj0 : j ≠ 0 := by rintro rfl; simp at hj2; rw [hc] at hj2; cases hj2
        exact ih (i + 1) ⟨j - 1, by omega, by
          have : i + 1 + (j - 1) = i + j := by omega
          rw [this]; exact hj2⟩
      · exact ⟨i, by rw [if_neg (by simpa using hc)]⟩
  intro i
  apply main
  by_contra hall
  push_neg at hall
  have hsub : (Finset.range (m.length + 1)).image (fun j => cand (i + j)) ⊆
      (mkeys m).toFinset := by
    intro x hx
    simp only [Finset.mem_image, Finset.mem_range] at hx
    obtain ⟨j, hj, rfl⟩ := hx
    have := hall j hj
    rw [List.mem_toFinset]
    exact (mhas_iff m _).mp (by simpa using this)
  have hcard := Finset.card_le_card hsub
  rw [Finset.card_image_of_injOn (fun a _ b _ hab => by
    have := hinj hab; omega), Finset.card_range] at hcard
  have h1 : (mkeys m).toFinset.card ≤ (mkeys m).length := (mkeys m).toFinset_card_le
  have h2 : (mkeys m).length = m.length := by simp [mkeys]
  omega

/-- `findUniquePath` from the source: use `parent/filename` if free, else the
first free `parent/filename-i` with `i` counting up from 2. -/
def findUniquePath (m : EMap) (parentPath : VPath) (filename : Str) : VPath :=
  if ¬ mhas m (parentPath ++ [filename]) then parentPath ++ [filename]
  else
    let k := (findFreeIdx (fun i => mhas m (parentPath ++ [filename ++ '-' :: natDec i]))
      (m.length + 1) 2).getD 2
    parentPath ++ [filename ++ '-' :: natDec k]

theorem findUniquePath_fresh (m : EMap) (parentPath : VPath) (filename : Str) :
    mget m (findUniquePath m parentPath filename) = none ∧
      ∃ seg : Str, findUniquePath m parentPath filename = parentPath ++ [seg] ∧
        (seg = filename ∨ ∃ k, seg = filename ++ '-' :: natDec k) := by
  unfold findUniquePath
  by_cases h : mhas m (parentPath ++ [filename])
  · rw [if_neg (not_not_intro h)]
    obtain ⟨k, hk⟩ := findFreeIdx_isSome_of_keys m
      (fun i => parentPath ++ [filename ++ '-' :: natDec i])
      (fun a b hab => by
        simp only at hab
        have h1 : ([filename ++ '-' :: natDec a] : List Str) = [filename ++ '-' :: natDec b] :=
          List.append_cancel_left hab
        have h2 : filename ++ '-' :: natDec a = filename ++ '-' :: natDec b := by
          injection h1
        have h3 : ('-' :: natDec a : Str) = '-' :: natDec b := List.append_cancel_left h2
        exact natDec_inj a b (by injection h3)) 2
    rw [hk]
    obtain ⟨hfree, _, _⟩ := findFreeIdx_spec _ _ _ _ hk
    refine ⟨?_, filename ++ '-' :: natDec k, rfl, Or.inr ⟨k, rfl⟩⟩
    simp only [Option.getD_some]
    unfold mhas at hfree
    cases hmm : mget m (parentPath ++ [filename ++ '-' :: natDec k]) with
    | none => rfl
    | some e => rw [hmm] at hfree; simp at hfree
  · rw [if_pos h]
    unfold mhas at h
    refine ⟨?_, filename, rfl, Or.inl rfl⟩
    cases hmm : mget m (parentPath ++ [filename]) with
    | none => rfl
    | some e => rw [hmm] at h; simp at h

/-- Deterministic total order on texts standing in for JS `localeCompare`
(modelled as code-point lexicographic comparison; the claims do not depend on
which total order the sort uses). -/
def lexLe : Str → Str → Bool
  | [], _ => true
  | _ :: _, [] => false
  | c :: cs, d :: ds =>
    if c.toNat < d.toNat then true
    else if d.toNat < c.toNat then false
    else lexLe cs ds

/-- `this.notionPages`: a map from id to record, written by iterating over the
pages in order (a later record with the same id overwrites). -/
def buildNotionPages (pages : List NotionRecordMeta) : Str → Option NotionRecordMeta :=
  pages.foldl (fun acc p => fun k => if k = p.id then some p else acc k) (fun _ => none)

/-- `page.parent?.type !== 'database_id'`. -/
def isEligible (p : NotionRecordMeta) : Bool :=
  match p.parent with
  | .databaseRef _ => false
  | _ => true

/-- The roots/children classification loop of `refresh`: a page whose parent
page id is unknown is treated as a root. `cbp` is `childrenByParentPage`. -/
def classifyPages (np : Str → Option NotionRecordMeta) :
    List NotionRecordMeta → (Str → List NotionRecordMeta) → List NotionRecordMeta →
      ((Str → List NotionRecordMeta) × List NotionRecordMeta)
  | [], cbp, roots => (cbp, roots)
  | pg :: rest, cbp, roots =>
    match pg.parent with
    | .pageRef pid =>
      if (np pid).isSome then
        classifyPages np rest
          (fun k => if k = pid then cbp k ++ [pg] else cbp k) roots
      else classifyPages np rest cbp (roots ++ [pg])
    | _ => classifyPages np rest cbp (roots ++ [pg])

/-- Process a list of sibling pages in order (the `for (const child of
children)` loop), with the recursive builder supplied as a function. -/
def buildKids
    (build1 : NotionRecordMeta → VPath → BuildState → Except BuildErr BuildState) :
    List NotionRecordMeta → VPath → BuildState → Except BuildErr BuildState
  | [], _, st => .ok st
  | k :: ks, pp, st =>
    match build1 k pp st with
    | .error e => .error e
    | .ok st2 => buildKids build1 ks pp st2

/-- `buildPageTree` from `refresh`: slug the title, resolve sibling
collisions, add the page directory and its `index.md`, record the directory
path by page id, then recurse into the title-sorted children. The fuel
argument bounds the recursion depth; `refresh` passes more fuel than there
are pages, which exceeds any parent-chain length. -/
def buildPageTree (cbp : Str → List NotionRecordMeta) :
    Nat → NotionRecordMeta → VPath → BuildState → Except BuildErr BuildState
  | 0, _, _, _ => .error .outOfFuel
  | fuel + 1, page, parentPath, st0 =>
    let r := uniqueName (slugFromTitle page.title) (st0.sibNames parentPath) page.id
    let dirName := r.1
    let st1 := { st0 with
      sibNames := fun q => if q = parentPath then r.2 else st0.sibNames q }
    let dirPath := parentPath ++ [dirName]
    match addDir st1 dirPath dirName parentPath (pageMeta page) with
    | .error e => .error e
    | .ok st2 =>
      let st3 := { st2 with
        pageDirPathById := fun k =>
          if k = page.id then some dirPath else st2.pageDirPathById k }
      match addPageFile st3 (dirPath ++ ["index.md".data]) dirPath page with
      | .error e => .error e
      | .ok st4 =>
        let kids := List.insertionSort
          (fun a b => lexLe a.title b.title = true) (cbp page.id)
        buildKids (fun k pp st => buildPageTree cbp fuel k pp st) kids dirPath st4

/-- The database placeholder loop of `refresh`: mount each collection under
its parent page's directory when that page is mounted, else directly under
`/pages`, with `[db:<fingerprint>]` names through the same collision
resolution plus `findUniquePath`. -/
def addDatabases : List NotionRecordMeta → BuildState → Except BuildErr BuildState
  | [], st => .ok st
  | database :: rest, st =>
    let parentPath :=
      match database.parent with
      | .pageRef pid =>
        match st.pageDirPathById pid with
        | some d => d
        | none => ["pages".data]
      | _ => ["pages".data]
    let base : Str := "[db:".data ++ shortId database.id ++ "]".data
    let r := uniqueName base (st.dbNames parentPath) database.id
    let name := r.1
    let st1 := { st with
      dbNames := fun q => if q = parentPath then r.2 else st.dbNames q }
    let dbPath := findUniquePath st1.entries parentPath name
    match addDbPlaceholder st1 dbPath name parentPath database with
    | .error e => .error e
    | .ok st2 => addDatabases rest st2

/-- The tree-construction part of `refresh`: reset, record the page map,
exclude database-parented pages, classify children and roots, build the page
forest from the title-sorted roots under `/pages`, then mount the database
placeholders. -/
def refreshBuild (pages databases : List NotionRecordMeta) :
    Except BuildErr BuildState :=
  let np := buildNotionPages pages
  let st0 := { resetState with notionPages := np }
  let eligiblePages := pages.filter (fun p => isEligible p)
  let cr := classifyPages np eligiblePages (fun _ => []) []
  let sortedRoots := List.insertionSort (fun a b => lexLe a.title b.title = true) cr.2
  match buildKids (fun k pp st => buildPageTree cr.1 (pages.length + 1) k pp st)
      sortedRoots ["pages".data] st0 with
  | .error e => .error e
  | .ok st1 => addDatabases databases st1

/-! ### Character-level facts about slugs, used for path freshness -/

theorem collapse_chars_aux : ∀ n (l : Str) (c : Char), l.length ≤ n →
    ((c ∈ collapseWsDash l → c = '-' ∨ c ∈ l) ∧
     (c ∈ collapseAfterWs l → c = '-' ∨ c ∈ l)) := by
  intro n
  induction n with
  | zero =>
    intro l c hl
    have : l = [] := List.length_eq_zero.mp (by omega)
    subst this
    simp [collapseWsDash, collapseAfterWs]
  | succ n ih =>
    intro l c hl
    cases l with
    | nil => simp [collapseWsDash, collapseAfterWs]
    | cons a rest =>
      have hr : rest.length ≤ n := by simp at hl; omega
      constructor
      · intro h
        simp only [collapseWsDash] at h
        by_cases hws : isWsChar a
        · rw [if_pos hws] at h
          rcases List.mem_cons.mp h with rfl | h2
          · exact Or.inl rfl
          · rcases (ih rest c hr).2 h2 with h3 | h3
            · exact Or.inl h3
            · exact Or.inr (List.mem_cons_of_mem a h3)
        · rw [if_neg hws] at h
          rcases List.mem_cons.mp h with rfl | h2
          · exact Or.inr (List.mem_cons_self _ _)
          · rcases (ih rest c hr).1 h2 with h3 | h3
            · exact Or.inl h3
            · exact Or.inr (List.mem_cons_of_mem a h3)
      · intro h
        simp only [collapseAfterWs] at h
        by_cases hws : isWsChar a
        · rw [if_pos hws] at h
          rcases (ih rest c hr).2 h with h3 | h3
          · exact Or.inl h3
          · exact Or.inr (List.mem_cons_of_mem a h3)
        · rw [if_neg hws] at h
          rcases List.mem_cons.mp h with rfl | h2
          · exact Or.inr (List.mem_cons_self _ _)
          · rcases (ih rest c hr).1 h2 with h3 | h3
            · exact Or.inl h3
            · exact Or.inr (List.mem_cons_of_mem a h3)

theorem collapseWsDash_chars (l : Str) (c : Char) (h : c ∈ collapseWsDash l) :
    c = '-' ∨ c ∈ l :=
  (collapse_chars_aux l.length l c (le_refl _)).1 h

theorem trimS_subset (l : Str) (c : Char) (h : c ∈ trimS l) : c ∈ l := by
  unfold trimS trimStartS trimEndS at h
  have h1 := (List.dropWhile_sublist isWsChar).mem h
  rw [List.mem_reverse] at h1
  have h2 := (List.dropWhile_sublist isWsChar).mem h1
  rw [List.mem_reverse] at h2
  exact h2

theorem charOfNat_toNat (n : Nat) (h : n < 55296) : (Char.ofNat n).toNat = n := by
  unfold Char.ofNat
  rw [dif_pos (Or.inl h)]
  rfl

theorem toLowerAscii_eq_dot (c : Char) (h : toLowerAscii c = '.') : c = '.' := by
  unfold toLowerAscii at h
  by_cases hc : 65 ≤ c.toNat ∧ c.toNat ≤ 90
  · rw [if_pos (by simp [hc.1, hc.2])] at h
    have := congrArg Char.toNat h
    rw [charOfNat_toNat (c.toNat + 32) (by omega)] at this
    have hdot : ('.' : Char).toNat = 46 := by decide
    omega
  · rwa [if_neg (by
      intro hb
      simp only [Bool.and_eq_true, decide_eq_true_eq] at hb
      exact hc hb)] at h

theorem slugFromTitle_no_dot (t : Str) : '.' ∉ slugFromTitle t := by
  unfold slugFromTitle
  by_cases h : slugifyModel t ≠ []
  · rw [if_pos h]
    intro hmem
    unfold slugifyModel at hmem
    obtain ⟨c0, hc0, hlow⟩ := List.mem_map.mp hmem
    have hc0dot : c0 = '.' := toLowerAscii_eq_dot c0 hlow
    subst hc0dot
    rcases collapseWsDash_chars _ _ hc0 with hd | hd
    · exact absurd hd (by decide)
    · have := List.mem_filter.mp (trimS_subset _ _ hd)
      exact absurd this.2 (by decide)
  · rw [if_neg h]
    decide

theorem uniqueName_ne_index (title : Str) (used : Finset Str) (id : Str) :
    (uniqueName (slugFromTitle title) used id).1 ≠ "index.md".data := by
  have hdash : ∀ pre x : Str, pre ++ '-' :: x ≠ "index.md".data := by
    intro pre x h
    have : '-' ∈ "index.md".data := h ▸ (by simp)
    exact absurd this (by decide)
  by_cases h1 : slugFromTitle title ∈ used
  · by_cases h2 : slugFromTitle title ++ '-' :: shortId id ∈ used
    · obtain ⟨k, _, heq⟩ := uniqueName_eq_of_collision _ used id h1 h2
      rw [heq]
      exact hdash _ _
    · simp only [uniqueName, if_neg (not_not_intro h1), if_pos h2]
      exact hdash _ _
  · simp only [uniqueName, if_pos h1]
    intro h
    have : '.' ∈ slugFromTitle title := h ▸ (by decide)
    exact slugFromTitle_no_dot title this

/-! ### The namespace tree invariant (claim C3) -/

/-- The tree invariant of the spec: unique paths (the key list has no
duplicates), every non-root entry's `parentPath` resolves to an existing
directory entry that lists it as a child, and every directory's child set
points only at existing entries whose `parentPath` points back. -/
def TreeInvariant (m : EMap) : Prop :=
  (mkeys m).Nodup ∧
  (∃ ch meta, mget m [] = some (.dir "/".data [] [] ch meta)) ∧
  (∀ q e, mget m q = some e → e.epath = q ∧ e.eparent = q.dropLast) ∧
  (∀ q e, mget m q = some e → q ≠ [] →
    ∃ pn ppe ppp pch pmeta, mget m q.dropLast = some (.dir pn ppe ppp pch pmeta) ∧
      q ∈ pch) ∧
  (∀ q pn ppe ppp pch pmeta, mget m q = some (.dir pn ppe ppp pch pmeta) →
    ∀ c ∈ pch, c ≠ [] ∧ ∃ e, mget m c = some e ∧ e.eparent = q)

theorem concat_ne_self (pp : VPath) (seg : Str) : pp ++ [seg] ≠ pp := by
  intro h
  have := congrArg List.length h
  simp at this

theorem dropLast_concat_vp (pp : VPath) (seg : Str) : (pp ++ [seg]).dropLast = pp := by
  simp

/-- One `entries.set(child); parent.children.add(child)` step, shared by
`addDir`, `addPageFile` and `addDbPlaceholder`. -/
def addRaw (m : EMap) (pathname pp : VPath) (e : FsEntry) (pn : Str)
    (ppe ppp : VPath) (pch : Finset VPath) (pmeta : EntryMeta) : EMap :=
  mset (mset m pathname e) pp (.dir pn ppe ppp (insert pathname pch) pmeta)

theorem addRaw_preserves (m : EMap) (pp : VPath) (seg : Str) (e : FsEntry)
    (pn : Str) (ppe ppp : VPath) (pch : Finset VPath) (pmeta : EntryMeta)
    (hInv : TreeInvariant m)
    (hpar : mget m pp = some (.dir pn ppe ppp pch pmeta))
    (hfresh : mget m (pp ++ [seg]) = none)
    (hpath : e.epath = pp ++ [seg]) (hparent : e.eparent = pp)
    (hch : e.childrenOf = ∅) :
    TreeInvariant (addRaw m (pp ++ [seg]) pp e pn ppe ppp pch pmeta) ∧
    (∀ q v, mget m q = some v → q ≠ pp →
      mget (addRaw m (pp ++ [seg]) pp e pn ppe ppp pch pmeta) q = some v) ∧
    mget (addRaw m (pp ++ [seg]) pp e pn ppe ppp pch pmeta) pp =
      some (.dir pn ppe ppp (insert (pp ++ [seg]) pch) pmeta) ∧
    mget (addRaw m (pp ++ [seg]) pp e pn ppe ppp pch pmeta) (pp ++ [seg]) = some e ∧
    mkeys (addRaw m (pp ++ [seg]) pp e pn ppe ppp pch pmeta) =
      mkeys m ++ [pp ++ [seg]] := by
  obtain ⟨hnd, hroot, hfields, hup, hdown⟩ := hInv
  set c : VPath := pp ++ [seg] with hc
  have hcne : c ≠ pp := concat_ne_self pp seg
  have hdl : c.dropLast = pp := dropLast_concat_vp pp seg
  set m' : EMap := addRaw m c pp e pn ppe ppp pch pmeta with hm'
  have hget_c : mget m' c = some e := by
    rw [hm']
    unfold addRaw
    rw [mget_mset_ne _ _ _ _ (fun hx => hcne hx.symm), mget_mset_self]
  have hget_pp : mget m' pp = some (.dir pn ppe ppp (insert c pch) pmeta) := by
    rw [hm']
    unfold addRaw
    rw [mget_mset_self]
  have hget_other : ∀ q, q ≠ c → q ≠ pp → mget m' q = mget m q := by
    intro q h1 h2
    rw [hm']
    unfold addRaw
    rw [mget_mset_ne _ _ _ _ (fun hx => h2 hx.symm), mget_mset_ne _ _ _ _
      (fun hx => h1 hx.symm)]
  have hmono : ∀ q v, mget m q = some v → q ≠ pp → mget m' q = some v := by
    intro q v hv hq
    by_cases hqc : q = c
    · rw [hqc, hfresh] at hv; cases hv
    · rw [hget_other q hqc hq]; exact hv
  have hkeys : mkeys m' = mkeys m ++ [c] := by
    rw [hm']
    unfold addRaw
    have h1 : mhas m c = false := by unfold mhas; rw [hfresh]; rfl
    have h2 : mkeys (mset m c e) = mkeys m ++ [c] := by
      rw [mkeys_mset, if_neg (by rw [h1]; exact fun h => Bool.noConfusion h)]
    have h3 : mhas (mset m c e) pp = true := by
      unfold mhas
      rw [mget_mset_ne _ _ _ _ hcne, hpar]
      rfl
    rw [mkeys_mset, if_pos h3, h2]
  refine ⟨⟨?_, ?_, ?_, ?_, ?_⟩, hmono, hget_pp, hget_c, hkeys⟩
  · rw [hkeys]
    have hcnot : c ∉ mkeys m := by
      rw [← mget_eq_none_iff] at *
      exact hfresh
    simp [List.nodup_append, hnd, hcnot]
  · obtain ⟨ch0, meta0, hr⟩ := hroot
    by_cases hppr : pp = []
    · subst hppr
      rw [hr] at hpar
      obtain ⟨h1, h2, h3, h4, h5⟩ := FsEntry.dir.inj (Option.some.inj hpar)
      refine ⟨insert c pch, pmeta, ?_⟩
      rw [hget_pp, ← h1, ← h2, ← h3]
    · refine ⟨ch0, meta0, ?_⟩
      rw [hget_other [] (fun h => by simp [hc] at h) (fun h => hppr h.symm)]
      exact hr
  · intro q v hv
    by_cases hqc : q = c
    · subst hqc
      rw [hget_c] at hv
      obtain rfl : e = v := by injection hv
      rw [hpath, hparent, hdl]
      exact ⟨rfl, rfl⟩
    · by_cases hqp : q = pp
      · subst hqp
        rw [hget_pp] at hv
        obtain rfl : FsEntry.dir pn ppe ppp (insert c pch) pmeta = v := by injection hv
        have := hfields q _ hpar
        simpa [FsEntry.epath, FsEntry.eparent] using this
      · rw [hget_other q hqc hqp] at hv
        exact hfields q v hv
  · intro q v hv hq
    by_cases hqc : q = c
    · subst hqc
      rw [hdl]
      exact ⟨pn, ppe, ppp, insert c pch, pmeta, hget_pp, Finset.mem_insert_self _ _⟩
    · by_cases hqp : q = pp
      · subst hqp
        obtain ⟨pn2, ppe2, ppp2, pch2, pmeta2, hg, hmem⟩ := hup q _ hpar hq
        have hne1 : q.dropLast ≠ c := by
          intro h
          have hlen := congrArg List.length h
          rw [hc, List.length_dropLast, List.length_append,
            List.length_singleton] at hlen
          omega
        by_cases hne2 : q.dropLast = q
        · rw [hne2] at hg
          rw [hpar] at hg
          obtain ⟨rfl, rfl, rfl, rfl, rfl⟩ := FsEntry.dir.inj (Option.some.inj hg)
          refine ⟨pn, ppe, ppp, insert c pch, pmeta, ?_, ?_⟩
          · rw [hne2, hget_pp]
          · exact Finset.mem_insert_of_mem hmem
        · refine ⟨pn2, ppe2, ppp2, pch2, pmeta2, ?_, hmem⟩
          rw [hget_other _ hne1 hne2]
          exact hg
      · rw [hget_other q hqc hqp] at hv
        obtain ⟨pn2, ppe2, ppp2, pch2, pmeta2, hg, hmem⟩ := hup q v hv hq
        by_cases hne1 : q.dropLast = c
        · exfalso
          rw [hne1, hfresh] at hg
          cases hg
        · by_cases hne2 : q.dropLast = pp
          · rw [hne2] at hg
            rw [hpar] at hg
            obtain ⟨rfl, rfl, rfl, rfl, rfl⟩ := FsEntry.dir.inj (Option.some.inj hg)
            refine ⟨pn, ppe, ppp, insert c pch, pmeta, ?_, ?_⟩
            · rw [hne2, hget_pp]
            · exact Finset.mem_insert_of_mem hmem
          · refine ⟨pn2, ppe2, ppp2, pch2, pmeta2, ?_, hmem⟩
            rw [hget_other _ hne1 hne2]
            exact hg
  · intro q pn2 ppe2 ppp2 pch2 pmeta2 hq x hx
    by_cases hqc : q = c
    · subst hqc
      rw [hget_c] at hq
      have he : e = .dir pn2 ppe2 ppp2 pch2 pmeta2 := Option.some.inj hq
      rw [he] at hch
      simp only [FsEntry.childrenOf] at hch
      rw [hch] at hx
      simp at hx
    · by_cases hqp : q = pp
      · subst hqp
        rw [hget_pp] at hq
        obtain ⟨h1, h2, h3, h4, h5⟩ := FsEntry.dir.inj (Option.some.inj hq)
        rw [← h4] at hx
        rcases Finset.mem_insert.mp hx with rfl | hx2
        · refine ⟨by simp [hc], e, hget_c, hparent⟩
        · obtain ⟨hxne, e0, he0, hpe0⟩ := hdown q pn ppe ppp pch pmeta hpar x hx2
          refine ⟨hxne, e0, ?_, hpe0⟩
          apply hmono x e0 he0
          intro hxp
          rw [hxp] at he0
          have he0p := (hfields _ _ he0).2
          rw [hpe0] at he0p
          have hqnil : q = [] := by
            cases hql : q with
            | nil => rfl
            | cons a b =>
              exfalso
              have hlen := congrArg List.length he0p
              rw [List.length_dropLast] at hlen
              rw [hql] at hlen
              simp at hlen
          rw [hxp] at hxne
          exact hxne hqnil
      · rw [hget_other q hqc hqp] at hq
        obtain ⟨hxne, e0, he0, hpe0⟩ := hdown q pn2 ppe2 ppp2 pch2 pmeta2 hq x hx
        by_cases hxp : x = pp
        · subst hxp
          rw [hpar] at he0
          have he0' : FsEntry.dir pn ppe ppp pch pmeta = e0 := Option.some.inj he0
          refine ⟨hxne, .dir pn ppe ppp (insert c pch) pmeta, hget_pp, ?_⟩
          rw [← he0'] at hpe0
          simpa [FsEntry.eparent] using hpe0
        · refine ⟨hxne, e0, hmono x e0 he0 hxp, hpe0⟩

theorem append_singleton_inj {α : Type} (xs ys : List α) (x y : α)
    (h : xs ++ [x] = ys ++ [y]) : xs = ys ∧ x = y := by
  have h2 := congrArg List.reverse h
  simp only [List.reverse_append, List.reverse_singleton, List.singleton_append] at h2
  injection h2 with h3 h4
  refine ⟨?_, h3⟩
  have := congrArg List.reverse h4
  simpa using this

/-- Directory entries survive the construction: fields are unchanged and the
child set only grows. -/
def DirPersists (m m' : EMap) : Prop :=
  ∀ q pn ppe ppp pch pmeta, mget m q = some (.dir pn ppe ppp pch pmeta) →
    ∃ pch', mget m' q = some (.dir pn ppe ppp pch' pmeta) ∧ pch ⊆ pch'

theorem dirPersists_refl (m : EMap) : DirPersists m m :=
  fun q pn ppe ppp pch pmeta h => ⟨pch, h, Finset.Subset.refl _⟩

theorem dirPersists_trans {m1 m2 m3 : EMap} (h1 : DirPersists m1 m2)
    (h2 : DirPersists m2 m3) : DirPersists m1 m3 := by
  intro q pn ppe ppp pch pmeta hq
  obtain ⟨pch2, hq2, hs2⟩ := h1 q pn ppe ppp pch pmeta hq
  obtain ⟨pch3, hq3, hs3⟩ := h2 q pn ppe ppp pch2 pmeta hq2
  exact ⟨pch3, hq3, Finset.Subset.trans hs2 hs3⟩

theorem addRaw_persists (m : EMap) (pp : VPath) (seg : Str) (e : FsEntry)
    (pn : Str) (ppe ppp : VPath) (pch : Finset VPath) (pmeta : EntryMeta)
    (hpar : mget m pp = some (.dir pn ppe ppp pch pmeta))
    (hfresh : mget m (pp ++ [seg]) = none) :
    DirPersists m (addRaw m (pp ++ [seg]) pp e pn ppe ppp pch pmeta) := by
  intro q pn2 ppe2 ppp2 pch2 pmeta2 hq
  have hcne : pp ++ [seg] ≠ pp := concat_ne_self pp seg
  by_cases hqp : q = pp
  · subst hqp
    rw [hpar] at hq
    obtain ⟨rfl, rfl, rfl, rfl, rfl⟩ := FsEntry.dir.inj (Option.some.inj hq)
    refine ⟨insert (q ++ [seg]) pch, ?_, Finset.subset_insert _ _⟩
    unfold addRaw
    rw [mget_mset_self]
  · have hqc : q ≠ pp ++ [seg] := by
      intro hx
      rw [hx, hfresh] at hq
      cases hq
    refine ⟨pch2, ?_, Finset.Subset.refl _⟩
    unfold addRaw
    rw [mget_mset_ne _ _ _ _ (fun hx => hqp hx.symm),
      mget_mset_ne _ _ _ _ (fun hx => hqc hx.symm)]
    exact hq

/-- During the page-building pass, every non-root key's final segment is
either the fixed content-file name, a sibling name already accounted for in
`siblingNamesByPath`, or the static `/pages` mount point. This is what makes
freshly chosen sibling names produce fresh paths. -/
def SibCover (st : BuildState) : Prop :=
  ∀ pp n, mget st.entries (pp ++ [n]) ≠ none →
    n = "index.md".data ∨ n ∈ st.sibNames pp ∨ (pp = [] ∧ n = "pages".data)

theorem sibCover_extend (m m' : EMap) (sib sib' : VPath → Finset Str) (c : VPath)
    (hkeys : mkeys m' = mkeys m ++ [c])
    (hcov : ∀ pp n, mget m (pp ++ [n]) ≠ none →
      n = "index.md".data ∨ n ∈ sib pp ∨ (pp = [] ∧ n = "pages".data))
    (hmono : ∀ p, sib p ⊆ sib' p)
    (hc : ∀ pp n, c = pp ++ [n] →
      n = "index.md".data ∨ n ∈ sib' pp ∨ (pp = [] ∧ n = "pages".data)) :
    ∀ pp n, mget m' (pp ++ [n]) ≠ none →
      n = "index.md".data ∨ n ∈ sib' pp ∨ (pp = [] ∧ n = "pages".data) := by
  intro pp n hne
  have hmem : pp ++ [n] ∈ mkeys m' := by
    by_contra hnm
    exact hne ((mget_eq_none_iff m' _).mpr hnm)
  rw [hkeys] at hmem
  rcases List.mem_append.mp hmem with hmem | hmem
  · have := hcov pp n (by
      intro hno
      exact ((mget_eq_none_iff m _).mp hno) hmem)
    rcases this with h | h | h
    · exact Or.inl h
    · exact Or.inr (Or.inl (hmono pp h))
    · exact Or.inr (Or.inr h)
  · have heq : pp ++ [n] = c := by simpa using hmem
    exact hc pp n heq.symm

theorem addDir_ok (st st2 : BuildState) (pathname : VPath) (name : Str)
    (parentPath : VPath) (meta : EntryMeta)
    (h : addDir st pathname name parentPath meta = .ok st2) :
    ∃ pn ppe ppp pch pmeta,
      mget st.entries parentPath = some (.dir pn ppe ppp pch pmeta) ∧
      st2.entries = addRaw st.entries pathname parentPath
        (.dir name pathname parentPath ∅ meta)
        pn ppe ppp pch pmeta ∧
      st2.sibNames = st.sibNames ∧ st2.dbNames = st.dbNames ∧
      st2.pageDirPathById = st.pageDirPathById ∧
      st2.notionPages = st.notionPages := by
  unfold addDir at h
  cases hm : mget st.entries parentPath with
  | none => rw [hm] at h; cases h
  | some e =>
    cases e with
    | dir pn ppe ppp pch pmeta =>
      rw [hm] at h
      have h3 := Except.ok.inj h
      refine ⟨pn, ppe, ppp, pch, pmeta, rfl, ?_, ?_, ?_, ?_, ?_⟩
      · rw [← h3]; rfl
      · rw [← h3]
      · rw [← h3]
      · rw [← h3]
      · rw [← h3]
    | file _ _ _ _ _ => rw [hm] at h; cases h
    | db _ _ _ _ _ => rw [hm] at h; cases h

theorem addPageFile_ok (st st2 : BuildState) (pathname : VPath) (parentPath : VPath) (page : NotionRecordMeta)
    (h : addPageFile st pathname parentPath page = .ok st2) :
    ∃ pn ppe ppp pch pmeta,
      mget st.entries parentPath = some (.dir pn ppe ppp pch pmeta) ∧
      st2.entries = addRaw st.entries pathname parentPath
        (.file "index.md".data pathname parentPath page.id (pageMeta page))
        pn ppe ppp pch pmeta ∧
      st2.sibNames = st.sibNames ∧ st2.dbNames = st.dbNames ∧
      st2.pageDirPathById = st.pageDirPathById ∧
      st2.notionPages = st.notionPages := by
  unfold addPageFile at h
  cases hm : mget st.entries parentPath with
  | none => rw [hm] at h; cases h
  | some e =>
    cases e with
    | dir pn ppe ppp pch pmeta =>
      rw [hm] at h
      have h3 := Except.ok.inj h
      refine ⟨pn, ppe, ppp, pch, pmeta, rfl, ?_, ?_, ?_, ?_, ?_⟩
      · rw [← h3]; rfl
      · rw [← h3]
      · rw [← h3]
      · rw [← h3]
      · rw [← h3]
    | file _ _ _ _ _ => rw [hm] at h; cases h
    | db _ _ _ _ _ => rw [hm] at h; cases h

theorem addDbPlaceholder_ok (st st2 : BuildState) (pathname : VPath) (name : Str)
    (parentPath : VPath) (database : NotionRecordMeta)
    (h : addDbPlaceholder st pathname name parentPath database = .ok st2) :
    ∃ pn ppe ppp pch pmeta,
      mget st.entries parentPath = some (.dir pn ppe ppp pch pmeta) ∧
      st2.entries = addRaw st.entries pathname parentPath
        (.db name pathname parentPath database.id (dbMeta database))
        pn ppe ppp pch pmeta ∧
      st2.sibNames = st.sibNames ∧ st2.dbNames = st.dbNames ∧
      st2.pageDirPathById = st.pageDirPathById ∧
      st2.notionPages = st.notionPages := by
  unfold addDbPlaceholder at h
  cases hm : mget st.entries parentPath with
  | none => rw [hm] at h; cases h
  | some e =>
    cases e with
    | dir pn ppe ppp pch pmeta =>
      rw [hm] at h
      have h3 := Except.ok.inj h
      refine ⟨pn, ppe, ppp, pch, pmeta, rfl, ?_, ?_, ?_, ?_, ?_⟩
      · rw [← h3]; rfl
      · rw [← h3]
      · rw [← h3]
      · rw [← h3]
      · rw [← h3]
    | file _ _ _ _ _ => rw [hm] at h; cases h
    | db _ _ _ _ _ => rw [hm] at h; cases h


theorem buildKids_inv
    (build1 : NotionRecordMeta → VPath → BuildState → Except BuildErr BuildState)
    (hb : ∀ page pp st st2, TreeInvariant st.entries → SibCover st → pp ≠ [] →
      build1 page pp st = .ok st2 →
      TreeInvariant st2.entries ∧ SibCover st2 ∧ DirPersists st.entries st2.entries) :
    ∀ kids pp st st2, TreeInvariant st.entries → SibCover st → pp ≠ [] →
      buildKids build1 kids pp st = .ok st2 →
      TreeInvariant st2.entries ∧ SibCover st2 ∧ DirPersists st.entries st2.entries := by
  intro kids
  induction kids with
  | nil =>
    intro pp st st2 h1 h2 h3 h4
    unfold buildKids at h4
    obtain rfl := Except.ok.inj h4
    exact ⟨h1, h2, dirPersists_refl _⟩
  | cons k ks ih =>
    intro pp st st2 h1 h2 h3 h4
    unfold buildKids at h4
    cases hmid : build1 k pp st with
    | error e => rw [hmid] at h4; cases h4
    | ok stm =>
      rw [hmid] at h4
      obtain ⟨hm1, hm2, hm3⟩ := hb k pp st stm h1 h2 h3 hmid
      obtain ⟨hr1, hr2, hr3⟩ := ih pp stm st2 hm1 hm2 h3 h4
      exact ⟨hr1, hr2, dirPersists_trans hm3 hr3⟩

theorem buildPageTree_step (page : NotionRecordMeta) (pp : VPath)
    (st st5 st6 : BuildState) (dirName : Str) (newSib : Finset Str)
    (pdb : Str → Option VPath)
    (hInv : TreeInvariant st.entries) (hCov : SibCover st) (hpp : pp ≠ [])
    (hfreshName : dirName ∉ st.sibNames pp)
    (hnewSib : newSib = insert dirName (st.sibNames pp))
    (hnotIndex : dirName ≠ "index.md".data)
    (heqDir : addDir
      { st with sibNames := fun q => if q = pp then newSib else st.sibNames q }
      (pp ++ [dirName]) dirName pp (pageMeta page) = .ok st5)
    (heqFile : addPageFile { st5 with pageDirPathById := pdb }
      ((pp ++ [dirName]) ++ ["index.md".data]) (pp ++ [dirName]) page = .ok st6) :
    TreeInvariant st6.entries ∧ SibCover st6 ∧ DirPersists st.entries st6.entries := by
  obtain ⟨pn, ppe, ppp, pch, pmeta, hpar1, hent5, hsib5, hdb5, hpdb5, hnp5⟩ :=
    addDir_ok _ _ _ _ _ _ heqDir
  have hst1e :
      ({ st with
          sibNames := fun q => if q = pp then newSib else st.sibNames q } :
        BuildState).entries = st.entries := rfl
  rw [hst1e] at hpar1 hent5
  have hfreshDir : mget st.entries (pp ++ [dirName]) = none := by
    cases hmm : mget st.entries (pp ++ [dirName]) with
    | none => rfl
    | some e =>
      exfalso
      rcases hCov pp dirName (by rw [hmm]; exact fun h => Option.noConfusion h)
        with h | h | h
      · exact hnotIndex h
      · exact hfreshName h
      · exact hpp h.1
  obtain ⟨hInv5, hmono5, hgetpp5, hgetc5, hkeys5⟩ :=
    addRaw_preserves st.entries pp dirName (.dir dirName (pp ++ [dirName]) pp ∅
      (pageMeta page)) pn ppe ppp pch pmeta hInv hpar1 hfreshDir rfl rfl rfl
  rw [← hent5] at hInv5 hmono5 hgetpp5 hgetc5 hkeys5
  have hsib5x : st5.sibNames = fun q => if q = pp then newSib else st.sibNames q :=
    hsib5
  have hCov5 : SibCover st5 := by
    intro pa n hne
    rw [hsib5x]
    refine sibCover_extend st.entries st5.entries st.sibNames
      (fun q => if q = pp then newSib else st.sibNames q) (pp ++ [dirName])
      hkeys5 hCov ?_ ?_ pa n hne
    · intro p2
      rw [Finset.subset_iff]
      intro x hx
      show x ∈ if p2 = pp then newSib else st.sibNames p2
      by_cases hq : p2 = pp
      · rw [if_pos hq, hnewSib]
        rw [hq] at hx
        exact Finset.mem_insert_of_mem hx
      · rw [if_neg hq]
        exact hx
    · intro pa2 n2 hc
      obtain ⟨heq1, heq2⟩ := append_singleton_inj _ _ _ _ hc.symm
      right; left
      show n2 ∈ if pa2 = pp then newSib else st.sibNames pa2
      rw [if_pos heq1, hnewSib, heq2]
      exact Finset.mem_insert_self _ _
  -- the index.md insertion
  obtain ⟨pn2, ppe2, ppp2, pch2, pmeta2, hpar2, hent6, hsib6, hdb6, hpdb6, hnp6⟩ :=
    addPageFile_ok _ _ _ _ _ heqFile
  have hst3e : ({ st5 with pageDirPathById := pdb } : BuildState).entries =
      st5.entries := rfl
  rw [hst3e] at hpar2 hent6
  have hfreshIdx : mget st5.entries ((pp ++ [dirName]) ++ ["index.md".data]) = none := by
    cases hmm : mget st5.entries ((pp ++ [dirName]) ++ ["index.md".data]) with
    | none => rfl
    | some e =>
      exfalso
      have hmem : (pp ++ [dirName]) ++ ["index.md".data] ∈ mkeys st5.entries := by
        by_contra hnm
        rw [(mget_eq_none_iff _ _).mpr hnm] at hmm
        cases hmm
      rw [hkeys5] at hmem
      rcases List.mem_append.mp hmem with hmem | hmem
      · have hsome : mget st.entries ((pp ++ [dirName]) ++ ["index.md".data]) ≠ none :=
          fun hno => ((mget_eq_none_iff _ _).mp hno) hmem
        cases hmm2 : mget st.entries ((pp ++ [dirName]) ++ ["index.md".data]) with
        | none => exact hsome hmm2
        | some e2 =>
          have hup := hInv.2.2.2.1
          obtain ⟨pn3, ppe3, ppp3, pch3, pmeta3, hg3, _⟩ :=
            hup _ _ hmm2 (by simp)
          rw [dropLast_concat_vp] at hg3
          rw [hfreshDir] at hg3
          cases hg3
      · have : (pp ++ [dirName]) ++ ["index.md".data] = pp ++ [dirName] := by
          simpa using hmem
        have hlen := congrArg List.length this
        simp at hlen
  -- identify the parent components of the second insertion
  rw [hgetc5] at hpar2
  obtain ⟨h1, h2, h3, h4, h5⟩ := FsEntry.dir.inj (Option.some.inj hpar2)
  obtain ⟨hInv6, hmono6, hgetpp6, hgetc6, hkeys6⟩ :=
    addRaw_preserves st5.entries (pp ++ [dirName]) "index.md".data
      (.file "index.md".data ((pp ++ [dirName]) ++ ["index.md".data])
        (pp ++ [dirName]) page.id (pageMeta page)) pn2 ppe2 ppp2 pch2 pmeta2
      hInv5 (by rw [hgetc5, h2, h3, h4, h5, h1]) hfreshIdx rfl rfl rfl
  rw [← hent6] at hInv6 hmono6 hgetpp6 hgetc6 hkeys6
  have hsib6x : st6.sibNames = st5.sibNames := hsib6
  have hCov6 : SibCover st6 := by
    intro pa n hne
    rw [hsib6x, hsib5x]
    refine sibCover_extend st5.entries st6.entries
      (fun q => if q = pp then newSib else st.sibNames q)
      (fun q => if q = pp then newSib else st.sibNames q)
      ((pp ++ [dirName]) ++ ["index.md".data]) hkeys6 ?_
      (fun p2 => Finset.Subset.refl _) ?_ pa n hne
    · intro pa2 n2 hne2
      have h0 := hCov5 pa2 n2 hne2
      rw [hsib5x] at h0
      exact h0
    · intro pa2 n2 hc
      obtain ⟨heq1, heq2⟩ := append_singleton_inj _ _ _ _ hc.symm
      exact Or.inl heq2
  refine ⟨hInv6, hCov6, ?_⟩
  have hp1 : DirPersists st.entries st5.entries := by
    have := addRaw_persists st.entries pp dirName
      (.dir dirName (pp ++ [dirName]) pp ∅ (pageMeta page)) pn ppe ppp pch pmeta
      hpar1 hfreshDir
    rw [← hent5] at this
    exact this
  have hp2 : DirPersists st5.entries st6.entries := by
    have := addRaw_persists st5.entries (pp ++ [dirName]) "index.md".data
      (.file "index.md".data ((pp ++ [dirName]) ++ ["index.md".data])
        (pp ++ [dirName]) page.id (pageMeta page)) pn2 ppe2 ppp2 pch2 pmeta2
      (by rw [hgetc5, h2, h3, h4, h5, h1]) hfreshIdx
    rw [← hent6] at this
    exact this
  exact dirPersists_trans hp1 hp2

theorem buildPageTree_inv (cbp : Str → List NotionRecordMeta) :
    ∀ fuel page pp st st2, TreeInvariant st.entries → SibCover st → pp ≠ [] →
      buildPageTree cbp fuel page pp st = .ok st2 →
      TreeInvariant st2.entries ∧ SibCover st2 ∧ DirPersists st.entries st2.entries := by
  intro fuel
  induction fuel with
  | zero =>
    intro page pp st st2 h1 h2 h3 h4
    unfold buildPageTree at h4
    cases h4
  | succ fuel ih =>
    intro page pp st st2 hInv hCov hpp h4
    simp only [buildPageTree] at h4
    split at h4
    · cases h4
    · rename_i st5 heqDir
      split at h4
      · cases h4
      · rename_i st6 heqFile
        obtain ⟨hI6, hC6, hP6⟩ := buildPageTree_step page pp st st5 st6
          (uniqueName (slugFromTitle page.title) (st.sibNames pp) page.id).1
          (uniqueName (slugFromTitle page.title) (st.sibNames pp) page.id).2
          (fun k => if k = page.id then
            some (pp ++ [(uniqueName (slugFromTitle page.title) (st.sibNames pp)
              page.id).1]) else st5.pageDirPathById k)
          hInv hCov hpp
          (uniqueName_fresh (slugFromTitle page.title) (st.sibNames pp) page.id).1
          (uniqueName_fresh (slugFromTitle page.title) (st.sibNames pp) page.id).2
          (uniqueName_ne_index page.title (st.sibNames pp) page.id)
          heqDir heqFile
        obtain ⟨hI2, hC2, hP2⟩ := buildKids_inv
          (fun k pp st => buildPageTree cbp fuel k pp st) ih _ _ st6 st2 hI6 hC6
          (by simp) h4
        exact ⟨hI2, hC2, dirPersists_trans hP6 hP2⟩


theorem addDatabases_step (db : NotionRecordMeta) (pPath : VPath)
    (st st2 : BuildState) (nm : Str) (nd : VPath → Finset Str)
    (hInv : TreeInvariant st.entries)
    (h : addDbPlaceholder { st with dbNames := nd }
      (findUniquePath st.entries pPath nm) nm pPath db = .ok st2) :
    TreeInvariant st2.entries := by
  obtain ⟨pn, ppe, ppp, pch, pmeta, hpar, hent, _⟩ := addDbPlaceholder_ok _ _ _ _ _ _ h
  have hst1e : ({ st with dbNames := nd } : BuildState).entries = st.entries := rfl
  rw [hst1e] at hpar hent
  obtain ⟨hfresh, seg, hseg, _⟩ := findUniquePath_fresh st.entries pPath nm
  rw [hseg] at hent hfresh
  have := (addRaw_preserves st.entries pPath seg
    (.db nm (pPath ++ [seg]) pPath db.id (dbMeta db)) pn ppe ppp pch pmeta
    hInv hpar hfresh rfl rfl rfl).1
  rw [← hent] at this
  exact this

theorem addDatabases_inv : ∀ dbs (st st2 : BuildState), TreeInvariant st.entries →
    addDatabases dbs st = .ok st2 → TreeInvariant st2.entries := by
  intro dbs
  induction dbs with
  | nil =>
    intro st st2 h1 h2
    unfold addDatabases at h2
    obtain rfl := Except.ok.inj h2
    exact h1
  | cons db rest ih =>
    intro st st2 h1 h2
    simp only [addDatabases] at h2
    split at h2
    · cases h2
    · rename_i stm heq
      exact ih stm st2 (addDatabases_step db _ st stm _ _ h1 heq) h2

theorem resetState_inv : TreeInvariant resetState.entries := by
  refine ⟨by decide, ⟨{["pages".data]}, {}, rfl⟩, ?_, ?_, ?_⟩
  · intro q e h
    simp only [resetState, mget] at h
    split at h
    · rename_i hq
      obtain rfl := Option.some.inj h
      rw [← hq]
      exact ⟨rfl, rfl⟩
    · split at h
      · rename_i hq
        obtain rfl := Option.some.inj h
        rw [← hq]
        exact ⟨rfl, rfl⟩
      · cases h
  · intro q e h hq
    simp only [resetState, mget] at h
    split at h
    · rename_i hq2
      exact absurd hq2.symm hq
    · split at h
      · rename_i hq2
        refine ⟨"/".data, [], [], {["pages".data]}, {}, ?_, ?_⟩
        · rw [← hq2]
          rfl
        · rw [← hq2]
          exact Finset.mem_singleton_self _
      · cases h
  · intro q pn ppe ppp pch pmeta h c hc
    simp only [resetState, mget] at h
    split at h
    · rename_i hq
      obtain ⟨h1, h2, h3, h4, h5⟩ := FsEntry.dir.inj (Option.some.inj h)
      rw [← h4] at hc
      have hcp : c = ["pages".data] := Finset.mem_singleton.mp hc
      subst hcp
      exact ⟨by simp, .dir "pages".data ["pages".data] [] ∅ {}, rfl, hq⟩
    · split at h
      · rename_i hq
        obtain ⟨h1, h2, h3, h4, h5⟩ := FsEntry.dir.inj (Option.some.inj h)
        rw [← h4] at hc
        simp at hc
      · cases h

theorem resetState_cover (np : Str → Option NotionRecordMeta) :
    SibCover { resetState with notionPages := np } := by
  intro pp n h
  simp only [resetState, mget] at h
  split at h
  · rename_i hq
    exfalso
    have := congrArg List.length hq
    simp at this
  · split at h
    · rename_i hq
      right; right
      cases pp with
      | nil =>
        constructor
        · rfl
        · simpa using hq.symm
      | cons a rest =>
        exfalso
        have h2 : (["pages".data] : VPath) = a :: (rest ++ [n]) := hq
        injection h2 with h3 h4
        have := congrArg List.length h4
        simp at this
    · exact absurd rfl h

/-- C3: for any finite set of records with unique ids, a successful refresh
produces a namespace tree in which every path is unique, every non-root
entry's parent path resolves to an existing directory entry, and directory
child sets and entry parent paths are mutually consistent. -/
theorem c3_refresh_tree_invariants (pages databases : List NotionRecordMeta)
    (st : BuildState)
    (hids : ((pages ++ databases).map (fun r => r.id)).Nodup)
    (hok : refreshBuild pages databases = .ok st) :
    TreeInvariant st.entries := by
  have hok2 : (match buildKids (fun k pp st => buildPageTree
      (classifyPages (buildNotionPages pages)
        (pages.filter (fun p => isEligible p)) (fun _ => []) []).1
      (pages.length + 1) k pp st)
      (List.insertionSort (fun a b => lexLe a.title b.title = true)
        (classifyPages (buildNotionPages pages)
          (pages.filter (fun p => isEligible p)) (fun _ => []) []).2)
      ["pages".data] { resetState with notionPages := buildNotionPages pages } with
    | Except.error e => Except.error e
    | Except.ok st1 => addDatabases databases st1) = Except.ok st := hok
  clear hok
  split at hok2
  · cases hok2
  · rename_i st1 heq
    have h0 : TreeInvariant ({ resetState with
        notionPages := buildNotionPages pages } : BuildState).entries :=
      resetState_inv
    obtain ⟨hI1, _, _⟩ := buildKids_inv
      (fun k pp st => buildPageTree (classifyPages (buildNotionPages pages)
        (pages.filter (fun p => isEligible p)) (fun _ => []) []).1
        (pages.length + 1) k pp st)
      (fun page pp st st2 => buildPageTree_inv _ _ page pp st st2)
      _ _ _ st1 h0 (resetState_cover (buildNotionPages pages)) (by simp) heq
    exact addDatabases_inv databases st1 st hI1 hok2

/-- Sample records used by concrete witnesses. -/
def samplePage (id title : Str) (parent : ParentRef) : NotionRecordMeta :=
  { id := id, title := title, parent := parent,
    createdTime := "2024-01-01".data, lastEditedTime := "2024-01-02".data,
    owner := "owner".data }

def c3wPages : List NotionRecordMeta :=
  [samplePage "home1".data "Home".data .workspace,
   samplePage "notes1".data "Notes".data (.pageRef "home1".data),
   samplePage "tasks1".data "Tasks".data (.pageRef "home1".data)]

def c3wDbs : List NotionRecordMeta :=
  [samplePage "dbase1".data "DB1".data (.pageRef "notes1".data)]

def c3wState : BuildState :=
  match refreshBuild c3wPages c3wDbs with
  | .ok s => s
  | .error _ => resetState

/-- Witness for C3: a successful concrete refresh whose tree satisfies the
invariant. -/
theorem c3_refresh_tree_invariants_witness :
    ((c3wPages ++ c3wDbs).map (fun r => r.id)).Nodup ∧
    refreshBuild c3wPages c3wDbs = .ok c3wState ∧
    TreeInvariant c3wState.entries :=
  ⟨by decide, rfl, c3_refresh_tree_invariants c3wPages c3wDbs c3wState (by decide) rfl⟩

/-! ### readFile / writeFile: cache, TTL, and the conflict-aware write path -/

structure MarkdownCacheEntry where
  markdown : Str
  fetchedAt : Int
  lastEditedTime : Option Str
deriving DecidableEq

abbrev Cache := List (Str × MarkdownCacheEntry)

def aget : Cache → Str → Option MarkdownCacheEntry
  | [], _ => none
  | kv :: rest, k => if kv.1 = k then some kv.2 else aget rest k

def areplace : Cache → Str → MarkdownCacheEntry → Cache
  | [], _, _ => []
  | kv :: rest, k, v =>
    if kv.1 = k then (k, v) :: areplace rest k v else kv :: areplace rest k v

def aset (m : Cache) (k : Str) (v : MarkdownCacheEntry) : Cache :=
  if (aget m k).isSome then areplace m k v else m ++ [(k, v)]

theorem aget_aset_self (m : Cache) (k : Str) (v : MarkdownCacheEntry) :
    aget (aset m k v) k = some v := by
  unfold aset
  by_cases h : (aget m k).isSome
  · rw [if_pos h]
    induction m with
    | nil => simp [aget] at h
    | cons kv rest ih =>
      simp only [areplace]
      by_cases hk : kv.1 = k
      · rw [if_pos hk]; simp [aget]
      · rw [if_neg hk]
        simp only [aget, if_neg hk]
        apply ih
        simp only [aget, if_neg hk] at h
        exact h
  · rw [if_neg h]
    induction m with
    | nil => simp [aget]
    | cons kv rest ih =>
      simp only [List.cons_append, aget]
      by_cases hk : kv.1 = k
      · exfalso
        apply h
        simp [aget, hk]
      · rw [if_neg hk]
        apply ih
        intro hs
        apply h
        simp only [aget, if_neg hk]
        exact hs

/-- The remote side as the write path sees it: content and metadata per page
id, with `replacePageMarkdown` replacing the content and the server stamping
a fresh `last_edited_time`. -/
structure RemotePage where
  markdown : Str
  lastEditedTime : Str
  owner : Str

structure RemoteWorld where
  pages : Str → RemotePage

inductive VfsErr where
  | readonlyDb (path : VPath)
  | fileNotFound (path : VPath)
  | pathNotFound (path : VPath)
  | notDirectory (path : VPath)
  | conflict (path : VPath) (remoteStamp : Str) (localStamp : Str)
deriving DecidableEq

/-- The resolved file entry `ensurePageFile` hands to the read/write paths. -/
structure PageFileRef where
  name : Str
  path : VPath
  parentPath : VPath
  pageId : Str
  meta : EntryMeta
deriving DecidableEq

/-- `ensurePageFile` from the source: a file resolves to itself, a directory
resolves to its contained `index.md` when that is a file, a database
placeholder is read-only, anything else does not exist. -/
def ensurePageFile (m : EMap) (resolved : VPath) : Except VfsErr PageFileRef :=
  match mget m resolved with
  | some (.file n p pp pid meta) => .ok ⟨n, p, pp, pid, meta⟩
  | some (.dir _ dp _ _ _) =>
    match mget m (dp ++ ["index.md".data]) with
    | some (.file n p pp pid meta) => .ok ⟨n, p, pp, pid, meta⟩
    | _ => .error (.fileNotFound resolved)
  | some (.db _ p _ _ _) => .error (.readonlyDb p)
  | none => .error (.fileNotFound resolved)

/-- The fixed placeholder document `readFile` returns for database
placeholders (the source's surrounding `trim()` is the identity on it). -/
def dbPlaceholderMarkdown (did : Str) : Str :=
  "# Database Placeholder\n\n[db:".data ++ did ++
    "]\n\nDatabase mounting is disabled in MVP.".data

structure VfsIoState where
  entries : EMap
  cache : Cache
  ttlMs : Int

/-- The cache-miss path of `readFile`: one gateway content fetch, stored in
the cache keyed by the file's backing page id. -/
def readFetch (st : VfsIoState) (w : RemoteWorld) (now2 : Int) (f : PageFileRef) :
    Except VfsErr (Str × VfsIoState × Nat) :=
  let md := (w.pages f.pageId).markdown
  let ce : MarkdownCacheEntry :=
    { markdown := md, fetchedAt := now2, lastEditedTime := f.meta.lastEditedTime }
  .ok (md, { st with cache := aset st.cache f.pageId ce }, 1)

/-- `readFile`: database placeholders short-circuit to a fixed document; a
file read serves a cache entry younger than the TTL, otherwise fetches from
the gateway exactly once and caches the result. The final component counts
gateway content fetches; `now1` is the clock at the TTL check and `now2` at
the store. -/
def readFileM (st : VfsIoState) (w : RemoteWorld) (now1 now2 : Int)
    (resolved : VPath) : Except VfsErr (Str × VfsIoState × Nat) :=
  match mget st.entries resolved with
  | some (.db _ _ _ did _) => .ok (dbPlaceholderMarkdown did, st, 0)
  | _ =>
    match ensurePageFile st.entries resolved with
    | .error e => .error e
    | .ok f =>
      match aget st.cache f.pageId with
      | some c =>
        if now1 - c.fetchedAt < st.ttlMs then .ok (c.markdown, st, 0)
        else readFetch st w now2 f
      | none => readFetch st w now2 f

def strTruthy : Option Str → Bool
  | some s => s ≠ []
  | none => false

/-- The conflict test of `writeFile`: a truthy local observation, a truthy
remote stamp, and a mismatch between them. -/
def writeConflict (f : PageFileRef) (w : RemoteWorld) : Bool :=
  strTruthy f.meta.lastEditedTime && (w.pages f.pageId).lastEditedTime ≠ [] &&
    (w.pages f.pageId).lastEditedTime ≠ (f.meta.lastEditedTime.getD [])

/-- The commit tail of `writeFile`: replace the remote content (the server
assigns `newStamp`), refresh the entry metadata from the post-write page
metadata, and cache the written markdown keyed by the backing page id. -/
def writeCommit (st : VfsIoState) (w : RemoteWorld) (newStamp : Str) (now : Int)
    (f : PageFileRef) (markdown : Str) : VfsIoState × RemoteWorld :=
  let w2 : RemoteWorld := { pages := fun k => if k = f.pageId then
    { markdown := markdown, lastEditedTime := newStamp,
      owner := (w.pages f.pageId).owner } else w.pages k }
  let newMeta := { f.meta with
    lastEditedTime := some newStamp, owner := some (w.pages f.pageId).owner }
  let ce : MarkdownCacheEntry :=
    { markdown := markdown, fetchedAt := now, lastEditedTime := some newStamp }
  ({ st with
    entries := mset st.entries f.path
      (.file f.name f.path f.parentPath f.pageId newMeta),
    cache := aset st.cache f.pageId ce }, w2)

def writeBody (st : VfsIoState) (w : RemoteWorld) (newStamp : Str) (now : Int)
    (f : PageFileRef) (markdown : Str) :
    Except VfsErr (VfsIoState × RemoteWorld) :=
  if writeConflict f w then
    .error (.conflict f.path (w.pages f.pageId).lastEditedTime
      (f.meta.lastEditedTime.getD []))
  else
    .ok (writeCommit st w newStamp now f markdown)

/-- `writeFile`: refuse database placeholders; resolve the file; fetch the
current remote metadata; fail with a conflict naming the remote and local
stamps when the conflict test fires; otherwise commit. A conflict produces
no replacement: the updated remote world is returned only on the ok path. -/
def writeFileM (st : VfsIoState) (w : RemoteWorld) (newStamp : Str) (now : Int)
    (resolved : VPath) (markdown : Str) :
    Except VfsErr (VfsIoState × RemoteWorld) :=
  match mget st.entries resolved with
  | some (.db _ p _ _ _) => .error (.readonlyDb p)
  | _ =>
    match ensurePageFile st.entries resolved with
    | .error e => .error e
    | .ok f => writeBody st w newStamp now f markdown

theorem ensure_ok_not_db {m : EMap} {resolved : VPath} {f : PageFileRef}
    (hf : ensurePageFile m resolved = .ok f) :
    ∀ n p pp did meta, mget m resolved ≠ some (.db n p pp did meta) := by
  intro n p pp did meta hm
  unfold ensurePageFile at hf
  rw [hm] at hf
  simp at hf

theorem writeFileM_ensure {st : VfsIoState} {resolved : VPath} {f : PageFileRef}
    (w : RemoteWorld) (ns : Str) (now : Int) (md : Str)
    (hf : ensurePageFile st.entries resolved = .ok f) :
    writeFileM st w ns now resolved md = writeBody st w ns now f md := by
  unfold writeFileM
  split
  · next n p pp did meta heq => exact absurd heq (ensure_ok_not_db hf n p pp did meta)
  · rw [hf]

theorem readFileM_ensure {st : VfsIoState} {resolved : VPath} {f : PageFileRef}
    (w : RemoteWorld) (now1 now2 : Int)
    (hf : ensurePageFile st.entries resolved = .ok f) :
    readFileM st w now1 now2 resolved =
      (match aget st.cache f.pageId with
       | some c =>
         if now1 - c.fetchedAt < st.ttlMs then .ok (c.markdown, st, 0)
         else readFetch st w now2 f
       | none => readFetch st w now2 f) := by
  unfold readFileM
  split
  · next n p pp did meta heq =>
    exact absurd heq (ensure_ok_not_db hf n p pp did meta)
  · rw [hf]

theorem writeConflict_true {f : PageFileRef} {w : RemoteWorld} {t : Str}
    (hexp : f.meta.lastEditedTime = some t) (ht : t ≠ [])
    (hr : (w.pages f.pageId).lastEditedTime ≠ [])
    (hne : (w.pages f.pageId).lastEditedTime ≠ t) : writeConflict f w = true := by
  simp [writeConflict, strTruthy, hexp, ht, hr, hne]

/-- C1: `writeFile` fetches the record's current remote last-edited stamp and
compares it with the locally observed one; when a prior (truthy) local
observation exists and the (truthy) remote stamp differs from it, the write
fails with a conflict error naming both stamps — and performs no remote
replacement, since in this model the updated remote world is produced only on
the ok path. When the stamps agree the write commits and the remote stamp
becomes the fresh server stamp. In particular, once writer A's commit has
gone through, writer B holding a local observation older than A's commit
fails with a conflict naming A's stamp and B's observation, never silently
overwriting A's edit. -/
theorem c1_write_conflict_detection
    (st : VfsIoState) (w : RemoteWorld) (resolved : VPath) (f : PageFileRef)
    (t ns md : Str) (now : Int)
    (hf : ensurePageFile st.entries resolved = .ok f)
    (hexp : f.meta.lastEditedTime = some t) (ht : t ≠ []) :
    ((w.pages f.pageId).lastEditedTime ≠ [] → (w.pages f.pageId).lastEditedTime ≠ t →
      writeFileM st w ns now resolved md =
        .error (.conflict f.path (w.pages f.pageId).lastEditedTime t)) ∧
    ((w.pages f.pageId).lastEditedTime = t →
      writeFileM st w ns now resolved md = .ok (writeCommit st w ns now f md) ∧
      ((writeCommit st w ns now f md).2.pages f.pageId).lastEditedTime = ns) ∧
    (∀ stA wA, writeFileM st w ns now resolved md = .ok (stA, wA) →
      ∀ stB resolvedB fB tOld nsB mdB nowB,
        ensurePageFile stB.entries resolvedB = .ok fB →
        fB.pageId = f.pageId →
        fB.meta.lastEditedTime = some tOld → tOld ≠ [] → ns ≠ [] → tOld ≠ ns →
        writeFileM stB wA nsB nowB resolvedB mdB =
          .error (.conflict fB.path ns tOld)) := by
  refine ⟨?_, ?_, ?_⟩
  · intro hr hne
    rw [writeFileM_ensure w ns now md hf]
    unfold writeBody
    rw [if_pos (writeConflict_true hexp ht hr hne), hexp]
    rfl
  · intro hrt
    have hcond : writeConflict f w = false := by
      simp [writeConflict, strTruthy, hexp, hrt]
    constructor
    · rw [writeFileM_ensure w ns now md hf]
      unfold writeBody
      rw [hcond]
      simp
    · simp [writeCommit]
  · intro stA wA hok stB resolvedB fB tOld nsB mdB nowB hfB hpid hexpB htOld hns hneB
    rw [writeFileM_ensure w ns now md hf] at hok
    unfold writeBody at hok
    by_cases hcond : writeConflict f w
    · rw [if_pos hcond] at hok
      exact absurd hok (by simp)
    · rw [if_neg hcond] at hok
      have hwA : wA = (writeCommit st w ns now f md).2 := by
        have h := Except.ok.inj hok
        rw [h]
      have hwAp : (wA.pages fB.pageId).lastEditedTime = ns := by
        rw [hwA, hpid]
        simp [writeCommit]
      rw [writeFileM_ensure wA nsB nowB mdB hfB]
      unfold writeBody
      rw [if_pos (writeConflict_true hexpB htOld (by rw [hwAp]; exact hns)
        (by rw [hwAp]; intro h; exact hneB h.symm)), hexpB, hwAp]
      rfl

def c1wMeta : EntryMeta :=
  { lastEditedTime := some "2024-01-01T00:00:00Z".data, pageId := some "p1".data }

def c1wEntries : EMap :=
  [(["home.md".data], .file "home.md".data ["home.md".data] [] "p1".data c1wMeta)]

def c1wSt : VfsIoState := ⟨c1wEntries, [], 60000⟩

def c1wWorld : RemoteWorld :=
  ⟨fun _ => ⟨"remote text".data, "2024-01-02T00:00:00Z".data, "alice".data⟩⟩

def c1wF : PageFileRef :=
  ⟨"home.md".data, ["home.md".data], [], "p1".data, c1wMeta⟩

theorem c1_write_conflict_detection_witness :
    writeFileM c1wSt c1wWorld "2024-01-03T00:00:00Z".data 0 ["home.md".data]
        "new text".data =
      .error (.conflict ["home.md".data] "2024-01-02T00:00:00Z".data
        "2024-01-01T00:00:00Z".data) :=
  (c1_write_conflict_detection c1wSt c1wWorld ["home.md".data] c1wF
    "2024-01-01T00:00:00Z".data "2024-01-03T00:00:00Z".data "new text".data 0
    rfl rfl (by decide)).1 (by decide) (by decide)

/-- C8: for every file read, a cache entry for the file's backing page id
fetched less than `ttlMs` ago is served as-is with zero gateway content
fetches and an unchanged state; when the entry is absent or expired, exactly
one gateway fetch happens and its result is stored in the cache keyed by the
backing page id (with the fetch clock and the file's observed last-edited
stamp), leaving the tree untouched. The third result component counts
gateway content fetches. -/
theorem c8_read_cache_ttl
    (st : VfsIoState) (w : RemoteWorld) (now1 now2 : Int) (resolved : VPath)
    (f : PageFileRef) (hf : ensurePageFile st.entries resolved = .ok f) :
    (∀ c, aget st.cache f.pageId = some c → now1 - c.fetchedAt < st.ttlMs →
      readFileM st w now1 now2 resolved = .ok (c.markdown, st, 0)) ∧
    (aget st.cache f.pageId = none →
      ∃ st2, readFileM st w now1 now2 resolved =
          .ok ((w.pages f.pageId).markdown, st2, 1) ∧
        aget st2.cache f.pageId =
          some ⟨(w.pages f.pageId).markdown, now2, f.meta.lastEditedTime⟩ ∧
        st2.entries = st.entries ∧ st2.ttlMs = st.ttlMs) ∧
    (∀ c, aget st.cache f.pageId = some c → ¬ now1 - c.fetchedAt < st.ttlMs →
      ∃ st2, readFileM st w now1 now2 resolved =
          .ok ((w.pages f.pageId).markdown, st2, 1) ∧
        aget st2.cache f.pageId =
          some ⟨(w.pages f.pageId).markdown, now2, f.meta.lastEditedTime⟩ ∧
        st2.entries = st.entries ∧ st2.ttlMs = st.ttlMs) := by
  refine ⟨?_, ?_, ?_⟩
  · intro c hc hfresh
    rw [readFileM_ensure w now1 now2 hf, hc]
    simp [hfresh]
  · intro hc
    rw [readFileM_ensure w now1 now2 hf, hc]
    refine ⟨_, rfl, ?_, rfl, rfl⟩
    exact aget_aset_self st.cache f.pageId _
  · intro c hc hstale
    rw [readFileM_ensure w now1 now2 hf, hc]
    simp only [hstale, if_false]
    refine ⟨_, rfl, ?_, rfl, rfl⟩
    exact aget_aset_self st.cache f.pageId _

def c8wCached : VfsIoState :=
  ⟨c1wEntries,
   [("p1".data, ⟨"remote text".data, 6, some "2024-01-01T00:00:00Z".data⟩)],
   60000⟩

theorem c8_read_cache_ttl_witness :
    (∃ st2, readFileM c1wSt c1wWorld 5 6 ["home.md".data] =
        .ok ("remote text".data, st2, 1) ∧
      aget st2.cache "p1".data =
        some ⟨"remote text".data, 6, some "2024-01-01T00:00:00Z".data⟩) ∧
    readFileM c8wCached c1wWorld 10 11 ["home.md".data] =
      .ok ("remote text".data, c8wCached, 0) := by
  constructor
  · obtain ⟨st2, hrun, hkey, hent, httl⟩ :=
      (c8_read_cache_ttl c1wSt c1wWorld 5 6 ["home.md".data] c1wF rfl).2.1 rfl
    exact ⟨st2, hrun, hkey⟩
  · exact (c8_read_cache_ttl c8wCached c1wWorld 10 11 ["home.md".data] c1wF
      rfl).1 ⟨"remote text".data, 6, some "2024-01-01T00:00:00Z".data⟩ rfl
      (by decide)

theorem ensure_dir_index {m : EMap} {resolved : VPath}
    {dn : Str} {dp dpp : VPath} {dch : Finset VPath} {dmeta : EntryMeta}
    {n : Str} {p pp : VPath} {pid : Str} {meta : EntryMeta}
    (hdir : mget m resolved = some (.dir dn dp dpp dch dmeta))
    (hidx : mget m (dp ++ ["index.md".data]) = some (.file n p pp pid meta)) :
    ensurePageFile m resolved = .ok ⟨n, p, pp, pid, meta⟩ := by
  unfold ensurePageFile
  split
  · next heq => rw [hdir] at heq; cases heq
  · next dn2 dp2 dpp2 dch2 dmeta2 heq =>
    rw [hdir] at heq
    obtain ⟨rfl, rfl, rfl, rfl, rfl⟩ := FsEntry.dir.inj (Option.some.inj heq)
    rw [hidx]
  · next heq => rw [hdir] at heq; cases heq
  · next heq => rw [hdir] at heq; cases heq

theorem ensure_dir_noindex {m : EMap} {resolved : VPath}
    {dn : Str} {dp dpp : VPath} {dch : Finset VPath} {dmeta : EntryMeta}
    (hdir : mget m resolved = some (.dir dn dp dpp dch dmeta))
    (hni : ∀ n p pp pid meta,
      mget m (dp ++ ["index.md".data]) ≠ some (.file n p pp pid meta)) :
    ensurePageFile m resolved = .error (.fileNotFound resolved) := by
  unfold ensurePageFile
  split
  · next heq => rw [hdir] at heq; cases heq
  · next dn2 dp2 dpp2 dch2 dmeta2 heq =>
    rw [hdir] at heq
    obtain ⟨rfl, rfl, rfl, rfl, rfl⟩ := FsEntry.dir.inj (Option.some.inj heq)
    split
    · next n p pp pid meta heq2 => exact absurd heq2 (hni n p pp pid meta)
    · rfl
  · next heq => simp [hdir] at heq
  · next heq => simp [hdir] at heq

theorem readFileM_of_err {st : VfsIoState} {resolved : VPath} {e : VfsErr}
    (w : RemoteWorld) (now1 now2 : Int)
    (hnd : ∀ n p pp did meta,
      mget st.entries resolved ≠ some (.db n p pp did meta))
    (he : ensurePageFile st.entries resolved = .error e) :
    readFileM st w now1 now2 resolved = .error e := by
  unfold readFileM
  split
  · next n p pp did meta heq => exact absurd heq (hnd n p pp did meta)
  · rw [he]

theorem writeFileM_of_err {st : VfsIoState} {resolved : VPath} {e : VfsErr}
    (w : RemoteWorld) (ns : Str) (now : Int) (md : Str)
    (hnd : ∀ n p pp did meta,
      mget st.entries resolved ≠ some (.db n p pp did meta))
    (he : ensurePageFile st.entries resolved = .error e) :
    writeFileM st w ns now resolved md = .error e := by
  unfold writeFileM
  split
  · next n p pp did meta heq => exact absurd heq (hnd n p pp did meta)
  · rw [he]

theorem readFileM_db {st : VfsIoState} {resolved : VPath}
    {n : Str} {p pp : VPath} {did : Str} {meta : EntryMeta}
    (w : RemoteWorld) (now1 now2 : Int)
    (hdb : mget st.entries resolved = some (.db n p pp did meta)) :
    readFileM st w now1 now2 resolved =
      .ok (dbPlaceholderMarkdown did, st, 0) := by
  unfold readFileM
  split
  · next n2 p2 pp2 did2 meta2 heq =>
    rw [hdb] at heq
    obtain ⟨rfl, rfl, rfl, rfl, rfl⟩ := FsEntry.db.inj (Option.some.inj heq)
    rfl
  · next hne => exact absurd hdb (hne n p pp did meta)

theorem writeFileM_db {st : VfsIoState} {resolved : VPath}
    {n : Str} {p pp : VPath} {did : Str} {meta : EntryMeta}
    (w : RemoteWorld) (ns : Str) (now : Int) (md : Str)
    (hdb : mget st.entries resolved = some (.db n p pp did meta)) :
    writeFileM st w ns now resolved md = .error (.readonlyDb p) := by
  unfold writeFileM
  split
  · next n2 p2 pp2 did2 meta2 heq =>
    rw [hdb] at heq
    obtain ⟨rfl, rfl, rfl, rfl, rfl⟩ := FsEntry.db.inj (Option.some.inj heq)
    rfl
  · next hne => exact absurd hdb (hne n p pp did meta)

/-- C10 (amended): a path resolving to a directory entry makes `readFile`
and `writeFile` operate on the directory's contained `index.md` file entry
when one exists — the write path runs the conflict-aware body on that file
and the read path serves/fetches that file's backing page — and both fail
with a file-does-not-exist error when the directory has no `index.md` file
child. A path resolving to a database placeholder makes `writeFile` fail
read-only, while `readFile` succeeds with the fixed placeholder document
rather than failing. -/
theorem c10_dir_and_placeholder_resolution
    (st : VfsIoState) (w : RemoteWorld) (ns md : Str) (now1 now2 now : Int)
    (resolved : VPath) (dn : Str) (dp dpp : VPath) (dch : Finset VPath)
    (dmeta : EntryMeta)
    (hdir : mget st.entries resolved = some (.dir dn dp dpp dch dmeta)) :
    (∀ n p pp pid meta,
      mget st.entries (dp ++ ["index.md".data]) = some (.file n p pp pid meta) →
      ensurePageFile st.entries resolved = .ok ⟨n, p, pp, pid, meta⟩ ∧
      writeFileM st w ns now resolved md =
        writeBody st w ns now ⟨n, p, pp, pid, meta⟩ md ∧
      readFileM st w now1 now2 resolved =
        (match aget st.cache pid with
         | some c =>
           if now1 - c.fetchedAt < st.ttlMs then .ok (c.markdown, st, 0)
           else readFetch st w now2 ⟨n, p, pp, pid, meta⟩
         | none => readFetch st w now2 ⟨n, p, pp, pid, meta⟩)) ∧
    ((∀ n p pp pid meta,
        mget st.entries (dp ++ ["index.md".data]) ≠ some (.file n p pp pid meta)) →
      readFileM st w now1 now2 resolved = .error (.fileNotFound resolved) ∧
      writeFileM st w ns now resolved md = .error (.fileNotFound resolved)) ∧
    (∀ resolved2 n2 p2 pp2 did2 meta2,
      mget st.entries resolved2 = some (.db n2 p2 pp2 did2 meta2) →
      writeFileM st w ns now resolved2 md = .error (.readonlyDb p2) ∧
      readFileM st w now1 now2 resolved2 =
        .ok (dbPlaceholderMarkdown did2, st, 0)) := by
  refine ⟨?_, ?_, ?_⟩
  · intro n p pp pid meta hidx
    have hens := ensure_dir_index hdir hidx
    exact ⟨hens, writeFileM_ensure w ns now md hens,
      readFileM_ensure w now1 now2 hens⟩
  · intro hni
    have hens := ensure_dir_noindex hdir hni
    have hnd : ∀ n p pp did meta,
        mget st.entries resolved ≠ some (.db n p pp did meta) := by
      intro n p pp did meta h
      simp [hdir] at h
    exact ⟨readFileM_of_err w now1 now2 hnd hens,
      writeFileM_of_err w ns now md hnd hens⟩
  · intro resolved2 n2 p2 pp2 did2 meta2 hdb
    exact ⟨writeFileM_db w ns now md hdb, readFileM_db w now1 now2 hdb⟩

def c10wSt : VfsIoState :=
  ⟨[(["db1".data], .db "db1".data ["db1".data] [] "dbase123".data {})], [],
   60000⟩

/-- C10 counterexample: a read of a path resolving to a database placeholder
does not fail with a read-only error — it returns the fixed placeholder
document. (The spec claims both `readFile` and `writeFile` fail read-only
there; only `writeFile` does.) -/
theorem c10_read_placeholder_counterexample :
    readFileM c10wSt c1wWorld 0 0 ["db1".data] =
      .ok (dbPlaceholderMarkdown "dbase123".data, c10wSt, 0) ∧
    ∀ p, readFileM c10wSt c1wWorld 0 0 ["db1".data] ≠
      .error (.readonlyDb p) := by
  refine ⟨rfl, ?_⟩
  intro p h
  rw [show readFileM c10wSt c1wWorld 0 0 ["db1".data] =
    .ok (dbPlaceholderMarkdown "dbase123".data, c10wSt, 0) from rfl] at h
  cases h

def c10wMeta : EntryMeta := { lastEditedTime := some "T1".data }

def c10wDirSt : VfsIoState :=
  ⟨[(["notes".data],
     .dir "notes".data ["notes".data] []
       {["notes".data, "index.md".data]} {}),
    (["notes".data, "index.md".data],
     .file "index.md".data ["notes".data, "index.md".data] ["notes".data]
       "p9".data c10wMeta)], [], 60000⟩

theorem c10_dir_and_placeholder_resolution_witness :
    ensurePageFile c10wDirSt.entries ["notes".data] =
      .ok ⟨"index.md".data, ["notes".data, "index.md".data], ["notes".data],
        "p9".data, c10wMeta⟩ ∧
    readFileM c10wDirSt c1wWorld 0 0 ["notes".data] =
      readFetch c10wDirSt c1wWorld 0
        ⟨"index.md".data, ["notes".data, "index.md".data], ["notes".data],
         "p9".data, c10wMeta⟩ := by
  have h := (c10_dir_and_placeholder_resolution c10wDirSt c1wWorld
    "S1".data "md".data 0 0 0 ["notes".data] "notes".data ["notes".data] []
    {["notes".data, "index.md".data]} {} rfl).1 "index.md".data
    ["notes".data, "index.md".data] ["notes".data] "p9".data c10wMeta rfl
  exact ⟨h.1, h.2.2⟩

/-! ### The shell's edit session: `handleEditLine` and the `handleLine`
error wrapper -/

structure EditState where
  path : VPath
  buffer : List Str
deriving DecidableEq

def isDigitChar (c : Char) : Bool := 48 ≤ c.toNat && c.toNat ≤ 57

def parseNatStr (s : Str) : Nat :=
  s.foldl (fun a c => a * 10 + (c.toNat - 48)) 0

def strStartsWith (s p : Str) : Bool := p.isPrefixOf s

def vpathStr : VPath → Str
  | [] => "/".data
  | segs => segs.foldl (fun acc seg => acc ++ '/' :: seg) []

def padStart4 (s : Str) : Str := List.replicate (4 - s.length) ' ' ++ s

def printEditBuffer (buf : List Str) : List Str :=
  if buf = [] then ["(empty buffer)".data]
  else (List.range buf.length).map
    (fun i => padStart4 (natDec (i + 1)) ++ "  ".data ++ buf.getD i [])

/-- The regex `^:set\s+(\d+)\s+(.*)$` on the trimmed line: the captured
digit group and trailing text. -/
def matchSetRe (s : Str) : Option (Str × Str) :=
  match s with
  | ':' :: 's' :: 'e' :: 't' :: rest =>
    let r1 := rest.dropWhile isWsChar
    if rest.takeWhile isWsChar = [] then none else
    let ds := r1.takeWhile isDigitChar
    let r2 := r1.dropWhile isDigitChar
    if ds = [] then none else
    if r2.takeWhile isWsChar = [] then none else
    some (ds, r2.dropWhile isWsChar)
  | _ => none

/-- The regex `^:del\s+(\d+)$` on the trimmed line. -/
def matchDelRe (s : Str) : Option Str :=
  match s with
  | ':' :: 'd' :: 'e' :: 'l' :: rest =>
    let r1 := rest.dropWhile isWsChar
    if rest.takeWhile isWsChar = [] then none else
    let ds := r1.takeWhile isDigitChar
    if ds = [] then none else
    if r1.dropWhile isDigitChar = [] then some ds else none
  | _ => none

/-- `handleEditLine` from `session/shell.ts`, with the `vfs.writeFile` call
abstracted as the `write` parameter. The result is the edit state after the
call (`none` = idle), the lines printed, and the error thrown if any; a
thrown error (a directive usage error or a write failure such as a conflict)
aborts the branch before any later mutation, so on a failed `:wq` the state
stays as it was. -/
def handleEditLine (write : VPath → Str → Except Str Unit) (es : EditState)
    (line : Str) : Option EditState × List Str × Option Str :=
  let trimmed := trimS line
  if trimmed = ":q!".data then (none, ["edit cancelled".data], none)
  else if trimmed = ":wq".data then
    let payload := joinLines es.buffer
    match write es.path payload with
    | .error msg => (some es, [], some msg)
    | .ok _ => (none, ["saved ".data ++ vpathStr es.path], none)
  else if trimmed = ":p".data then (some es, printEditBuffer es.buffer, none)
  else if trimmed = ":clear".data then
    (some { es with buffer := [] }, ["buffer cleared".data], none)
  else if strStartsWith trimmed ":set ".data then
    match matchSetRe trimmed with
    | none => (some es, [], some "Usage: :set <line> <text>".data)
    | some (ds, text) =>
      let index : Int := (parseNatStr ds : Int) - 1
      if index < 0 ∨ (es.buffer.length : Int) ≤ index then
        (some es, [], some ("Line out of range: ".data ++ ds))
      else (some { es with buffer := es.buffer.set index.toNat text }, [], none)
  else if strStartsWith trimmed ":del ".data then
    match matchDelRe trimmed with
    | none => (some es, [], some "Usage: :del <line>".data)
    | some ds =>
      let index : Int := (parseNatStr ds : Int) - 1
      if index < 0 ∨ (es.buffer.length : Int) ≤ index then
        (some es, [], some ("Line out of range: ".data ++ ds))
      else
        (some { es with buffer := es.buffer.eraseIdx index.toNat }, [], none)
  else if strStartsWith trimmed ":append ".data then
    (some { es with buffer := es.buffer ++ [trimmed.drop 8] }, [], none)
  else (some { es with buffer := es.buffer ++ [line] }, [], none)

/-- The edit-mode case of `handleLine`: run `handleEditLine` inside the
try/catch, a thrown error surfacing as an `error:` line. -/
def handleLineEditing (write : VPath → Str → Except Str Unit) (es : EditState)
    (line : Str) : Option EditState × List Str :=
  match handleEditLine write es line with
  | (st, out, none) => (st, out)
  | (st, out, some msg) => (st, out ++ ["error: ".data ++ msg])

def c2wState : EditState := ⟨["home.md".data], ["hello".data]⟩

/-- C2 counterexample: committing with `:wq` while the conflict-aware write
fails leaves the session in edit mode — the state after the line is still
the editing state, not idle — with the error surfaced as an `error:` line.
This refutes the claim that `:wq` returns the session to idle regardless of
whether the write succeeds or fails. -/
theorem c2_commit_conflict_counterexample :
    handleLineEditing (fun _ _ => .error "Conflict detected".data) c2wState
        ":wq".data =
      (some c2wState, ["error: Conflict detected".data]) ∧
    (handleLineEditing (fun _ _ => .error "Conflict detected".data) c2wState
        ":wq".data).1 ≠ none := by
  exact ⟨rfl, by decide⟩

/-- C2 (amended): in edit mode, `:wq` joins the buffer lines with newlines
and invokes the conflict-aware write path on the session's edit target; the
session returns to idle exactly when the write succeeds (printing a `saved`
line), while a write failure such as a conflict surfaces as an `error:` line
and leaves the session in edit mode with the buffer intact. -/
theorem c2_commit_exit_iff_write_ok (write : VPath → Str → Except Str Unit)
    (es : EditState) :
    (∀ u : Unit, write es.path (joinLines es.buffer) = .ok u →
      handleLineEditing write es ":wq".data =
        (none, ["saved ".data ++ vpathStr es.path])) ∧
    (∀ msg, write es.path (joinLines es.buffer) = .error msg →
      handleLineEditing write es ":wq".data =
        (some es, ["error: ".data ++ msg])) := by
  constructor
  · intro u hw
    unfold handleLineEditing handleEditLine
    rw [show trimS ":wq".data = ":wq".data from rfl]
    rw [if_neg (by decide), if_pos rfl]
    simp only [hw]
  · intro msg hw
    unfold handleLineEditing handleEditLine
    rw [show trimS ":wq".data = ":wq".data from rfl]
    rw [if_neg (by decide), if_pos rfl]
    simp only [hw]
    rfl

theorem c2_commit_exit_iff_write_ok_witness :
    handleLineEditing (fun _ _ => .ok ()) c2wState ":wq".data =
      (none, ["saved /home.md".data]) :=
  (c2_commit_exit_iff_write_ok (fun _ _ => .ok ()) c2wState).1 () rfl

/-! ### `refresh`: TTL guard and single-flight -/

/-- The refresh controller fields of `VirtualFs` as `refresh` reads and
writes them: `inFlight` is `refreshPromise !== null`, and `listingCount`
counts gateway listing passes started. -/
structure RefreshCtl where
  inFlight : Bool
  indexedAtLeastOnce : Bool
  lastRefreshAt : Int
  listingCount : Nat
deriving DecidableEq

/-- The synchronous prefix of `refresh(force)` run at clock `now` (atomic in
the single-threaded runtime): a non-forced call within the TTL window after
an indexed refresh is a no-op; a call while a rebuild is in flight returns
the in-flight promise without starting anything; otherwise the call starts
the one rebuild, whose first step is the gateway listing pass. -/
def refreshCall (ttlMs : Int) (ctl : RefreshCtl) (force : Bool) (now : Int) :
    RefreshCtl :=
  if !force && (ctl.indexedAtLeastOnce && now - ctl.lastRefreshAt < ttlMs) then
    ctl
  else if ctl.inFlight then ctl
  else { ctl with inFlight := true, listingCount := ctl.listingCount + 1 }

/-- Completion of the in-flight rebuild (the `finally` clearing
`refreshPromise` and the tail marking the index fresh). -/
def refreshComplete (ctl : RefreshCtl) (finishedAt : Int) : RefreshCtl :=
  { ctl with
    inFlight := false
    indexedAtLeastOnce := true
    lastRefreshAt := finishedAt }

theorem refreshCall_inFlight {ctl : RefreshCtl} (ttlMs : Int) (force : Bool)
    (now : Int) (h : ctl.inFlight = true) :
    refreshCall ttlMs ctl force now = ctl := by
  unfold refreshCall
  by_cases hc : (!force && (ctl.indexedAtLeastOnce &&
      decide (now - ctl.lastRefreshAt < ttlMs))) = true
  · rw [if_pos hc]
  · rw [if_neg hc, if_pos h]

/-- C9: refresh is single-flight. While a rebuild is in flight, every
further `refresh` call — forced or not, at any clock — leaves the controller
unchanged: it starts no second listing pass. From an idle controller a
forced call starts exactly one rebuild (one listing pass), and any sequence
of additional calls arriving while it is in flight leaves the state, and in
particular the listing count, at that single pass. -/
theorem c9_single_flight_refresh (ttlMs : Int) (ctl : RefreshCtl) (now : Int) :
    (∀ force now2, ctl.inFlight = true →
      refreshCall ttlMs ctl force now2 = ctl) ∧
    (ctl.inFlight = false →
      (refreshCall ttlMs ctl true now).inFlight = true ∧
      (refreshCall ttlMs ctl true now).listingCount = ctl.listingCount + 1 ∧
      ∀ calls : List (Bool × Int),
        calls.foldl (fun c p => refreshCall ttlMs c p.1 p.2)
          (refreshCall ttlMs ctl true now) =
          refreshCall ttlMs ctl true now) := by
  constructor
  · intro force now2 h
    exact refreshCall_inFlight ttlMs force now2 h
  · intro h
    have hstart : refreshCall ttlMs ctl true now =
        { ctl with inFlight := true, listingCount := ctl.listingCount + 1 } := by
      unfold refreshCall
      rw [if_neg (by simp), if_neg (by simp [h])]
    refine ⟨by rw [hstart], by rw [hstart], ?_⟩
    intro calls
    induction calls with
    | nil => rfl
    | cons p rest ih =>
      rw [List.foldl_cons,
        refreshCall_inFlight ttlMs p.1 p.2 (by rw [hstart]), ih]

theorem c9_single_flight_refresh_witness :
    refreshCall 60000 ⟨true, false, 0, 1⟩ true 5 = ⟨true, false, 0, 1⟩ ∧
    (refreshCall 60000 ⟨false, false, 0, 0⟩ true 5).listingCount = 1 ∧
    [(false, 6), (true, 7), (false, 8)].foldl
        (fun c p => refreshCall 60000 c p.1 p.2)
        (refreshCall 60000 ⟨false, false, 0, 0⟩ true 5) =
      refreshCall 60000 ⟨false, false, 0, 0⟩ true 5 :=
  ⟨(c9_single_flight_refresh 60000 ⟨true, false, 0, 1⟩ 5).1 true 5 rfl,
   ((c9_single_flight_refresh 60000 ⟨false, false, 0, 0⟩ 5).2 rfl).2.1,
   ((c9_single_flight_refresh 60000 ⟨false, false, 0, 0⟩ 5).2 rfl).2.2
     [(false, 6), (true, 7), (false, 8)]⟩

/-! ### `filterByRoot` and `listRecords`: root scoping of the listing pass -/

/-- Dash-stripped id normalization: every dash removed from the id. -/
def normId (s : Str) : Str := s.filter (fun c => c ≠ '-')

/-- The precomputed `(idNoDash, parentPageNoDash)` pairs `filterByRoot`
derives from the records it is given. -/
def fbrItems (records : List NotionRecordMeta) : List (Str × Option Str) :=
  records.map (fun r => (normId r.id,
    match r.parent with
    | .pageRef pid => some (normId pid)
    | _ => none))


/-- One item step of a pass of the `while (changed)` loop: an item already
included is skipped; otherwise a truthy (nonempty) `parentPageNoDash` found
in the included set adds the item's normalized id. -/
def fbrStep (acc : Finset Str) (it : Str × Option Str) : Finset Str :=
  if it.1 ∈ acc then acc
  else match it.2 with
    | some pp =>
      if pp = [] then acc
      else if pp ∈ acc then insert it.1 acc else acc
    | none => acc

/-- One `for` pass of the `while (changed)` loop: later items of the same
pass see additions made earlier in the pass. -/
def fbrPass (items : List (Str × Option Str)) (acc : Finset Str) : Finset Str :=
  items.foldl fbrStep acc

def fbrLoop : Nat → List (Str × Option Str) → Finset Str → Finset Str
  | 0, _, acc => acc
  | fuel + 1, items, acc =>
    let acc2 := fbrPass items acc
    if acc2 = acc then acc else fbrLoop fuel items acc2

/-- `filterByRoot` from the gateway: seed the included set with the
normalized root id and expand over the given list until a pass adds
nothing; `records.length + 1` passes always suffice. -/
def filterByRoot (records : List NotionRecordMeta) (rootPageId : Option Str) :
    List NotionRecordMeta :=
  match rootPageId with
  | none => records
  | some root =>
    if root = [] then records
    else
      let included :=
        fbrLoop (records.length + 1) (fbrItems records) {normId root}
      records.filter (fun r => normId r.id ∈ included)

/-- `listRecords`: the root filter applied separately to the page list and
to the database list (the two raw search results). -/
def listRecords (rawPages rawDatabases : List NotionRecordMeta)
    (rootPageId : Option Str) :
    List NotionRecordMeta × List NotionRecordMeta :=
  (filterByRoot rawPages rootPageId, filterByRoot rawDatabases rootPageId)

/-- Reachability from the root by parent links within one item list: the
transitive closure `filterByRoot`'s fixed-point expansion computes. -/
inductive FbrReach (items : List (Str × Option Str)) (root : Str) : Str → Prop
  | root : FbrReach items root root
  | step {p i : Str} : FbrReach items root p → (i, some p) ∈ items →
      p ≠ [] → FbrReach items root i

theorem fbrStep_subset (acc : Finset Str) (it : Str × Option Str) :
    acc ⊆ fbrStep acc it := by
  unfold fbrStep
  split
  · exact fun x hx => hx
  · split
    · split
      · exact fun x hx => hx
      · split
        · exact fun x hx => Finset.mem_insert_of_mem hx
        · exact fun x hx => hx
    · exact fun x hx => hx

theorem fbrStep_mem {acc : Finset Str} {it : Str × Option Str} {x : Str}
    (hx : x ∈ fbrStep acc it) : x ∈ acc ∨ x = it.1 := by
  unfold fbrStep at hx
  split at hx
  · exact Or.inl hx
  · split at hx
    · split at hx
      · exact Or.inl hx
      · split at hx
        · rcases Finset.mem_insert.1 hx with h | h
          · exact Or.inr h
          · exact Or.inl h
        · exact Or.inl hx
    · exact Or.inl hx

theorem fbrPass_subset (items : List (Str × Option Str)) (acc : Finset Str) :
    acc ⊆ fbrPass items acc := by
  induction items generalizing acc with
  | nil => exact fun x hx => hx
  | cons it rest ih =>
    intro x hx
    exact ih (fbrStep acc it) (fbrStep_subset acc it hx)

theorem fbrPass_new_mem {items : List (Str × Option Str)} {acc : Finset Str}
    {x : Str} (hx : x ∈ fbrPass items acc) :
    x ∈ acc ∨ x ∈ items.map Prod.fst := by
  induction items generalizing acc with
  | nil => exact Or.inl hx
  | cons it rest ih =>
    rcases ih hx with h | h
    · rcases fbrStep_mem h with h2 | h2
      · exact Or.inl h2
      · subst h2
        exact Or.inr (List.mem_map_of_mem Prod.fst (List.mem_cons_self it rest))
    · exact Or.inr (List.mem_cons_of_mem it.1 h)

theorem fbrPass_mem_of {items : List (Str × Option Str)} {acc : Finset Str}
    {i p : Str} (hit : (i, some p) ∈ items) (hp : p ≠ []) (hpa : p ∈ acc) :
    i ∈ fbrPass items acc := by
  induction items generalizing acc with
  | nil => cases hit
  | cons it rest ih =>
    rcases List.mem_cons.1 hit with heq | htl
    · by_cases hi : i ∈ acc
      · exact fbrPass_subset rest _ (fbrStep_subset acc it hi)
      · show i ∈ fbrPass rest (fbrStep acc it)
        rw [← heq]
        unfold fbrStep
        dsimp only
        rw [if_neg hi, if_neg hp, if_pos hpa]
        exact fbrPass_subset rest _ (Finset.mem_insert_self i acc)
    · exact ih htl (fbrStep_subset acc it hpa)

theorem fbrLoop_succ (fuel : Nat) (items : List (Str × Option Str))
    (acc : Finset Str) :
    fbrLoop (fuel + 1) items acc =
      if fbrPass items acc = acc then acc
      else fbrLoop fuel items (fbrPass items acc) := rfl

theorem fbrLoop_subset (fuel : Nat) (items : List (Str × Option Str))
    (acc : Finset Str) : acc ⊆ fbrLoop fuel items acc := by
  induction fuel generalizing acc with
  | zero => exact fun x hx => hx
  | succ k ih =>
    rw [fbrLoop_succ]
    by_cases heq : fbrPass items acc = acc
    · rw [if_pos heq]
    · rw [if_neg heq]
      exact fun x hx => ih _ (fbrPass_subset items acc hx)

theorem fbrLoop_fix (fuel : Nat) (items : List (Str × Option Str))
    (acc : Finset Str)
    (h : ((items.map Prod.fst).toFinset \ acc).card < fuel) :
    fbrPass items (fbrLoop fuel items acc) = fbrLoop fuel items acc := by
  induction fuel generalizing acc with
  | zero => exact absurd h (Nat.not_lt_zero _)
  | succ k ih =>
    rw [fbrLoop_succ]
    by_cases heq : fbrPass items acc = acc
    · rw [if_pos heq, heq]
    · rw [if_neg heq]
      apply ih
      have hsub : acc ⊆ fbrPass items acc := fbrPass_subset items acc
      have hss : acc ⊂ fbrPass items acc :=
        Finset.ssubset_iff_subset_ne.2 ⟨hsub, fun hba => heq hba.symm⟩
      obtain ⟨x, hxb, hxa⟩ := Finset.exists_of_ssubset hss
      have hxid : x ∈ (items.map Prod.fst).toFinset := by
        rcases fbrPass_new_mem hxb with h2 | h2
        · exact absurd h2 hxa
        · exact List.mem_toFinset.2 h2
      have h1 : (items.map Prod.fst).toFinset \ fbrPass items acc ⊂
          (items.map Prod.fst).toFinset \ acc := by
        refine Finset.ssubset_iff_subset_ne.2
          ⟨Finset.sdiff_subset_sdiff (Finset.Subset.refl _) hsub, ?_⟩
        intro hEq
        have hx1 : x ∈ (items.map Prod.fst).toFinset \ acc :=
          Finset.mem_sdiff.2 ⟨hxid, hxa⟩
        rw [← hEq] at hx1
        exact (Finset.mem_sdiff.1 hx1).2 hxb
      have h2 := Finset.card_lt_card h1
      omega

theorem fbrPass_sound {items0 : List (Str × Option Str)} {root : Str} :
    ∀ (items : List (Str × Option Str)), (∀ it ∈ items, it ∈ items0) →
    ∀ (acc : Finset Str), (∀ y ∈ acc, FbrReach items0 root y) →
    ∀ x ∈ fbrPass items acc, FbrReach items0 root x := by
  intro items
  induction items with
  | nil => exact fun _ acc hacc x hx => hacc x hx
  | cons it rest ih =>
    intro hs acc hacc x hx
    apply ih (fun a ha => hs a (List.mem_cons_of_mem it ha)) _ ?_ x hx
    intro y hy
    unfold fbrStep at hy
    split at hy
    · exact hacc y hy
    · split at hy
      · next pp heq =>
        split at hy
        · exact hacc y hy
        · next hppne =>
          split at hy
          · next hppacc =>
            rcases Finset.mem_insert.1 hy with h2 | h2
            · subst h2
              refine FbrReach.step (hacc pp hppacc) ?_ hppne
              have : it = (it.1, some pp) := by
                rw [Prod.ext_iff]
                exact ⟨rfl, heq⟩
              rw [← this]
              exact hs it (List.mem_cons_self it rest)
            · exact hacc y h2
          · exact hacc y hy
      · exact hacc y hy

theorem fbrLoop_sound {items : List (Str × Option Str)} {root : Str}
    (fuel : Nat) (acc : Finset Str)
    (hacc : ∀ y ∈ acc, FbrReach items root y) :
    ∀ x ∈ fbrLoop fuel items acc, FbrReach items root x := by
  induction fuel generalizing acc with
  | zero => exact hacc
  | succ k ih =>
    rw [fbrLoop_succ]
    by_cases heq : fbrPass items acc = acc
    · rw [if_pos heq]
      exact hacc
    · rw [if_neg heq]
      exact ih _ (fbrPass_sound items (fun a ha => ha) acc hacc)

theorem fbrLoop_reach_iff (fuel : Nat) (items : List (Str × Option Str))
    (root x : Str) (hfuel : items.length + 1 ≤ fuel) :
    x ∈ fbrLoop fuel items {root} ↔ FbrReach items root x := by
  constructor
  · intro hx
    refine fbrLoop_sound fuel {root} ?_ x hx
    intro y hy
    rw [Finset.mem_singleton.1 hy]
    exact FbrReach.root
  · intro hreach
    have hcard : ((items.map Prod.fst).toFinset \ {root}).card < fuel := by
      have h1 : ((items.map Prod.fst).toFinset \ {root}).card ≤
          (items.map Prod.fst).toFinset.card :=
        Finset.card_le_card Finset.sdiff_subset
      have h2 : (items.map Prod.fst).toFinset.card ≤
          (items.map Prod.fst).length := List.toFinset_card_le _
      have h3 : (items.map Prod.fst).length = items.length :=
        List.length_map _ _
      omega
    have hfix := fbrLoop_fix fuel items {root} hcard
    induction hreach with
    | root =>
      exact fbrLoop_subset fuel items {root} (Finset.mem_singleton_self root)
    | step hr hit hp ihp =>
      rw [← hfix]
      exact fbrPass_mem_of hit hp ihp

/-- C7 (amended): with a scope-restricting root id, `filterByRoot` retains
exactly the records of the given list whose normalized id is reachable from
the normalized root via parent links within that list (the fixed-point
expansion over the list it is given), and `listRecords` applies this same
per-list filter to the page list and the database list separately. The
expansion is per-list: the database pass cannot traverse parent pages that
exist only in the page list, so a database whose parent page merely is
reachable from the root (rather than being the root itself) is not
retained. -/
theorem c7_filter_by_root_closure (records : List NotionRecordMeta)
    (root : Str) (hroot : root ≠ []) :
    (∀ r, r ∈ filterByRoot records (some root) ↔
      r ∈ records ∧
        FbrReach (fbrItems records) (normId root) (normId r.id)) ∧
    (∀ pages dbs, listRecords pages dbs (some root) =
      (filterByRoot pages (some root), filterByRoot dbs (some root))) := by
  constructor
  · intro r
    have hlen : (fbrItems records).length = records.length := by
      simp [fbrItems]
    have hfuel : (fbrItems records).length + 1 ≤ records.length + 1 := by
      rw [hlen]
    rw [show filterByRoot records (some root) =
      (if root = [] then records else records.filter (fun r => normId r.id ∈
        fbrLoop (records.length + 1) (fbrItems records) {normId root}))
      from rfl]
    rw [if_neg hroot, List.mem_filter]
    constructor
    · rintro ⟨h1, h2⟩
      exact ⟨h1, (fbrLoop_reach_iff _ _ _ _ hfuel).1 (of_decide_eq_true h2)⟩
    · rintro ⟨h1, h2⟩
      exact ⟨h1, decide_eq_true ((fbrLoop_reach_iff _ _ _ _ hfuel).2 h2)⟩
  · intro pages dbs
    rfl

def c7Page : NotionRecordMeta :=
  ⟨"P".data, "Child".data, .pageRef "R".data, "c".data, "t".data, "o".data⟩

def c7Db : NotionRecordMeta :=
  ⟨"D".data, "DB".data, .pageRef "P".data, "c".data, "t".data, "o".data⟩

/-- C7 counterexample: root R, a page P whose parent is R, and a database D
whose parent is P. The page pass retains P (parent R is the root), but the
database pass — run on the database list alone — cannot see P, so D is
dropped even though its parent page is reachable from the root. This
refutes "a collection whose parent page is reachable from the root is
retained". -/
theorem c7_db_dropped_counterexample :
    listRecords [c7Page] [c7Db] (some "R".data) = ([c7Page], []) ∧
    c7Db ∉ (listRecords [c7Page] [c7Db] (some "R".data)).2 := by
  have h : listRecords [c7Page] [c7Db] (some "R".data) = ([c7Page], []) := rfl
  refine ⟨h, ?_⟩
  rw [h]
  exact List.not_mem_nil c7Db

theorem c7_filter_by_root_closure_witness :
    c7Page ∈ filterByRoot [c7Page] (some "R".data) :=
  ((c7_filter_by_root_closure [c7Page] "R".data (by decide)).1 c7Page).2
    ⟨List.mem_singleton_self c7Page,
     FbrReach.step FbrReach.root (by decide) (by decide)⟩

/-! ### `renderBlock` / `notionBlocksToMarkdown`: block tree to text -/

/-- The block shapes `renderBlock` distinguishes, with the fields it reads:
plain text of the rich text, checked flag, children, code language/body,
child page title, and the raw kind and id for anything unsupported. -/
inductive NBlock where
  | paragraph (text : Str)
  | heading1 (text : Str)
  | heading2 (text : Str)
  | heading3 (text : Str)
  | bulleted (text : Str) (children : List NBlock)
  | numbered (text : Str) (children : List NBlock)
  | todo (checked : Bool) (text : Str) (children : List NBlock)
  | quote (text : Str)
  | callout (icon : Str) (text : Str) (children : List NBlock)
  | code (language : Str) (body : Str)
  | divider
  | childDatabase (id : Str)
  | childPage (title : Str)
  | unsupported (kind : Str) (id : Str)

/-- `INDENT.repeat(d)` with `INDENT = '  '`. -/
def indentRep (d : Nat) : Str := (List.replicate d "  ".data).join

mutual

/-- `renderBlock` from `notion/markdown.ts`. -/
def renderBlock : NBlock → Nat → List Str
  | .paragraph t, _ => if t = [] then [[]] else [t]
  | .heading1 t, _ => ["# ".data ++ t]
  | .heading2 t, _ => ["## ".data ++ t]
  | .heading3 t, _ => ["### ".data ++ t]
  | .bulleted t cs, depth =>
    (indentRep depth ++ "- ".data ++ t) :: renderListChildren cs (depth + 1)
  | .numbered t cs, depth =>
    (indentRep depth ++ "1. ".data ++ t) :: renderListChildren cs (depth + 1)
  | .todo ck t cs, depth =>
    (indentRep depth ++ "- [".data ++ (if ck then 'x' else ' ') :: "] ".data
        ++ t) :: renderListChildren cs (depth + 1)
  | .quote t, _ => ["> ".data ++ t]
  | .callout icon t cs, _ =>
    (if t = [] then "> ".data ++ icon
     else "> ".data ++ icon ++ " ".data ++ t) :: renderCalloutChildren cs
  | .code lang body, _ => ["```".data ++ lang, body, "```".data]
  | .divider, _ => ["---".data]
  | .childDatabase i, _ => ["[db:".data ++ i ++ "]".data]
  | .childPage title, _ => ["[[".data ++ title ++ "]]".data]
  | .unsupported kind i, _ =>
    ["<!-- unsupported:".data ++ kind ++ " id:".data ++ i ++ " -->".data]

/-- `renderListChildren`: each child rendered one level deeper, every line
prefixed with `INDENT.repeat(depth)`. -/
def renderListChildren : List NBlock → Nat → List Str
  | [], _ => []
  | c :: rest, depth =>
    (renderBlock c (depth + 1)).map (fun l => indentRep depth ++ l) ++
      renderListChildren rest depth

/-- The callout child lines: children rendered at depth 0, then quoted. -/
def renderCalloutChildren : List NBlock → List Str
  | [] => []
  | c :: rest =>
    (renderBlock c 0).map (fun l => if l = [] then ">".data
      else "> ".data ++ l) ++ renderCalloutChildren rest

end

/-- One block's section: its lines joined and right-trimmed. -/
def sectionOf (b : NBlock) : Str := trimEndS (joinLines (renderBlock b 0))

/-- JS `Array.prototype.join('\n\n')`. -/
def joinSections (ss : List Str) : Str := List.intercalate "\n\n".data ss

/-- `notionBlocksToMarkdown`: per-block sections, empty sections filtered
out, the rest joined with blank lines, and a final right trim. -/
def notionBlocksToMarkdown (blocks : List NBlock) : Str :=
  trimEndS (joinSections ((blocks.map sectionOf).filter (fun s => s ≠ [])))

theorem trimEndS_ne_nil {s : Str} (h : ∃ c ∈ s, isWsChar c = false) :
    trimEndS s ≠ [] := by
  obtain ⟨c, hc, hw⟩ := h
  intro hnil
  unfold trimEndS at hnil
  rw [List.reverse_eq_nil_iff] at hnil
  have hall := List.dropWhile_eq_nil_iff.1 hnil
  have := hall c (List.mem_reverse.2 hc)
  rw [hw] at this
  cases this

theorem mem_joinLines_head {c : Char} {l : Str} (ls : List Str) (hc : c ∈ l) :
    c ∈ joinLines (l :: ls) := by
  cases ls with
  | nil => exact hc
  | cons l2 rest => exact List.mem_append_left _ hc

theorem trimEndS_append_last {s : Str} {c : Char} (hw : isWsChar c = false) :
    trimEndS (s ++ [c]) = s ++ [c] := by
  unfold trimEndS
  rw [List.reverse_append]
  show ((c :: s.reverse).dropWhile isWsChar).reverse = s ++ [c]
  rw [List.dropWhile_cons_of_neg (by rw [hw]; exact Bool.false_ne_true)]
  rw [List.reverse_cons, List.reverse_reverse]

def unsupportedMarker (kind i : Str) : Str :=
  "<!-- unsupported:".data ++ kind ++ " id:".data ++ i ++ " -->".data

theorem unsupportedMarker_split (kind i : Str) :
    unsupportedMarker kind i =
      ("<!-- unsupported:".data ++ kind ++ " id:".data ++ i ++ " --".data)
        ++ ['>'] := by
  simp [unsupportedMarker, List.append_assoc]

theorem unsupportedMarker_trimEnd (kind i : Str) :
    trimEndS (unsupportedMarker kind i) = unsupportedMarker kind i := by
  rw [unsupportedMarker_split, trimEndS_append_last (by decide)]

theorem unsupportedMarker_ne_nil (kind i : Str) :
    unsupportedMarker kind i ≠ [] := by
  rw [unsupportedMarker_split]
  intro h
  exact absurd (List.append_eq_nil.1 h).2 (by decide)

theorem sectionOf_unsupported (kind i : Str) :
    sectionOf (.unsupported kind i) = unsupportedMarker kind i := by
  unfold sectionOf
  rw [show renderBlock (.unsupported kind i) 0 = [unsupportedMarker kind i]
    from rfl]
  rw [show joinLines [unsupportedMarker kind i] = unsupportedMarker kind i
    from rfl]
  exact unsupportedMarker_trimEnd kind i

/-- C6 (amended): every block of unsupported kind renders as the explicit
inline comment marker carrying the original kind and id, and a lone
unsupported block reaches the output text verbatim. A block's section is
empty — and the block is then dropped from the output — exactly when the
block is a paragraph whose text trims to nothing; every other block
contributes a nonempty section. (The original claim that no input block is
ever silently dropped fails for whitespace-only paragraphs.) -/
theorem c6_unsupported_marker_no_silent_drop :
    (∀ kind i depth, renderBlock (.unsupported kind i) depth =
      [unsupportedMarker kind i]) ∧
    (∀ kind i, notionBlocksToMarkdown [.unsupported kind i] =
      unsupportedMarker kind i) ∧
    (∀ b : NBlock, sectionOf b = [] ↔
      ∃ t, b = .paragraph t ∧ trimEndS t = []) := by
  refine ⟨fun kind i depth => rfl, ?_, ?_⟩
  · intro kind i
    unfold notionBlocksToMarkdown
    rw [show ([NBlock.unsupported kind i].map sectionOf) =
      [unsupportedMarker kind i] by rw [List.map_cons, List.map_nil,
        sectionOf_unsupported]]
    rw [show List.filter (fun s => decide (s ≠ []))
        [unsupportedMarker kind i] = [unsupportedMarker kind i] by
      simp [List.filter_cons, unsupportedMarker_ne_nil kind i]]
    rw [show joinSections [unsupportedMarker kind i] =
      unsupportedMarker kind i by
      simp [joinSections, List.intercalate, List.intersperse]]
    exact unsupportedMarker_trimEnd kind i
  · intro b
    cases b with
    | paragraph t =>
      by_cases ht : t = []
      · subst ht
        exact iff_of_true rfl ⟨[], rfl, rfl⟩
      · have hsec : sectionOf (.paragraph t) = trimEndS t := by
          unfold sectionOf
          rw [show renderBlock (.paragraph t) 0 = if t = [] then [[]] else [t]
            from rfl, if_neg ht]
          rw [show joinLines [t] = t from rfl]
        rw [hsec]
        constructor
        · intro h
          exact ⟨t, rfl, h⟩
        · rintro ⟨t2, ht2, h2⟩
          cases NBlock.paragraph.inj ht2
          exact h2
    | heading1 t =>
      refine iff_of_false (trimEndS_ne_nil ⟨'#', ?_, by decide⟩) ?_
      · exact mem_joinLines_head _ (by simp)
      · rintro ⟨t2, ht2, _⟩
        cases ht2
    | heading2 t =>
      refine iff_of_false (trimEndS_ne_nil ⟨'#', ?_, by decide⟩) ?_
      · exact mem_joinLines_head _ (by simp)
      · rintro ⟨t2, ht2, _⟩
        cases ht2
    | heading3 t =>
      refine iff_of_false (trimEndS_ne_nil ⟨'#', ?_, by decide⟩) ?_
      · exact mem_joinLines_head _ (by simp)
      · rintro ⟨t2, ht2, _⟩
        cases ht2
    | bulleted t cs =>
      refine iff_of_false (trimEndS_ne_nil ⟨'-', ?_, by decide⟩) ?_
      · exact mem_joinLines_head _ (by simp [indentRep])
      · rintro ⟨t2, ht2, _⟩
        cases ht2
    | numbered t cs =>
      refine iff_of_false (trimEndS_ne_nil ⟨'1', ?_, by decide⟩) ?_
      · exact mem_joinLines_head _ (by simp [indentRep])
      · rintro ⟨t2, ht2, _⟩
        cases ht2
    | todo ck t cs =>
      refine iff_of_false (trimEndS_ne_nil ⟨'-', ?_, by decide⟩) ?_
      · exact mem_joinLines_head _ (by simp [indentRep])
      · rintro ⟨t2, ht2, _⟩
        cases ht2
    | quote t =>
      refine iff_of_false (trimEndS_ne_nil ⟨'>', ?_, by decide⟩) ?_
      · exact mem_joinLines_head _ (by simp)
      · rintro ⟨t2, ht2, _⟩
        cases ht2
    | callout icon t cs =>
      refine iff_of_false (trimEndS_ne_nil ⟨'>', ?_, by decide⟩) ?_
      · refine mem_joinLines_head _ ?_
        by_cases ht : t = []
        · rw [if_pos ht]
          simp
        · rw [if_neg ht]
          simp
      · rintro ⟨t2, ht2, _⟩
        cases ht2
    | code lang body =>
      refine iff_of_false (trimEndS_ne_nil ⟨'`', ?_, by decide⟩) ?_
      · exact mem_joinLines_head _ (by simp)
      · rintro ⟨t2, ht2, _⟩
        cases ht2
    | divider =>
      refine iff_of_false (trimEndS_ne_nil ⟨'-', ?_, by decide⟩) ?_
      · exact mem_joinLines_head _ (by decide)
      · rintro ⟨t2, ht2, _⟩
        cases ht2
    | childDatabase i =>
      refine iff_of_false (trimEndS_ne_nil ⟨'[', ?_, by decide⟩) ?_
      · exact mem_joinLines_head _ (by simp)
      · rintro ⟨t2, ht2, _⟩
        cases ht2
    | childPage title =>
      refine iff_of_false (trimEndS_ne_nil ⟨'[', ?_, by decide⟩) ?_
      · exact mem_joinLines_head _ (by simp)
      · rintro ⟨t2, ht2, _⟩
        cases ht2
    | unsupported kind i =>
      refine iff_of_false (trimEndS_ne_nil ⟨'<', ?_, by decide⟩) ?_
      · exact mem_joinLines_head _ (by simp)
      · rintro ⟨t2, ht2, _⟩
        cases ht2

/-- C6 counterexample: a paragraph block with empty text produces an empty
section, which the renderer filters out — the output equals that of an
empty block list, so the block is silently dropped and contributes no
visible output. -/
theorem c6_empty_paragraph_dropped_counterexample :
    notionBlocksToMarkdown [NBlock.paragraph []] = [] ∧
    notionBlocksToMarkdown [NBlock.paragraph []] =
      notionBlocksToMarkdown [] := ⟨rfl, rfl⟩

theorem c6_unsupported_marker_no_silent_drop_witness :
    notionBlocksToMarkdown [NBlock.unsupported "video".data "abc".data] =
      "<!-- unsupported:video id:abc -->".data :=
  (c6_unsupported_marker_no_silent_drop).2.1 "video".data "abc".data

/-! ### `markdownToNotionBlocks`: text to block list -/

/-- CRLF normalization (every CRLF pair becomes a bare newline). -/
def stripCRLF : Str → Str
  | '\r' :: '\n' :: rest => '\n' :: stripCRLF rest
  | c :: rest => c :: stripCRLF rest
  | [] => []

/-- A line opening a fenced code block: the three backticks and the raw
language text after them. -/
def matchFence : Str → Option Str
  | '`' :: '`' :: '`' :: rest => some rest
  | _ => none

def isFenceStart (s : Str) : Bool := (matchFence s).isSome

/-- One to three leading hash marks followed by whitespace, as the heading
regex with backtracking behaves: the level and the content after the
whitespace run. -/
def matchHeadingAux : Nat → Str → Option (Nat × Str)
  | level, c :: rest =>
    if c = '#' then
      if level < 3 then matchHeadingAux (level + 1) rest else none
    else if isWsChar c then some (level, rest.dropWhile isWsChar)
    else none
  | _, [] => none

def matchHeading : Str → Option (Nat × Str)
  | '#' :: rest => matchHeadingAux 1 rest
  | _ => none

/-- The to-do item regex: dash, one whitespace, a bracketed checkbox mark,
whitespace, text. -/
def matchTodo : Str → Option (Char × Str)
  | '-' :: c1 :: '[' :: c2 :: ']' :: c3 :: rest =>
    if isWsChar c1 && (c2 = ' ' || c2 = 'x' || c2 = 'X') && isWsChar c3 then
      some (c2, rest.dropWhile isWsChar)
    else none
  | _ => none

/-- The bulleted item regex: dash, whitespace run, text. -/
def matchBullet : Str → Option Str
  | '-' :: c :: rest =>
    if isWsChar c then some (rest.dropWhile isWsChar) else none
  | _ => none

/-- The numbered item regex: digits, a dot, whitespace run, text. -/
def matchNumber (s : Str) : Option Str :=
  if s.takeWhile isDigitChar = [] then none
  else match s.dropWhile isDigitChar with
    | '.' :: c :: rest =>
      if isWsChar c then some (rest.dropWhile isWsChar) else none
    | _ => none

/-- The quote regex: a leading angle bracket, at most one whitespace
swallowed, the rest captured. -/
def matchQuote : Str → Option Str
  | '>' :: c :: rest => if isWsChar c then some rest else some (c :: rest)
  | '>' :: [] => some []
  | _ => none

/-- The horizontal-rule regex: three or more dashes and nothing else. -/
def isHr (s : Str) : Bool := 3 ≤ s.length && s.all (fun c => c = '-')

/-- `isBlockBoundary` on an already-trimmed line. -/
def isBlockBoundary (t : Str) : Bool :=
  (matchHeading t).isSome || (matchTodo t).isSome || (matchBullet t).isSome ||
    (matchNumber t).isSome || (matchQuote t).isSome || isFenceStart t || isHr t

/-- Whether a raw line continues the current paragraph: not blank and not a
block boundary, judged on its trimmed form. -/
def paraCont (l : Str) : Bool :=
  !(trimS l = []) && !(isBlockBoundary (trimS l))

/-- One iteration of the `markdownToNotionBlocks` loop: consume a blank
line, or one block's worth of lines (a fenced code block up to and past its
closing fence, one heading / to-do / bullet / numbered item, a maximal run
of quote lines, a rule, or a maximal paragraph run), returning the block
and the remaining lines. -/
def encodeStep (lines : List Str) : Option (Option NBlock × List Str) :=
  match lines with
  | [] => none
  | raw :: rest =>
    let line := trimEndS raw
    let trimmed := trimS line
    if trimmed = [] then some (none, rest)
    else match matchFence trimmed with
    | some langRaw =>
      let language := if trimS langRaw = [] then "plain text".data
        else trimS langRaw
      let body := rest.takeWhile (fun l => !(isFenceStart (trimS l)))
      let rest2 := rest.dropWhile (fun l => !(isFenceStart (trimS l)))
      let rest3 := match rest2 with | [] => [] | _ :: r => r
      some (some (.code language (joinLines body)), rest3)
    | none => match matchHeading trimmed with
    | some (lv, content) =>
      some (some ((match lv with
        | 1 => NBlock.heading1
        | 2 => NBlock.heading2
        | _ => NBlock.heading3) content), rest)
    | none => match matchTodo trimmed with
    | some (c, text) => some (some (.todo (c = 'x' || c = 'X') text []), rest)
    | none => match matchBullet trimmed with
    | some text => some (some (.bulleted text []), rest)
    | none => match matchNumber trimmed with
    | some text => some (some (.numbered text []), rest)
    | none => match matchQuote trimmed with
    | some q =>
      let qtexts := (rest.takeWhile (fun l => (matchQuote (trimS l)).isSome))
        |>.map (fun l => (matchQuote (trimS l)).getD [])
      let rest2 := rest.dropWhile (fun l => (matchQuote (trimS l)).isSome)
      some (some (.quote (joinLines (q :: qtexts))), rest2)
    | none =>
      if isHr trimmed then some (some .divider, rest)
      else
        let paraLines := (rest.takeWhile paraCont).map trimEndS
        let rest2 := rest.dropWhile paraCont
        some (some (.paragraph (joinLines (line :: paraLines))), rest2)

/-- The loop, fuelled: every step consumes at least one line, so
`lines.length + 1` steps always finish. -/
def encodeLines : Nat → List Str → List NBlock
  | 0, _ => []
  | fuel + 1, lines =>
    match encodeStep lines with
    | none => []
    | some (none, rest) => encodeLines fuel rest
    | some (some b, rest) => b :: encodeLines fuel rest

/-- `markdownToNotionBlocks` from `notion/markdown.ts`. -/
def markdownToNotionBlocks (markdown : Str) : List NBlock :=
  let lines := splitLines (stripCRLF markdown)
  encodeLines (lines.length + 1) lines

/-- C5 counterexample: for `X = "> a\n> b"`, the two quote lines encode as
one quote block with an embedded newline; decoding renders it as `"> a\nb"`,
whose re-encoding yields a quote and a separate paragraph, decoding to
`"> a\n\nb"` — so `decode(encode(decode(encode X)))` differs from
`decode(encode X)`. -/
theorem c5_quote_counterexample :
    notionBlocksToMarkdown (markdownToNotionBlocks "> a\n> b".data) =
      "> a\nb".data ∧
    notionBlocksToMarkdown (markdownToNotionBlocks (notionBlocksToMarkdown
      (markdownToNotionBlocks "> a\n> b".data))) = "> a\n\nb".data ∧
    notionBlocksToMarkdown (markdownToNotionBlocks (notionBlocksToMarkdown
      (markdownToNotionBlocks "> a\n> b".data))) ≠
      notionBlocksToMarkdown (markdownToNotionBlocks "> a\n> b".data) := by
  refine ⟨rfl, rfl, ?_⟩
  intro h
  rw [show notionBlocksToMarkdown (markdownToNotionBlocks (notionBlocksToMarkdown
    (markdownToNotionBlocks "> a\n> b".data))) = "> a\n\nb".data from rfl,
    show notionBlocksToMarkdown (markdownToNotionBlocks "> a\n> b".data) =
      "> a\nb".data from rfl] at h
  exact absurd h (by decide)

theorem dropWhile_idem (p : Char → Bool) (l : Str) :
    (l.dropWhile p).dropWhile p = l.dropWhile p := by
  induction l with
  | nil => rfl
  | cons c r ih =>
    by_cases hc : p c = true
    · rw [List.dropWhile_cons_of_pos hc, ih]
    · rw [List.dropWhile_cons_of_neg hc, List.dropWhile_cons_of_neg hc]

theorem trimEndS_idem (s : Str) : trimEndS (trimEndS s) = trimEndS s := by
  unfold trimEndS
  rw [List.reverse_reverse, dropWhile_idem]

theorem exists_last_not_ws {t : Str} (hst : trimEndS t = t) (hne : t ≠ []) :
    ∃ x c, t = x ++ [c] ∧ isWsChar c = false := by
  have hrev : t.reverse.dropWhile isWsChar = t.reverse := by
    have := congrArg List.reverse hst
    rw [trimEndS, List.reverse_reverse] at this
    exact this
  cases hr : t.reverse with
  | nil =>
    exact absurd (by rw [← List.reverse_reverse t, hr]; rfl) hne
  | cons c r =>
    refine ⟨r.reverse, c, ?_, ?_⟩
    · rw [← List.reverse_reverse t, hr, List.reverse_cons]
    · by_contra hw
      rw [Bool.not_eq_false] at hw
      rw [hr, List.dropWhile_cons_of_pos hw] at hrev
      have hlen := congrArg List.length hrev
      have hle : (r.dropWhile isWsChar).length ≤ r.length :=
        (List.dropWhile_sublist isWsChar).length_le
      simp at hlen
      omega

theorem trimEndS_append_stable {x t : Str} (hst : trimEndS t = t)
    (hne : t ≠ []) : trimEndS (x ++ t) = x ++ t := by
  obtain ⟨y, c, rfl, hc⟩ := exists_last_not_ws hst hne
  rw [← List.append_assoc, trimEndS_append_last hc]

theorem last_concat_inj {y z : Str} {d e : Char} (h : y ++ [d] = z ++ [e]) :
    d = e := by
  have h1 : (y ++ [d]).getLast? = some d := List.getLast?_concat y
  rw [h, List.getLast?_concat] at h1
  exact (Option.some.inj h1).symm

theorem trimEndS_suffix {z s : Str} (hz : trimEndS z = z) (hsuf : s <:+ z)
    (hne : s ≠ []) : trimEndS s = s := by
  obtain ⟨w, rfl⟩ := hsuf
  rcases s.eq_nil_or_concat with rfl | ⟨s2, a, hs⟩
  · exact absurd rfl hne
  · rw [List.concat_eq_append] at hs
    subst hs
    have hz2 : trimEndS ((w ++ s2) ++ [a]) = (w ++ s2) ++ [a] := by
      rw [List.append_assoc]
      exact hz
    obtain ⟨y, c, hyc, hc⟩ := exists_last_not_ws hz2 (by simp)
    have ha := last_concat_inj hyc
    rw [trimEndS_append_last (by rw [ha]; exact hc)]

theorem trimStartS_cons_not_ws {c : Char} {x : Str} (hc : isWsChar c = false) :
    trimStartS (c :: x) = c :: x := by
  unfold trimStartS
  rw [List.dropWhile_cons_of_neg (by rw [hc]; exact Bool.false_ne_true)]

theorem trimEndS_trimStartS {z : Str} (hz : trimEndS z = z) :
    trimEndS (trimStartS z) = trimStartS z := by
  by_cases hn : trimStartS z = []
  · rw [hn]; rfl
  · exact trimEndS_suffix hz (List.dropWhile_suffix isWsChar) hn

theorem trimEndS_trimS (x : Str) : trimEndS (trimS x) = trimS x := by
  unfold trimS
  exact trimEndS_trimStartS (trimEndS_idem x)

theorem trimStartS_trimS (x : Str) : trimStartS (trimS x) = trimS x := by
  unfold trimS trimStartS
  exact dropWhile_idem isWsChar (trimEndS x)

theorem mem_trimEndS {c : Char} {s : Str} (h : c ∈ trimEndS s) : c ∈ s := by
  unfold trimEndS at h
  rw [List.mem_reverse] at h
  rw [← List.mem_reverse]
  exact (List.dropWhile_sublist isWsChar).mem h

theorem mem_trimStartS {c : Char} {s : Str} (h : c ∈ trimStartS s) : c ∈ s :=
  (List.dropWhile_sublist isWsChar).mem h

theorem mem_trimS {c : Char} {s : Str} (h : c ∈ trimS s) : c ∈ s :=
  mem_trimEndS (mem_trimStartS h)

theorem trimS_nil_of_all_ws {l : Str} (h : ∀ c ∈ l, isWsChar c = true) :
    trimS l = [] := by
  have h1 : trimEndS l = [] := by
    unfold trimEndS
    rw [List.dropWhile_eq_nil_iff.2 (fun a ha => h a (List.mem_reverse.1 ha))]
    rfl
  unfold trimS
  rw [h1]
  rfl

theorem exists_not_ws_of_trimS_ne_nil {l : Str} (h : trimS l ≠ []) :
    ∃ c ∈ l, isWsChar c = false := by
  by_contra hno
  push_neg at hno
  exact h (trimS_nil_of_all_ws (fun c hc => by
    have := hno c hc
    simpa using this))

theorem joinLines_cons_cons (l l2 : Str) (r : List Str) :
    joinLines (l :: l2 :: r) = l ++ '\n' :: joinLines (l2 :: r) := rfl

theorem mem_joinLines {c : Char} {l : Str} {ls : List Str} (hl : l ∈ ls)
    (hc : c ∈ l) : c ∈ joinLines ls := by
  induction ls with
  | nil => cases hl
  | cons a rest ih =>
    rcases List.mem_cons.1 hl with rfl | hl2
    · exact mem_joinLines_head rest hc
    · cases rest with
      | nil => cases hl2
      | cons b r =>
        rw [joinLines_cons_cons]
        exact List.mem_append_right a (List.mem_cons_of_mem '\n' (ih hl2))

theorem newline_mem_joinLines (a b : Str) (r : List Str) :
    '\n' ∈ joinLines (a :: b :: r) := by
  rw [joinLines_cons_cons]
  exact List.mem_append_right a (List.mem_cons_self '\n' _)

theorem joinLines_cons_ne_nil {a : Str} {ls : List Str}
    (h : a ≠ [] ∨ ls ≠ []) : joinLines (a :: ls) ≠ [] := by
  cases ls with
  | nil =>
    rcases h with h | h
    · exact h
    · exact absurd rfl h
  | cons b r =>
    rw [joinLines_cons_cons]
    intro hx
    rcases List.append_eq_nil.1 hx with ⟨_, h2⟩
    cases h2

theorem trimEndS_joinLines {ls : List Str} (h : ls ≠ [])
    (hst : ∀ l ∈ ls, trimEndS l = l) (hne : ∀ l ∈ ls, l ≠ []) :
    trimEndS (joinLines ls) = joinLines ls := by
  induction ls with
  | nil => exact absurd rfl h
  | cons l rest ih =>
    cases rest with
    | nil => exact hst l (List.mem_cons_self l [])
    | cons l2 r =>
      rw [joinLines_cons_cons]
      have hJ := ih (by simp)
        (fun x hx => hst x (List.mem_cons_of_mem l hx))
        (fun x hx => hne x (List.mem_cons_of_mem l hx))
      have hJne : joinLines (l2 :: r) ≠ [] :=
        joinLines_cons_ne_nil (Or.inl (hne l2 (by simp)))
      rw [show l ++ '\n' :: joinLines (l2 :: r) =
        (l ++ ['\n']) ++ joinLines (l2 :: r) by simp]
      exact trimEndS_append_stable hJ hJne

theorem mem_splitLines_no_newline {s : Str} :
    ∀ l ∈ splitLines s, '\n' ∉ l := by
  induction s with
  | nil =>
    intro l hl
    rw [show splitLines [] = [[]] from rfl, List.mem_singleton] at hl
    rw [hl]
    exact List.not_mem_nil '\n'
  | cons c rest ih =>
    intro l hl
    have hne := splitLines_ne_nil rest
    by_cases hc : c = '\n'
    · rw [show splitLines (c :: rest) =
        if c = '\n' then [] :: splitLines rest
        else (c :: (splitLines rest).head!) :: (splitLines rest).tail!
        from rfl, if_pos hc] at hl
      rcases List.mem_cons.1 hl with rfl | hl2
      · exact List.not_mem_nil '\n'
      · exact ih l hl2
    · rw [show splitLines (c :: rest) =
        if c = '\n' then [] :: splitLines rest
        else (c :: (splitLines rest).head!) :: (splitLines rest).tail!
        from rfl, if_neg hc] at hl
      cases hsl : splitLines rest with
      | nil => exact absurd hsl hne
      | cons h0 t0 =>
        rw [hsl] at hl
        simp only [List.head!, List.tail!] at hl
        rcases List.mem_cons.1 hl with rfl | hl2
        · intro hmem
          rcases List.mem_cons.1 hmem with h | h
          · exact hc h.symm
          · exact ih h0 (by rw [hsl]; exact List.mem_cons_self h0 t0) h
        · exact ih l (by rw [hsl]; exact List.mem_cons_of_mem h0 hl2)

theorem takeWhile_append_all {α : Type} (p : α → Bool) {xs ys : List α}
    (hxs : ∀ x ∈ xs, p x = true)
    (hys : ∀ h t, ys = h :: t → p h = false) :
    (xs ++ ys).takeWhile p = xs ∧ (xs ++ ys).dropWhile p = ys := by
  induction xs with
  | nil =>
    cases ys with
    | nil => exact ⟨rfl, rfl⟩
    | cons h t =>
      rw [List.nil_append]
      exact ⟨by rw [List.takeWhile_cons_of_neg
          (by rw [hys h t rfl]; exact Bool.false_ne_true)],
        by rw [List.dropWhile_cons_of_neg
          (by rw [hys h t rfl]; exact Bool.false_ne_true)]⟩
  | cons x xs' ih =>
    have hx := hxs x (List.mem_cons_self x xs')
    obtain ⟨ht, hd⟩ := ih (fun a ha => hxs a (List.mem_cons_of_mem x ha))
    constructor
    · rw [List.cons_append, List.takeWhile_cons_of_pos hx, ht]
    · rw [List.cons_append, List.dropWhile_cons_of_pos hx, hd]

theorem map_eq_self {α : Type} {f : α → α} {l : List α}
    (h : ∀ x ∈ l, f x = x) : l.map f = l := by
  induction l with
  | nil => rfl
  | cons x r ih =>
    rw [List.map_cons, h x (List.mem_cons_self x r),
      ih (fun a ha => h a (List.mem_cons_of_mem x ha))]

/-- The token shape of a single-line block text the encoder produces:
nonempty, no surrounding whitespace, no embedded newline. -/
def lineTok (t : Str) : Prop :=
  t ≠ [] ∧ trimStartS t = t ∧ trimEndS t = t ∧ '\n' ∉ t

/-- The shapes `markdownToNotionBlocks` can actually produce, block by
block. -/
def EncShape : NBlock → Prop
  | .heading1 t => lineTok t
  | .heading2 t => lineTok t
  | .heading3 t => lineTok t
  | .todo _ t cs => lineTok t ∧ cs = []
  | .bulleted t cs => lineTok t ∧ cs = []
  | .numbered t cs => lineTok t ∧ cs = []
  | .quote t => ∃ qs, t = joinLines qs ∧ qs ≠ [] ∧
      ∀ q ∈ qs, trimEndS q = q ∧ '\n' ∉ q
  | .code lang body => lang ≠ [] ∧ trimStartS lang = lang ∧
      trimEndS lang = lang ∧ '\n' ∉ lang ∧
      ∀ l ∈ splitLines body, isFenceStart (trimS l) = false
  | .paragraph t => ∃ ls, t = joinLines ls ∧ ls ≠ [] ∧
      ∀ l ∈ ls, trimEndS l = l ∧ '\n' ∉ l ∧ trimS l ≠ [] ∧
        isBlockBoundary (trimS l) = false
  | .divider => True
  | _ => False

theorem matchHeadingAux_inv {s content : Str} {lv level : Nat}
    (h : matchHeadingAux level s = some (lv, content)) :
    ∃ pre c u, s = pre ++ c :: u ∧ isWsChar c = true ∧
      content = u.dropWhile isWsChar := by
  induction s generalizing level with
  | nil => cases h
  | cons c rest ih =>
    unfold matchHeadingAux at h
    by_cases hc : c = '#'
    · rw [if_pos hc] at h
      by_cases hl : level < 3
      · rw [if_pos hl] at h
        obtain ⟨pre, c2, u, heq, hws, hcont⟩ := ih h
        exact ⟨c :: pre, c2, u, by rw [heq]; rfl, hws, hcont⟩
      · rw [if_neg hl] at h
        cases h
    · rw [if_neg hc] at h
      by_cases hw : isWsChar c = true
      · rw [if_pos hw] at h
        have hp := Option.some.inj h
        rw [Prod.ext_iff] at hp
        exact ⟨[], c, rest, rfl, hw, hp.2.symm⟩
      · rw [if_neg hw] at h
        cases h

theorem matchHeading_inv {s content : Str} {lv : Nat}
    (h : matchHeading s = some (lv, content)) :
    ∃ pre c u, s = pre ++ c :: u ∧ isWsChar c = true ∧
      content = u.dropWhile isWsChar := by
  unfold matchHeading at h
  split at h
  · next rest =>
    obtain ⟨pre, c, u, heq2, hws, hcont⟩ := matchHeadingAux_inv h
    exact ⟨'#' :: pre, c, u, by rw [heq2]; rfl, hws, hcont⟩
  · cases h

theorem matchTodo_inv {s text : Str} {mk : Char}
    (h : matchTodo s = some (mk, text)) :
    ∃ pre c u, s = pre ++ c :: u ∧ isWsChar c = true ∧
      text = u.dropWhile isWsChar := by
  unfold matchTodo at h
  split at h
  · next c1 c2 c3 rest =>
    split at h
    · next hcond =>
      have hp := Option.some.inj h
      rw [Prod.ext_iff] at hp
      simp only [Bool.and_eq_true] at hcond
      exact ⟨['-', c1, '[', c2, ']'], c3, rest, rfl, hcond.2, hp.2.symm⟩
    · cases h
  · cases h

theorem matchBullet_inv {s text : Str} (h : matchBullet s = some text) :
    ∃ pre c u, s = pre ++ c :: u ∧ isWsChar c = true ∧
      text = u.dropWhile isWsChar := by
  unfold matchBullet at h
  split at h
  · next c rest =>
    split at h
    · next hws =>
      exact ⟨['-'], c, rest, rfl, hws, (Option.some.inj h).symm⟩
    · cases h
  · cases h

theorem matchNumber_inv {s text : Str} (h : matchNumber s = some text) :
    ∃ pre c u, s = pre ++ c :: u ∧ isWsChar c = true ∧
      text = u.dropWhile isWsChar := by
  unfold matchNumber at h
  split at h
  · cases h
  · next hds =>
    split at h
    · next c rest heq =>
      split at h
      · next hws =>
        refine ⟨s.takeWhile isDigitChar ++ ['.'], c, rest, ?_, hws,
          (Option.some.inj h).symm⟩
        rw [List.append_assoc]
        rw [show ['.'] ++ c :: rest = '.' :: c :: rest from rfl, ← heq]
        exact (List.takeWhile_append_dropWhile isDigitChar s).symm
      · cases h
    · cases h

/-- Uniform consequence of the four line matchers: the captured text of a
heading, to-do, bullet or numbered item taken from a trimmed line is itself
a clean token. -/
theorem content_tok {trimmed pre u : Str} {c : Char}
    (hst : trimEndS trimmed = trimmed) (hnl : '\n' ∉ trimmed)
    (heq : trimmed = pre ++ c :: u) (hws : isWsChar c = true) :
    lineTok (u.dropWhile isWsChar) := by
  have htne : trimmed ≠ [] := by
    rw [heq]
    intro hx
    rcases List.append_eq_nil.1 hx with ⟨_, h2⟩
    cases h2
  obtain ⟨y, d, hyd, hd⟩ := exists_last_not_ws hst htne
  refine ⟨?_, dropWhile_idem isWsChar u, ?_, ?_⟩
  · intro hnil
    have hall := List.dropWhile_eq_nil_iff.1 hnil
    rcases u.eq_nil_or_concat with rfl | ⟨u2, e, hu⟩
    · have : trimmed = pre ++ [c] := by rw [heq]
      rw [hyd] at this
      have := last_concat_inj this
      rw [this] at hd
      rw [hws] at hd
      cases hd
    · rw [List.concat_eq_append] at hu
      have : trimmed = (pre ++ c :: u2) ++ [e] := by
        rw [heq, hu]
        simp
      rw [hyd] at this
      have he := last_concat_inj this
      have hew := hall e (by rw [hu]; simp)
      rw [← he] at hew
      rw [hew] at hd
      cases hd
  · by_cases hun : u.dropWhile isWsChar = []
    · rw [hun]; rfl
    · refine trimEndS_suffix hst ?_ hun
      refine List.IsSuffix.trans (List.dropWhile_suffix isWsChar) ?_
      exact ⟨pre ++ [c], by rw [heq]; simp⟩
  · intro hmem
    exact hnl (by
      rw [heq]
      have hu : '\n' ∈ u := (List.dropWhile_sublist isWsChar).mem hmem
      exact List.mem_append_right pre (List.mem_cons_of_mem c hu))

theorem matchFence_inv {s r : Str} (h : matchFence s = some r) :
    s = '`' :: '`' :: '`' :: r := by
  unfold matchFence at h
  split at h
  · next rest => rw [Option.some.inj h]
  · cases h

theorem matchQuote_inv {s q : Str} (h : matchQuote s = some q) : q <:+ s := by
  unfold matchQuote at h
  split at h
  · next c rest =>
    split at h
    · rw [← Option.some.inj h]
      exact ⟨['>', c], rfl⟩
    · rw [← Option.some.inj h]
      exact ⟨['>'], rfl⟩
  · rw [← Option.some.inj h]
    exact ⟨['>'], by simp⟩
  · cases h

theorem trimS_trimEndS (x : Str) : trimS (trimEndS x) = trimS x := by
  unfold trimS
  rw [trimEndS_idem]

theorem encodeStep_shape {lines : List Str} {b : NBlock} {rest : List Str}
    (hnl : ∀ l ∈ lines, '\n' ∉ l)
    (h : encodeStep lines = some (some b, rest)) : EncShape b := by
  cases lines with
  | nil => cases h
  | cons raw rest0 =>
    have hnlraw : '\n' ∉ raw := hnl raw (List.mem_cons_self raw rest0)
    have hnltr : '\n' ∉ trimS (trimEndS raw) :=
      fun hm => hnlraw (mem_trimEndS (mem_trimS hm))
    have hsttr : trimEndS (trimS (trimEndS raw)) = trimS (trimEndS raw) :=
      trimEndS_trimS (trimEndS raw)
    unfold encodeStep at h
    simp only [] at h
    split at h
    · cases (Option.some.inj h)
    · next htrne =>
      split at h
      · -- fenced code block
        next langRaw heqF =>
        have hb2 := Option.some.inj (Prod.ext_iff.1 (Option.some.inj h)).1
        rw [← hb2]
        have hfi := matchFence_inv heqF
        refine ⟨?_, ?_, ?_, ?_, ?_⟩
        · split
          · next => exact (by decide : ("plain text".data : Str) ≠ [])
          · next hlr => exact hlr
        · split
          · next => decide
          · next => exact trimStartS_trimS langRaw
        · split
          · next => decide
          · next => exact trimEndS_trimS langRaw
        · split
          · next => decide
          · next =>
            intro hm
            exact hnltr (by
              rw [hfi]
              have hmm := mem_trimS hm
              exact List.mem_cons_of_mem _ (List.mem_cons_of_mem _
                (List.mem_cons_of_mem _ hmm)))
        · intro l hl
          by_cases hblnil :
            rest0.takeWhile (fun l => !(isFenceStart (trimS l))) = []
          · rw [hblnil] at hl
            rw [show joinLines [] = [] from rfl] at hl
            rw [show splitLines [] = [[]] from rfl] at hl
            rw [List.mem_singleton.1 hl]
            decide
          · rw [splitLines_joinLines _ hblnil (fun x hx =>
              hnl x (List.mem_cons_of_mem raw
                ((List.takeWhile_sublist _).mem hx)))] at hl
            have hp := List.mem_takeWhile_imp hl
            simp only [Bool.not_eq_true'] at hp
            exact hp
      · next _x1 heqFn =>
        split at h
        · -- heading
          next lv content heqH =>
          have hb2 := Option.some.inj (Prod.ext_iff.1 (Option.some.inj h)).1
          rw [← hb2]
          obtain ⟨pre, c, u, hequ, hws, hcont⟩ := matchHeading_inv heqH
          have htok : lineTok content := by
            rw [hcont]
            exact content_tok hsttr hnltr hequ hws
          rcases lv with _ | _ | _ | lv3
          · exact htok
          · exact htok
          · exact htok
          · exact htok
        · next _x2 heqHn =>
          split at h
          · -- to-do
            next mk text heqT =>
            have hb2 := Option.some.inj (Prod.ext_iff.1 (Option.some.inj h)).1
            rw [← hb2]
            obtain ⟨pre, c, u, hequ, hws, hcont⟩ := matchTodo_inv heqT
            exact ⟨by rw [hcont]; exact content_tok hsttr hnltr hequ hws, rfl⟩
          · next _x3 heqTn =>
            split at h
            · -- bullet
              next text heqB =>
              have hb2 := Option.some.inj
                (Prod.ext_iff.1 (Option.some.inj h)).1
              rw [← hb2]
              obtain ⟨pre, c, u, hequ, hws, hcont⟩ := matchBullet_inv heqB
              exact ⟨by rw [hcont]; exact content_tok hsttr hnltr hequ hws,
                rfl⟩
            · next _x4 heqBn =>
              split at h
              · -- numbered
                next text heqN =>
                have hb2 := Option.some.inj
                  (Prod.ext_iff.1 (Option.some.inj h)).1
                rw [← hb2]
                obtain ⟨pre, c, u, hequ, hws, hcont⟩ := matchNumber_inv heqN
                exact ⟨by rw [hcont]; exact content_tok hsttr hnltr hequ hws,
                  rfl⟩
              · next _x5 heqNn =>
                split at h
                · -- quote
                  next q heqQ =>
                  have hb2 := Option.some.inj
                    (Prod.ext_iff.1 (Option.some.inj h)).1
                  rw [← hb2]
                  refine ⟨_, rfl, by simp, ?_⟩
                  intro q' hq'
                  rcases List.mem_cons.1 hq' with rfl | hq2
                  · constructor
                    · by_cases hqn : q' = []
                      · rw [hqn]; rfl
                      · exact trimEndS_suffix hsttr (matchQuote_inv heqQ) hqn
                    · intro hm
                      exact hnltr ((matchQuote_inv heqQ).sublist.mem hm)
                  · obtain ⟨l0, hl0, hq0⟩ := List.mem_map.1 hq2
                    have hsome := List.mem_takeWhile_imp hl0
                    have hl0mem : l0 ∈ rest0 :=
                      (List.takeWhile_sublist _).mem hl0
                    obtain ⟨qv, hqv⟩ := Option.isSome_iff_exists.1 hsome
                    rw [hqv] at hq0
                    rw [← hq0]
                    rw [show (Option.getD (some qv) [] : Str) = qv from rfl]
                    constructor
                    · by_cases hqn : qv = []
                      · rw [hqn]; rfl
                      · exact trimEndS_suffix (trimEndS_trimS l0)
                          (matchQuote_inv hqv) hqn
                    · intro hm
                      exact hnl l0 (List.mem_cons_of_mem raw hl0mem)
                        (mem_trimS ((matchQuote_inv hqv).sublist.mem hm))
                · next _x6 heqQn =>
                  split at h
                  · -- divider
                    have hb2 := Option.some.inj
                      (Prod.ext_iff.1 (Option.some.inj h)).1
                    rw [← hb2]
                    trivial
                  · -- paragraph
                    next hhr =>
                    have hb2 := Option.some.inj
                      (Prod.ext_iff.1 (Option.some.inj h)).1
                    rw [← hb2]
                    refine ⟨_, rfl, by simp, ?_⟩
                    intro l hl
                    rcases List.mem_cons.1 hl with rfl | hl2
                    · refine ⟨trimEndS_idem raw, ?_, ?_, ?_⟩
                      · intro hm
                        exact hnlraw (mem_trimEndS hm)
                      · exact htrne
                      · unfold isBlockBoundary isFenceStart
                        rw [heqFn, heqHn, heqTn, heqBn, heqNn, heqQn]
                        simp [hhr]
                    · obtain ⟨l0, hl0, hq0⟩ := List.mem_map.1 hl2
                      have hpc := List.mem_takeWhile_imp hl0
                      have hl0mem : l0 ∈ rest0 :=
                        (List.takeWhile_sublist _).mem hl0
                      unfold paraCont at hpc
                      simp only [Bool.and_eq_true, Bool.not_eq_true',
                        Bool.not_eq_true, decide_eq_false_iff_not] at hpc
                      rw [← hq0]
                      refine ⟨trimEndS_idem l0, ?_, ?_, ?_⟩
                      · intro hm
                        exact hnl l0 (List.mem_cons_of_mem raw hl0mem)
                          (mem_trimEndS hm)
                      · rw [trimS_trimEndS]
                        exact hpc.1
                      · rw [trimS_trimEndS]
                        exact hpc.2

theorem encodeStep_rest {lines rest : List Str} {ob : Option NBlock}
    (h : encodeStep lines = some (ob, rest)) :
    (∀ l ∈ rest, l ∈ lines) ∧ rest.length < lines.length := by
  cases lines with
  | nil => cases h
  | cons raw rest0 =>
    have hbase : (∀ l ∈ rest0, l ∈ raw :: rest0) ∧
        rest0.length < (raw :: rest0).length :=
      ⟨fun l hl => List.mem_cons_of_mem raw hl, by simp⟩
    have hdrop : ∀ p : Str → Bool,
        (∀ l ∈ rest0.dropWhile p, l ∈ raw :: rest0) ∧
        (rest0.dropWhile p).length < (raw :: rest0).length := by
      intro p
      constructor
      · exact fun l hl =>
          List.mem_cons_of_mem raw ((List.dropWhile_sublist p).mem hl)
      · have hle : (rest0.dropWhile p).length ≤ rest0.length :=
          (List.dropWhile_sublist p).length_le
        simp only [List.length_cons]
        omega
    unfold encodeStep at h
    simp only [] at h
    split at h
    · have hp := Option.some.inj h
      rw [Prod.mk.injEq] at hp
      obtain ⟨h1, h2⟩ := hp
      subst h2
      exact hbase
    · split at h
      · have hp := Option.some.inj h
        rw [Prod.mk.injEq] at hp
        obtain ⟨h1, h2⟩ := hp
        subst h2
        rcases hdw : rest0.dropWhile (fun l => !(isFenceStart (trimS l)))
          with _ | ⟨x, r⟩
        · exact ⟨fun l hl => absurd hl (List.not_mem_nil l), by simp⟩
        · have hsub : ∀ l ∈ x :: r, l ∈ rest0 :=
            fun l hl => (List.dropWhile_sublist _).mem (hdw ▸ hl)
          have hlen : (x :: r).length ≤ rest0.length := by
            rw [← hdw]
            exact (List.dropWhile_sublist _).length_le
          refine ⟨fun l hl => List.mem_cons_of_mem raw
            (hsub l (List.mem_cons_of_mem x hl)), ?_⟩
          simp only [List.length_cons] at hlen ⊢
          omega
      · split at h
        · have hp := Option.some.inj h
          rw [Prod.mk.injEq] at hp
          obtain ⟨h1, h2⟩ := hp
          subst h2
          exact hbase
        · split at h
          · have hp := Option.some.inj h
            rw [Prod.mk.injEq] at hp
            obtain ⟨h1, h2⟩ := hp
            subst h2
            exact hbase
          · split at h
            · have hp := Option.some.inj h
              rw [Prod.mk.injEq] at hp
              obtain ⟨h1, h2⟩ := hp
              subst h2
              exact hbase
            · split at h
              · have hp := Option.some.inj h
                rw [Prod.mk.injEq] at hp
                obtain ⟨h1, h2⟩ := hp
                subst h2
                exact hbase
              · split at h
                · have hp := Option.some.inj h
                  rw [Prod.mk.injEq] at hp
                  obtain ⟨h1, h2⟩ := hp
                  subst h2
                  exact hdrop _
                · split at h
                  · have hp := Option.some.inj h
                    rw [Prod.mk.injEq] at hp
                    obtain ⟨h1, h2⟩ := hp
                    subst h2
                    exact hbase
                  · have hp := Option.some.inj h
                    rw [Prod.mk.injEq] at hp
                    obtain ⟨h1, h2⟩ := hp
                    subst h2
                    exact hdrop _

theorem encodeLines_nil (fuel : Nat) : encodeLines fuel [] = [] := by
  cases fuel with
  | zero => rfl
  | succ k => rfl

theorem encodeLines_shape {lines : List Str} (fuel : Nat)
    (hnl : ∀ l ∈ lines, '\n' ∉ l) :
    ∀ b ∈ encodeLines fuel lines, EncShape b := by
  induction fuel generalizing lines with
  | zero => intro b hb; cases hb
  | succ k ih =>
    intro b hb
    rw [show encodeLines (k + 1) lines =
      (match encodeStep lines with
       | none => []
       | some (none, rest) => encodeLines k rest
       | some (some b2, rest) => b2 :: encodeLines k rest) from rfl] at hb
    split at hb
    · cases hb
    · next rest heq =>
      exact ih (fun l hl => hnl l ((encodeStep_rest heq).1 l hl)) b hb
    · next b2 rest heq =>
      rcases List.mem_cons.1 hb with rfl | hb2
      · exact encodeStep_shape hnl heq
      · exact ih (fun l hl => hnl l ((encodeStep_rest heq).1 l hl)) b hb2

theorem trimS_head_stable {c : Char} {x : Str} (hc : isWsChar c = false)
    (hst : trimEndS (c :: x) = c :: x) : trimS (c :: x) = c :: x := by
  unfold trimS
  rw [hst]
  exact trimStartS_cons_not_ws hc

theorem isHr_false {s : Str} {c : Char} (hc : c ∈ s) (hne : c ≠ '-') :
    isHr s = false := by
  unfold isHr
  have hall : s.all (fun c => c = '-') = false := by
    rw [List.all_eq_false]
    exact ⟨c, hc, by simp [hne]⟩
  rw [hall, Bool.and_false]

theorem matchHeading_hash1 {t : Str} (hstart : trimStartS t = t) :
    matchHeading ("# ".data ++ t) = some (1, t) := by
  rw [show matchHeading ("# ".data ++ t) =
    some (1, List.dropWhile isWsChar t) from rfl]
  rw [show List.dropWhile isWsChar t = t from hstart]

theorem matchHeading_hash2 {t : Str} (hstart : trimStartS t = t) :
    matchHeading ("## ".data ++ t) = some (2, t) := by
  rw [show matchHeading ("## ".data ++ t) =
    some (2, List.dropWhile isWsChar t) from rfl]
  rw [show List.dropWhile isWsChar t = t from hstart]

theorem matchHeading_hash3 {t : Str} (hstart : trimStartS t = t) :
    matchHeading ("### ".data ++ t) = some (3, t) := by
  rw [show matchHeading ("### ".data ++ t) =
    some (3, List.dropWhile isWsChar t) from rfl]
  rw [show List.dropWhile isWsChar t = t from hstart]

theorem matchTodo_render {t : Str} (ck : Bool) (hstart : trimStartS t = t) :
    matchTodo ('-' :: ' ' :: '[' :: (if ck then 'x' else ' ') :: ']' :: ' '
      :: t) = some ((if ck then 'x' else ' '), t) := by
  cases ck
  · show matchTodo ('-' :: ' ' :: '[' :: ' ' :: ']' :: ' ' :: t) =
      some (' ', t)
    rw [show matchTodo ('-' :: ' ' :: '[' :: ' ' :: ']' :: ' ' :: t) =
      some (' ', List.dropWhile isWsChar t) from rfl]
    rw [show List.dropWhile isWsChar t = t from hstart]
  · show matchTodo ('-' :: ' ' :: '[' :: 'x' :: ']' :: ' ' :: t) =
      some ('x', t)
    rw [show matchTodo ('-' :: ' ' :: '[' :: 'x' :: ']' :: ' ' :: t) =
      some ('x', List.dropWhile isWsChar t) from rfl]
    rw [show List.dropWhile isWsChar t = t from hstart]

theorem matchBullet_render {t : Str} (hstart : trimStartS t = t) :
    matchBullet ("- ".data ++ t) = some t := by
  rw [show matchBullet ("- ".data ++ t) =
    some (List.dropWhile isWsChar t) from rfl]
  rw [show List.dropWhile isWsChar t = t from hstart]

theorem matchNumber_render {t : Str} (hstart : trimStartS t = t) :
    matchNumber ("1. ".data ++ t) = some t := by
  rw [show matchNumber ("1. ".data ++ t) =
    some (List.dropWhile isWsChar t) from rfl]
  rw [show List.dropWhile isWsChar t = t from hstart]

theorem boundary_none {t : Str} (h : isBlockBoundary t = false) :
    matchHeading t = none ∧ matchTodo t = none ∧ matchBullet t = none ∧
    matchNumber t = none ∧ matchQuote t = none ∧ matchFence t = none ∧
    isHr t = false := by
  have conv : ∀ {α : Type} (o : Option α), o.isSome = false → o = none := by
    intro α o ho
    cases o with
    | none => rfl
    | some v => cases ho
  unfold isBlockBoundary isFenceStart at h
  simp only [Bool.or_eq_false_iff] at h
  exact ⟨conv _ h.1.1.1.1.1.1, conv _ h.1.1.1.1.1.2, conv _ h.1.1.1.1.2,
    conv _ h.1.1.1.2, conv _ h.1.1.2, conv _ h.1.2, h.2⟩

theorem encodeStep_blank_eq {raw : Str} (rest0 : List Str)
    (hb : trimS (trimEndS raw) = []) :
    encodeStep (raw :: rest0) = some (none, rest0) := by
  unfold encodeStep
  simp only []
  rw [if_pos hb]

theorem encodeStep_code_eq {raw langRaw : Str} (rest0 : List Str)
    (hne : trimS (trimEndS raw) ≠ [])
    (hF : matchFence (trimS (trimEndS raw)) = some langRaw) :
    encodeStep (raw :: rest0) = some (some (.code
      (if trimS langRaw = [] then "plain text".data else trimS langRaw)
      (joinLines (rest0.takeWhile (fun l => !(isFenceStart (trimS l)))))),
      (match rest0.dropWhile (fun l => !(isFenceStart (trimS l))) with
       | [] => [] | _ :: r => r)) := by
  unfold encodeStep
  simp only []
  rw [if_neg hne, hF]

theorem encodeStep_head_eq {raw content : Str} {lv : Nat} (rest0 : List Str)
    (hne : trimS (trimEndS raw) ≠ [])
    (hF : matchFence (trimS (trimEndS raw)) = none)
    (hH : matchHeading (trimS (trimEndS raw)) = some (lv, content)) :
    encodeStep (raw :: rest0) = some (some ((match lv with
      | 1 => NBlock.heading1
      | 2 => NBlock.heading2
      | _ => NBlock.heading3) content), rest0) := by
  unfold encodeStep
  simp only []
  rw [if_neg hne, hF, hH]

theorem encodeStep_todo_eq {raw text : Str} {mk : Char} (rest0 : List Str)
    (hne : trimS (trimEndS raw) ≠ [])
    (hF : matchFence (trimS (trimEndS raw)) = none)
    (hH : matchHeading (trimS (trimEndS raw)) = none)
    (hT : matchTodo (trimS (trimEndS raw)) = some (mk, text)) :
    encodeStep (raw :: rest0) =
      some (some (.todo (mk = 'x' || mk = 'X') text []), rest0) := by
  unfold encodeStep
  simp only []
  rw [if_neg hne, hF, hH, hT]

theorem encodeStep_bullet_eq {raw text : Str} (rest0 : List Str)
    (hne : trimS (trimEndS raw) ≠ [])
    (hF : matchFence (trimS (trimEndS raw)) = none)
    (hH : matchHeading (trimS (trimEndS raw)) = none)
    (hT : matchTodo (trimS (trimEndS raw)) = none)
    (hB : matchBullet (trimS (trimEndS raw)) = some text) :
    encodeStep (raw :: rest0) = some (some (.bulleted text []), rest0) := by
  unfold encodeStep
  simp only []
  rw [if_neg hne, hF, hH, hT, hB]

theorem encodeStep_number_eq {raw text : Str} (rest0 : List Str)
    (hne : trimS (trimEndS raw) ≠ [])
    (hF : matchFence (trimS (trimEndS raw)) = none)
    (hH : matchHeading (trimS (trimEndS raw)) = none)
    (hT : matchTodo (trimS (trimEndS raw)) = none)
    (hB : matchBullet (trimS (trimEndS raw)) = none)
    (hN : matchNumber (trimS (trimEndS raw)) = some text) :
    encodeStep (raw :: rest0) = some (some (.numbered text []), rest0) := by
  unfold encodeStep
  simp only []
  rw [if_neg hne, hF, hH, hT, hB, hN]

theorem encodeStep_quote_eq {raw q : Str} (rest0 : List Str)
    (hne : trimS (trimEndS raw) ≠ [])
    (hF : matchFence (trimS (trimEndS raw)) = none)
    (hH : matchHeading (trimS (trimEndS raw)) = none)
    (hT : matchTodo (trimS (trimEndS raw)) = none)
    (hB : matchBullet (trimS (trimEndS raw)) = none)
    (hN : matchNumber (trimS (trimEndS raw)) = none)
    (hQ : matchQuote (trimS (trimEndS raw)) = some q) :
    encodeStep (raw :: rest0) = some (some (.quote (joinLines (q ::
      (rest0.takeWhile (fun l => (matchQuote (trimS l)).isSome)).map
        (fun l => (matchQuote (trimS l)).getD [])))),
      rest0.dropWhile (fun l => (matchQuote (trimS l)).isSome)) := by
  unfold encodeStep
  simp only []
  rw [if_neg hne, hF, hH, hT, hB, hN, hQ]

theorem encodeStep_hr_eq {raw : Str} (rest0 : List Str)
    (hne : trimS (trimEndS raw) ≠ [])
    (hF : matchFence (trimS (trimEndS raw)) = none)
    (hH : matchHeading (trimS (trimEndS raw)) = none)
    (hT : matchTodo (trimS (trimEndS raw)) = none)
    (hB : matchBullet (trimS (trimEndS raw)) = none)
    (hN : matchNumber (trimS (trimEndS raw)) = none)
    (hQ : matchQuote (trimS (trimEndS raw)) = none)
    (hHr : isHr (trimS (trimEndS raw)) = true) :
    encodeStep (raw :: rest0) = some (some .divider, rest0) := by
  unfold encodeStep
  simp only []
  rw [if_neg hne, hF, hH, hT, hB, hN, hQ, if_pos hHr]

theorem encodeStep_para_eq {raw : Str} (rest0 : List Str)
    (hne : trimS (trimEndS raw) ≠ [])
    (hF : matchFence (trimS (trimEndS raw)) = none)
    (hH : matchHeading (trimS (trimEndS raw)) = none)
    (hT : matchTodo (trimS (trimEndS raw)) = none)
    (hB : matchBullet (trimS (trimEndS raw)) = none)
    (hN : matchNumber (trimS (trimEndS raw)) = none)
    (hQ : matchQuote (trimS (trimEndS raw)) = none)
    (hHr : isHr (trimS (trimEndS raw)) = false) :
    encodeStep (raw :: rest0) = some (some (.paragraph (joinLines
      (trimEndS raw :: (rest0.takeWhile paraCont).map trimEndS))),
      rest0.dropWhile paraCont) := by
  unfold encodeStep
  simp only []
  rw [if_neg hne, hF, hH, hT, hB, hN, hQ,
    if_neg (by rw [hHr]; exact Bool.false_ne_true)]

/-- The continuation the decoder's output presents after one section's
lines: nothing, or a blank separator line followed by more. -/
def blankTail (tail : List Str) : Prop := tail = [] ∨ ∃ t', tail = [] :: t'

theorem quote_stop {tail : List Str} (h : blankTail tail) :
    tail.takeWhile (fun l => (matchQuote (trimS l)).isSome) = [] ∧
    tail.dropWhile (fun l => (matchQuote (trimS l)).isSome) = tail := by
  rcases h with rfl | ⟨t', rfl⟩
  · exact ⟨rfl, rfl⟩
  · exact ⟨List.takeWhile_cons_of_neg (by decide),
      List.dropWhile_cons_of_neg (by decide)⟩

theorem para_stop {tail : List Str} (h : blankTail tail) :
    tail.takeWhile paraCont = [] ∧ tail.dropWhile paraCont = tail := by
  rcases h with rfl | ⟨t', rfl⟩
  · exact ⟨rfl, rfl⟩
  · exact ⟨List.takeWhile_cons_of_neg (by decide),
      List.dropWhile_cons_of_neg (by decide)⟩

theorem nl_not_mem_append {x t : Str} (hx : '\n' ∉ x) (ht : '\n' ∉ t) :
    '\n' ∉ x ++ t := by
  intro hm
  rcases List.mem_append.1 hm with h | h
  · exact hx h
  · exact ht h

theorem append_ne_nil_left {x t : Str} (hx : x ≠ []) : x ++ t ≠ [] := by
  intro h
  exact hx (List.append_eq_nil.1 h).1

theorem consume_heading1 {t : Str} (htok : lineTok t) (tail : List Str) :
    encodeStep (splitLines (sectionOf (.heading1 t)) ++ tail) =
      some (some (.heading1 t), tail) := by
  obtain ⟨hne, hstart, hstable, hnl⟩ := htok
  have hst2 : trimEndS ("# ".data ++ t) = "# ".data ++ t :=
    trimEndS_append_stable hstable hne
  have hsec : sectionOf (.heading1 t) = "# ".data ++ t := hst2
  have hTrim : trimS (trimEndS ("# ".data ++ t)) = "# ".data ++ t := by
    rw [hst2]
    exact trimS_head_stable (by decide) hst2
  rw [hsec, splitLines_eq_single _ (nl_not_mem_append (by decide) hnl)]
  rw [show ["# ".data ++ t] ++ tail = ("# ".data ++ t) :: tail from rfl]
  rw [encodeStep_head_eq tail
    (by rw [hTrim]; exact append_ne_nil_left (by decide))
    (by rw [hTrim]; rfl)
    (by rw [hTrim]; exact matchHeading_hash1 hstart)]

theorem consume_heading2 {t : Str} (htok : lineTok t) (tail : List Str) :
    encodeStep (splitLines (sectionOf (.heading2 t)) ++ tail) =
      some (some (.heading2 t), tail) := by
  obtain ⟨hne, hstart, hstable, hnl⟩ := htok
  have hst2 : trimEndS ("## ".data ++ t) = "## ".data ++ t :=
    trimEndS_append_stable hstable hne
  have hsec : sectionOf (.heading2 t) = "## ".data ++ t := hst2
  have hTrim : trimS (trimEndS ("## ".data ++ t)) = "## ".data ++ t := by
    rw [hst2]
    exact trimS_head_stable (by decide) hst2
  rw [hsec, splitLines_eq_single _ (nl_not_mem_append (by decide) hnl)]
  rw [show ["## ".data ++ t] ++ tail = ("## ".data ++ t) :: tail from rfl]
  rw [encodeStep_head_eq tail
    (by rw [hTrim]; exact append_ne_nil_left (by decide))
    (by rw [hTrim]; rfl)
    (by rw [hTrim]; exact matchHeading_hash2 hstart)]

theorem consume_heading3 {t : Str} (htok : lineTok t) (tail : List Str) :
    encodeStep (splitLines (sectionOf (.heading3 t)) ++ tail) =
      some (some (.heading3 t), tail) := by
  obtain ⟨hne, hstart, hstable, hnl⟩ := htok
  have hst2 : trimEndS ("### ".data ++ t) = "### ".data ++ t :=
    trimEndS_append_stable hstable hne
  have hsec : sectionOf (.heading3 t) = "### ".data ++ t := hst2
  have hTrim : trimS (trimEndS ("### ".data ++ t)) = "### ".data ++ t := by
    rw [hst2]
    exact trimS_head_stable (by decide) hst2
  rw [hsec, splitLines_eq_single _ (nl_not_mem_append (by decide) hnl)]
  rw [show ["### ".data ++ t] ++ tail = ("### ".data ++ t) :: tail from rfl]
  rw [encodeStep_head_eq tail
    (by rw [hTrim]; exact append_ne_nil_left (by decide))
    (by rw [hTrim]; rfl)
    (by rw [hTrim]; exact matchHeading_hash3 hstart)]

theorem consume_todo {t : Str} (ck : Bool) (htok : lineTok t)
    (tail : List Str) :
    encodeStep (splitLines (sectionOf (.todo ck t [])) ++ tail) =
      some (some (.todo ck t []), tail) := by
  obtain ⟨hne, hstart, hstable, hnl⟩ := htok
  cases ck
  · have hst2 : trimEndS (['-', ' ', '[', ' ', ']', ' '] ++ t) =
        ['-', ' ', '[', ' ', ']', ' '] ++ t :=
      trimEndS_append_stable hstable hne
    have hsec : sectionOf (.todo false t []) =
        ['-', ' ', '[', ' ', ']', ' '] ++ t := hst2
    have hTrim : trimS (trimEndS (['-', ' ', '[', ' ', ']', ' '] ++ t)) =
        ['-', ' ', '[', ' ', ']', ' '] ++ t := by
      rw [hst2]
      exact trimS_head_stable (by decide) hst2
    rw [hsec, splitLines_eq_single _ (nl_not_mem_append (by decide) hnl)]
    rw [show [['-', ' ', '[', ' ', ']', ' '] ++ t] ++ tail =
      (['-', ' ', '[', ' ', ']', ' '] ++ t) :: tail from rfl]
    rw [encodeStep_todo_eq tail
      (by rw [hTrim]; exact append_ne_nil_left (by decide))
      (by rw [hTrim]; rfl)
      (by rw [hTrim]; rfl)
      (by rw [hTrim]
          exact matchTodo_render false hstart)]
    rfl
  · have hst2 : trimEndS (['-', ' ', '[', 'x', ']', ' '] ++ t) =
        ['-', ' ', '[', 'x', ']', ' '] ++ t :=
      trimEndS_append_stable hstable hne
    have hsec : sectionOf (.todo true t []) =
        ['-', ' ', '[', 'x', ']', ' '] ++ t := hst2
    have hTrim : trimS (trimEndS (['-', ' ', '[', 'x', ']', ' '] ++ t)) =
        ['-', ' ', '[', 'x', ']', ' '] ++ t := by
      rw [hst2]
      exact trimS_head_stable (by decide) hst2
    rw [hsec, splitLines_eq_single _ (nl_not_mem_append (by decide) hnl)]
    rw [show [['-', ' ', '[', 'x', ']', ' '] ++ t] ++ tail =
      (['-', ' ', '[', 'x', ']', ' '] ++ t) :: tail from rfl]
    rw [encodeStep_todo_eq tail
      (by rw [hTrim]; exact append_ne_nil_left (by decide))
      (by rw [hTrim]; rfl)
      (by rw [hTrim]; rfl)
      (by rw [hTrim]
          exact matchTodo_render true hstart)]
    rfl

theorem consume_bulleted {t : Str} (htok : lineTok t)
    (hTd : matchTodo ("- ".data ++ t) = none) (tail : List Str) :
    encodeStep (splitLines (sectionOf (.bulleted t [])) ++ tail) =
      some (some (.bulleted t []), tail) := by
  obtain ⟨hne, hstart, hstable, hnl⟩ := htok
  have hst2 : trimEndS ("- ".data ++ t) = "- ".data ++ t :=
    trimEndS_append_stable hstable hne
  have hsec : sectionOf (.bulleted t []) = "- ".data ++ t := hst2
  have hTrim : trimS (trimEndS ("- ".data ++ t)) = "- ".data ++ t := by
    rw [hst2]
    exact trimS_head_stable (by decide) hst2
  rw [hsec, splitLines_eq_single _ (nl_not_mem_append (by decide) hnl)]
  rw [show ["- ".data ++ t] ++ tail = ("- ".data ++ t) :: tail from rfl]
  rw [encodeStep_bullet_eq tail
    (by rw [hTrim]; exact append_ne_nil_left (by decide))
    (by rw [hTrim]; rfl)
    (by rw [hTrim]; rfl)
    (by rw [hTrim]; exact hTd)
    (by rw [hTrim]; exact matchBullet_render hstart)]

theorem consume_numbered {t : Str} (htok : lineTok t) (tail : List Str) :
    encodeStep (splitLines (sectionOf (.numbered t [])) ++ tail) =
      some (some (.numbered t []), tail) := by
  obtain ⟨hne, hstart, hstable, hnl⟩ := htok
  have hst2 : trimEndS ("1. ".data ++ t) = "1. ".data ++ t :=
    trimEndS_append_stable hstable hne
  have hsec : sectionOf (.numbered t []) = "1. ".data ++ t := hst2
  have hTrim : trimS (trimEndS ("1. ".data ++ t)) = "1. ".data ++ t := by
    rw [hst2]
    exact trimS_head_stable (by decide) hst2
  rw [hsec, splitLines_eq_single _ (nl_not_mem_append (by decide) hnl)]
  rw [show ["1. ".data ++ t] ++ tail = ("1. ".data ++ t) :: tail from rfl]
  rw [encodeStep_number_eq tail
    (by rw [hTrim]; exact append_ne_nil_left (by decide))
    (by rw [hTrim]; rfl)
    (by rw [hTrim]; rfl)
    (by rw [hTrim]; rfl)
    (by rw [hTrim]; rfl)
    (by rw [hTrim]; exact matchNumber_render hstart)]

theorem consume_divider (tail : List Str) :
    encodeStep (splitLines (sectionOf .divider) ++ tail) =
      some (some .divider, tail) := by
  rw [show splitLines (sectionOf .divider) = ["---".data] from rfl]
  rw [show ["---".data] ++ tail = "---".data :: tail from rfl]
  rw [encodeStep_hr_eq tail (by decide) (by decide) (by decide) (by decide)
    (by decide) (by decide) (by decide) (by decide)]

theorem consume_quote {t : Str} (hstable : trimEndS t = t) (hnl : '\n' ∉ t)
    {tail : List Str} (ht : blankTail tail) :
    encodeStep (splitLines (sectionOf (.quote t)) ++ tail) =
      some (some (.quote t), tail) := by
  obtain ⟨hq1, hq2⟩ := quote_stop ht
  by_cases hqn : t = []
  · subst hqn
    rw [show splitLines (sectionOf (.quote [])) = [">".data] from rfl]
    rw [show [">".data] ++ tail = ">".data :: tail from rfl]
    rw [encodeStep_quote_eq tail (by decide) (by decide) (by decide)
      (by decide) (by decide) (by decide)
      (show matchQuote (trimS (trimEndS (">".data))) = some [] from rfl)]
    rw [hq1, hq2]
    rfl
  · have hst2 : trimEndS ("> ".data ++ t) = "> ".data ++ t :=
      trimEndS_append_stable hstable hqn
    have hsec : sectionOf (.quote t) = "> ".data ++ t := hst2
    have hTrim : trimS (trimEndS ("> ".data ++ t)) = "> ".data ++ t := by
      rw [hst2]
      exact trimS_head_stable (by decide) hst2
    rw [hsec, splitLines_eq_single _ (nl_not_mem_append (by decide) hnl)]
    rw [show ["> ".data ++ t] ++ tail = ("> ".data ++ t) :: tail from rfl]
    rw [encodeStep_quote_eq tail
      (by rw [hTrim]; exact append_ne_nil_left (by decide))
      (by rw [hTrim]; rfl)
      (by rw [hTrim]; rfl)
      (by rw [hTrim]; rfl)
      (by rw [hTrim]; rfl)
      (by rw [hTrim]; rfl)
      (by rw [hTrim]; rfl)]
    rw [hq1, hq2]
    rfl

theorem consume_para {ls : List Str} (hls : ls ≠ [])
    (hprops : ∀ l ∈ ls, trimEndS l = l ∧ '\n' ∉ l ∧ trimS l ≠ [] ∧
      isBlockBoundary (trimS l) = false)
    {tail : List Str} (ht : blankTail tail) :
    encodeStep (splitLines (sectionOf (.paragraph (joinLines ls))) ++ tail) =
      some (some (.paragraph (joinLines ls)), tail) := by
  obtain ⟨l1, ls', rfl⟩ := List.exists_cons_of_ne_nil hls
  have hl1 := hprops l1 (List.mem_cons_self l1 ls')
  have hl1ne : l1 ≠ [] := fun hx => hl1.2.2.1 (by rw [hx]; rfl)
  have htne : joinLines (l1 :: ls') ≠ [] :=
    joinLines_cons_ne_nil (Or.inl hl1ne)
  have hstable : trimEndS (joinLines (l1 :: ls')) = joinLines (l1 :: ls') :=
    trimEndS_joinLines (by simp) (fun l hl => (hprops l hl).1)
      (fun l hl => fun hx => (hprops l hl).2.2.1 (by rw [hx]; rfl))
  have hsec : sectionOf (.paragraph (joinLines (l1 :: ls'))) =
      joinLines (l1 :: ls') := by
    unfold sectionOf
    rw [show renderBlock (.paragraph (joinLines (l1 :: ls'))) 0 =
      if joinLines (l1 :: ls') = [] then [[]] else [joinLines (l1 :: ls')]
      from rfl]
    rw [if_neg htne]
    rw [show joinLines [joinLines (l1 :: ls')] = joinLines (l1 :: ls')
      from rfl]
    exact hstable
  rw [hsec, splitLines_joinLines _ (by simp)
    (fun l hl => (hprops l hl).2.1)]
  rw [show (l1 :: ls') ++ tail = l1 :: (ls' ++ tail) from rfl]
  have hbnone := boundary_none hl1.2.2.2
  have htw := @takeWhile_append_all Str paraCont ls' tail
    (fun x hx => by
      have hp := hprops x (List.mem_cons_of_mem l1 hx)
      unfold paraCont
      rw [Bool.and_eq_true]
      constructor
      · rw [Bool.not_eq_true']
        exact decide_eq_false hp.2.2.1
      · rw [Bool.not_eq_true']
        exact hp.2.2.2)
    (fun h2 t2 heq => by
      rcases ht with rfl | ⟨t', rfl⟩
      · cases heq
      · have : h2 = [] := (List.cons.inj heq).1.symm
        rw [this]
        decide)
  rw [encodeStep_para_eq (ls' ++ tail)
    (by rw [trimS_trimEndS]; exact hl1.2.2.1)
    (by rw [trimS_trimEndS]; exact hbnone.2.2.2.2.2.1)
    (by rw [trimS_trimEndS]; exact hbnone.1)
    (by rw [trimS_trimEndS]; exact hbnone.2.1)
    (by rw [trimS_trimEndS]; exact hbnone.2.2.1)
    (by rw [trimS_trimEndS]; exact hbnone.2.2.2.1)
    (by rw [trimS_trimEndS]; exact hbnone.2.2.2.2.1)
    (by rw [trimS_trimEndS]; exact hbnone.2.2.2.2.2.2)]
  rw [htw.1, htw.2]
  rw [map_eq_self (fun x hx =>
    (hprops x (List.mem_cons_of_mem l1 hx)).1)]
  rw [hl1.1]

theorem consume_code {lang body : Str} (hlne : lang ≠ [])
    (hlstart : trimStartS lang = lang) (hlstable : trimEndS lang = lang)
    (hlnl : '\n' ∉ lang)
    (hfence : ∀ l ∈ splitLines body, isFenceStart (trimS l) = false)
    (tail : List Str) :
    encodeStep (splitLines (sectionOf (.code lang body)) ++ tail) =
      some (some (.code lang body), tail) := by
  have hjoin : joinLines (renderBlock (.code lang body) 0) =
      (("```".data ++ lang) ++ '\n' :: (body ++ ['\n'])) ++ "```".data := by
    rw [show joinLines (renderBlock (.code lang body) 0) =
      ("```".data ++ lang) ++ '\n' :: (body ++ '\n' :: "```".data) from rfl]
    simp
  have hsec : sectionOf (.code lang body) =
      (("```".data ++ lang) ++ '\n' :: (body ++ ['\n'])) ++ "```".data := by
    unfold sectionOf
    rw [hjoin]
    exact trimEndS_append_stable (by decide) (by decide)
  have hsplit : splitLines
      ((("```".data ++ lang) ++ '\n' :: (body ++ ['\n'])) ++ "```".data) =
      ("```".data ++ lang) :: (splitLines body ++ ["```".data]) := by
    rw [show ((("```".data ++ lang) ++ '\n' :: (body ++ ['\n'])) ++
      "```".data) = ("```".data ++ lang) ++ '\n' ::
        (body ++ '\n' :: "```".data) by simp]
    rw [splitLines_append_newline, splitLines_append_newline]
    rw [splitLines_eq_single ("```".data ++ lang)
      (nl_not_mem_append (by decide) hlnl)]
    rw [splitLines_eq_single "```".data (by decide)]
    rfl
  rw [hsec, hsplit]
  rw [show (("```".data ++ lang) :: (splitLines body ++ ["```".data])) ++
    tail = ("```".data ++ lang) ::
      (splitLines body ++ "```".data :: tail) by simp]
  have hst2 : trimEndS ("```".data ++ lang) = "```".data ++ lang :=
    trimEndS_append_stable hlstable hlne
  have hTrim : trimS (trimEndS ("```".data ++ lang)) =
      "```".data ++ lang := by
    rw [hst2]
    exact trimS_head_stable (by decide) hst2
  rw [encodeStep_code_eq (splitLines body ++ "```".data :: tail)
    (by rw [hTrim]; exact append_ne_nil_left (by decide))
    (by rw [hTrim]; rfl)]
  have htw := @takeWhile_append_all Str (fun l => !(isFenceStart (trimS l)))
    (splitLines body) ("```".data :: tail)
    (fun x hx => by
      rw [Bool.not_eq_true']
      exact hfence x hx)
    (fun h2 t2 heq => by
      have hh : h2 = "```".data := (List.cons.inj heq).1.symm
      rw [hh]
      decide)
  rw [htw.1, htw.2, joinLines_splitLines]
  rw [show ([] : Str).append lang = lang from rfl]
  rw [show trimS lang = lang by unfold trimS; rw [hlstable]; exact hlstart]
  rw [if_neg hlne]

/-- The extra stability conditions under which a decoded block re-encodes
to itself: a quote block must be single-line (its rendering loses the
grouping otherwise), and a bulleted item must not begin like a checkbox
(its rendering would re-parse as a to-do item). -/
def stableBlock : NBlock → Prop
  | .quote t => '\n' ∉ t
  | .bulleted t _ => matchTodo ("- ".data ++ t) = none
  | _ => True

theorem consume_block {b : NBlock} (hW : EncShape b) (hS : stableBlock b)
    {tail : List Str} (ht : blankTail tail) :
    encodeStep (splitLines (sectionOf b) ++ tail) = some (some b, tail) := by
  cases b with
  | paragraph t =>
    obtain ⟨ls, hteq, hlsne, hprops⟩ := hW
    subst hteq
    exact consume_para hlsne hprops ht
  | heading1 t => exact consume_heading1 hW tail
  | heading2 t => exact consume_heading2 hW tail
  | heading3 t => exact consume_heading3 hW tail
  | todo ck t cs =>
    obtain ⟨htok, rfl⟩ := hW
    exact consume_todo ck htok tail
  | bulleted t cs =>
    obtain ⟨htok, rfl⟩ := hW
    exact consume_bulleted htok hS tail
  | numbered t cs =>
    obtain ⟨htok, rfl⟩ := hW
    exact consume_numbered htok tail
  | quote t =>
    obtain ⟨qs, hteq, hqsne, hqprops⟩ := hW
    cases qs with
    | nil => exact absurd rfl hqsne
    | cons q qs2 =>
      cases qs2 with
      | nil =>
        have hq := hqprops q (List.mem_cons_self q [])
        subst hteq
        exact consume_quote hq.1 hq.2 ht
      | cons q2 r =>
        exfalso
        exact hS (hteq ▸ newline_mem_joinLines q q2 r)
  | callout icon t cs => exact absurd hW (by simp [EncShape])
  | code lang body =>
    obtain ⟨h1, h2, h3, h4, h5⟩ := hW
    exact consume_code h1 h2 h3 h4 h5 tail
  | divider => exact consume_divider tail
  | childDatabase i => exact absurd hW (by simp [EncShape])
  | childPage title => exact absurd hW (by simp [EncShape])
  | unsupported kind i => exact absurd hW (by simp [EncShape])

theorem sectionOf_ne_nil_of_shape {b : NBlock} (hW : EncShape b) :
    sectionOf b ≠ [] := by
  cases b with
  | paragraph t =>
    obtain ⟨ls, hteq, hlsne, hprops⟩ := hW
    obtain ⟨l1, ls', rfl⟩ := List.exists_cons_of_ne_nil hlsne
    have hl1 := hprops l1 (List.mem_cons_self l1 ls')
    obtain ⟨c, hcmem, hcw⟩ := exists_not_ws_of_trimS_ne_nil hl1.2.2.1
    subst hteq
    have htne : joinLines (l1 :: ls') ≠ [] :=
      joinLines_cons_ne_nil (Or.inl (fun hx => hl1.2.2.1 (by rw [hx]; rfl)))
    refine trimEndS_ne_nil ⟨c, ?_, hcw⟩
    rw [show renderBlock (.paragraph (joinLines (l1 :: ls'))) 0 =
      if joinLines (l1 :: ls') = [] then [[]] else [joinLines (l1 :: ls')]
      from rfl, if_neg htne]
    exact mem_joinLines_head _
      (mem_joinLines (List.mem_cons_self l1 ls') hcmem)
  | heading1 t =>
    exact trimEndS_ne_nil ⟨'#', mem_joinLines_head _ (by simp), by decide⟩
  | heading2 t =>
    exact trimEndS_ne_nil ⟨'#', mem_joinLines_head _ (by simp), by decide⟩
  | heading3 t =>
    exact trimEndS_ne_nil ⟨'#', mem_joinLines_head _ (by simp), by decide⟩
  | todo ck t cs =>
    exact trimEndS_ne_nil ⟨'-', mem_joinLines_head _ (by simp [indentRep]),
      by decide⟩
  | bulleted t cs =>
    exact trimEndS_ne_nil ⟨'-', mem_joinLines_head _ (by simp [indentRep]),
      by decide⟩
  | numbered t cs =>
    exact trimEndS_ne_nil ⟨'1', mem_joinLines_head _ (by simp [indentRep]),
      by decide⟩
  | quote t =>
    exact trimEndS_ne_nil ⟨'>', mem_joinLines_head _ (by simp), by decide⟩
  | callout icon t cs => exact absurd hW (by simp [EncShape])
  | code lang body =>
    exact trimEndS_ne_nil ⟨'`', mem_joinLines_head _ (by simp), by decide⟩
  | divider => exact trimEndS_ne_nil ⟨'-', mem_joinLines_head _ (by decide),
      by decide⟩
  | childDatabase i => exact absurd hW (by simp [EncShape])
  | childPage title => exact absurd hW (by simp [EncShape])
  | unsupported kind i => exact absurd hW (by simp [EncShape])

theorem joinSections_cons_cons (a b2 : Str) (r : List Str) :
    joinSections (a :: b2 :: r) =
      a ++ '\n' :: '\n' :: joinSections (b2 :: r) := by
  unfold joinSections
  rw [List.intercalate, List.intercalate, List.intersperse_cons_cons,
    List.join_cons, List.join_cons]
  simp

theorem joinSections_single (a : Str) : joinSections [a] = a := by
  unfold joinSections
  rw [List.intercalate]
  simp

theorem joinSections_cons_ne_nil {a : Str} {ss : List Str} (ha : a ≠ []) :
    joinSections (a :: ss) ≠ [] := by
  cases ss with
  | nil => rw [joinSections_single]; exact ha
  | cons b2 r =>
    rw [joinSections_cons_cons]
    exact append_ne_nil_left ha

theorem trimEndS_joinSections {ss : List Str}
    (h : ∀ s ∈ ss, trimEndS s = s ∧ s ≠ []) :
    trimEndS (joinSections ss) = joinSections ss := by
  induction ss with
  | nil => rfl
  | cons a rest ih =>
    cases rest with
    | nil =>
      rw [joinSections_single]
      exact (h a (List.mem_cons_self a [])).1
    | cons b2 r =>
      rw [joinSections_cons_cons]
      have hb := h b2 (List.mem_cons_of_mem a (List.mem_cons_self b2 r))
      have hJ := ih (fun s hs => h s (List.mem_cons_of_mem a hs))
      have hJne : joinSections (b2 :: r) ≠ [] := joinSections_cons_ne_nil hb.2
      rw [show a ++ '\n' :: '\n' :: joinSections (b2 :: r) =
        (a ++ ['\n', '\n']) ++ joinSections (b2 :: r) by simp]
      exact trimEndS_append_stable hJ hJne

theorem splitLines_joinSections_cons (a b2 : Str) (r : List Str) :
    splitLines (joinSections (a :: b2 :: r)) =
      splitLines a ++ [] :: splitLines (joinSections (b2 :: r)) := by
  rw [joinSections_cons_cons, splitLines_append_newline]
  rw [show splitLines ('\n' :: joinSections (b2 :: r)) =
    [] :: splitLines (joinSections (b2 :: r)) from rfl]

theorem encodeLines_sections (B : List NBlock) :
    ∀ fuel : Nat, (∀ b ∈ B, EncShape b ∧ stableBlock b) →
    (splitLines (joinSections (B.map sectionOf))).length < fuel →
    encodeLines fuel (splitLines (joinSections (B.map sectionOf))) = B := by
  induction B with
  | nil =>
    intro fuel _ hfuel
    rw [show joinSections ([].map sectionOf) = [] from rfl] at hfuel ⊢
    rw [show splitLines ([] : Str) = [[]] from rfl] at hfuel ⊢
    cases fuel with
    | zero => exact absurd hfuel (Nat.not_lt_zero _)
    | succ f =>
      rw [show encodeLines (f + 1) [[]] =
        (match encodeStep [[]] with
         | none => []
         | some (none, rest) => encodeLines f rest
         | some (some b2, rest) => b2 :: encodeLines f rest) from rfl]
      rw [@encodeStep_blank_eq [] [] rfl]
      exact encodeLines_nil f
  | cons b B' ih =>
    intro fuel hprops hfuel
    have hb := hprops b (List.mem_cons_self b B')
    simp only [List.map_cons, List.map_nil] at hfuel ih ⊢
    cases B' with
    | nil =>
      simp only [List.map_nil] at hfuel ⊢
      rw [show joinSections [sectionOf b] = sectionOf b from
        joinSections_single _] at hfuel ⊢
      cases fuel with
      | zero => exact absurd hfuel (Nat.not_lt_zero _)
      | succ f =>
        rw [show encodeLines (f + 1) (splitLines (sectionOf b)) =
          (match encodeStep (splitLines (sectionOf b)) with
           | none => []
           | some (none, rest) => encodeLines f rest
           | some (some b2, rest) => b2 :: encodeLines f rest) from rfl]
        rw [show splitLines (sectionOf b) =
          splitLines (sectionOf b) ++ [] by simp]
        rw [consume_block hb.1 hb.2 (Or.inl rfl)]
        show b :: encodeLines f [] = [b]
        rw [encodeLines_nil f]
    | cons b2 B'' =>
      simp only [List.map_cons, List.map_nil] at hfuel ih ⊢
      rw [splitLines_joinSections_cons] at hfuel ⊢
      have hS1 : 1 ≤ (splitLines (sectionOf b)).length := by
        cases hsl : splitLines (sectionOf b) with
        | nil => exact absurd hsl (splitLines_ne_nil _)
        | cons x xs => simp
      rw [List.length_append, List.length_cons] at hfuel
      cases fuel with
      | zero => exact absurd hfuel (Nat.not_lt_zero _)
      | succ f =>
        rw [show encodeLines (f + 1) (splitLines (sectionOf b) ++
          [] :: splitLines (joinSections (sectionOf b2 :: B''.map sectionOf)))
          = (match encodeStep (splitLines (sectionOf b) ++ [] :: splitLines
              (joinSections (sectionOf b2 :: B''.map sectionOf))) with
           | none => []
           | some (none, rest) => encodeLines f rest
           | some (some b3, rest) => b3 :: encodeLines f rest) from rfl]
        rw [consume_block hb.1 hb.2 (Or.inr ⟨_, rfl⟩)]
        show b :: encodeLines f ([] :: splitLines (joinSections
          (sectionOf b2 :: B''.map sectionOf))) = b :: b2 :: B''
        congr 1
        cases f with
        | zero => omega
        | succ g =>
          rw [show encodeLines (g + 1) ([] :: splitLines (joinSections
            (sectionOf b2 :: B''.map sectionOf))) =
            (match encodeStep ([] :: splitLines (joinSections
              (sectionOf b2 :: B''.map sectionOf))) with
             | none => []
             | some (none, rest) => encodeLines g rest
             | some (some b3, rest) => b3 :: encodeLines g rest) from rfl]
          rw [@encodeStep_blank_eq [] _ rfl]
          exact ih g (fun x hx => hprops x (List.mem_cons_of_mem b hx))
            (by omega)

/-- C5 (amended): the markdown codec is idempotent on its own output for
the supported subset, provided the canonical form is stable: whenever every
block of `encode X` is stable — no quote block with an embedded newline, no
bulleted item whose text itself starts like a checkbox — and
`decode(encode X)` contains no CR-LF pair, then re-encoding the decoded
text reproduces the block list exactly
(`encode(decode(encode X)) = encode X`), and consequently
`decode(encode(decode(encode X))) = decode(encode X)`. The unamended claim
fails on multi-line quote blocks. -/
theorem c5_codec_idempotent_on_stable (X : Str)
    (h1 : ∀ b ∈ markdownToNotionBlocks X, stableBlock b)
    (h2 : stripCRLF (notionBlocksToMarkdown (markdownToNotionBlocks X)) =
      notionBlocksToMarkdown (markdownToNotionBlocks X)) :
    markdownToNotionBlocks (notionBlocksToMarkdown
      (markdownToNotionBlocks X)) = markdownToNotionBlocks X ∧
    notionBlocksToMarkdown (markdownToNotionBlocks (notionBlocksToMarkdown
      (markdownToNotionBlocks X))) =
      notionBlocksToMarkdown (markdownToNotionBlocks X) := by
  have hshape : ∀ b ∈ markdownToNotionBlocks X, EncShape b := by
    intro b hb
    exact encodeLines_shape _ mem_splitLines_no_newline b hb
  have hfil : List.filter (fun s => decide (s ≠ []))
      ((markdownToNotionBlocks X).map sectionOf) =
      (markdownToNotionBlocks X).map sectionOf := by
    rw [List.filter_eq_self]
    intro s hs
    obtain ⟨b, hb, rfl⟩ := List.mem_map.1 hs
    exact decide_eq_true (sectionOf_ne_nil_of_shape (hshape b hb))
  have hDB : notionBlocksToMarkdown (markdownToNotionBlocks X) =
      joinSections ((markdownToNotionBlocks X).map sectionOf) := by
    unfold notionBlocksToMarkdown
    rw [hfil]
    refine trimEndS_joinSections ?_
    intro s hs
    obtain ⟨b, hb, rfl⟩ := List.mem_map.1 hs
    exact ⟨trimEndS_idem _, sectionOf_ne_nil_of_shape (hshape b hb)⟩
  have hE : markdownToNotionBlocks (notionBlocksToMarkdown
      (markdownToNotionBlocks X)) = markdownToNotionBlocks X := by
    rw [show markdownToNotionBlocks (notionBlocksToMarkdown
      (markdownToNotionBlocks X)) = encodeLines ((splitLines (stripCRLF
        (notionBlocksToMarkdown (markdownToNotionBlocks X)))).length + 1)
      (splitLines (stripCRLF (notionBlocksToMarkdown
        (markdownToNotionBlocks X)))) from rfl]
    rw [h2, hDB]
    exact encodeLines_sections _ _ (fun b hb => ⟨hshape b hb, h1 b hb⟩)
      (Nat.lt_succ_self _)
  exact ⟨hE, congrArg notionBlocksToMarkdown hE⟩

theorem c5_codec_idempotent_on_stable_witness :
    markdownToNotionBlocks (notionBlocksToMarkdown (markdownToNotionBlocks
      "# Title\n\n- item\n\nhello".data)) =
      markdownToNotionBlocks "# Title\n\n- item\n\nhello".data ∧
    notionBlocksToMarkdown (markdownToNotionBlocks (notionBlocksToMarkdown
      (markdownToNotionBlocks "# Title\n\n- item\n\nhello".data))) =
      notionBlocksToMarkdown (markdownToNotionBlocks
        "# Title\n\n- item\n\nhello".data) := by
  refine c5_codec_idempotent_on_stable "# Title\n\n- item\n\nhello".data
    ?_ rfl
  intro b hb
  rw [show markdownToNotionBlocks "# Title\n\n- item\n\nhello".data =
    [.heading1 "Title".data, .bulleted "item".data [],
     .paragraph "hello".data] from rfl] at hb
  rcases List.mem_cons.1 hb with rfl | hb2
  · exact trivial
  · rcases List.mem_cons.1 hb2 with rfl | hb3
    · exact rfl
    · rcases List.mem_cons.1 hb3 with rfl | hb4
      · exact trivial
      · cases hb4
